import Mathlib

/-!
# Partitioned parallel processing: sort pipeline and max reduction

A shallow embedding of `sorting_multithread.cpp`, `sorting_multiprocess.cpp`
(whose `merge`, `mergeSort`, `mergeSortedChunks`, `isSorted` and partitioning
code are textually the same) and `max_aggregation.cpp`.

* An `int*` buffer is a `List Int`; C++ `int` index variables are `Int`, so that
  `x - 1` and `min` are the source's, not truncated subtraction.
* A read outside the buffer (undefined in C++) yields `0`, a write outside the
  buffer is dropped; the theorems establish that the indices are in range
  wherever they use the result.
* Every `while`/`for` loop is a function recursive on a step budget; the budget
  handed over by the caller is never smaller than the number of iterations the
  loop performs.
* The index arithmetic of `mergeSortedChunks`' inner loop is that of a 32-bit `int`
  (`intAdd`, `intSub`, `intMul` wrap around): its products with `chunk_size` stay below
  `2 * size`, so they can leave the range of `int` once `2 * size > INT_MAX`. Everywhere
  else the indices stay between 0 and `size` (or, for `step`, below twice the worker
  count) and are computed exactly.
* A loop whose name ends in `T` is the same loop returning, besides its result, a record of
  what it did (the `merge` calls issued, the cells touched, the rounds run); its result is
  proved equal to that of the plain loop.
-/

namespace MapReduce

/-! ## Buffers -/

/-- Read `arr[i]`. -/
def rd (arr : List Int) (i : Int) : Int :=
  if 0 ≤ i then arr.getD i.toNat 0 else 0

/-- Write `arr[i] = v`. -/
def wr (arr : List Int) (i : Int) (v : Int) : List Int :=
  if 0 ≤ i then arr.set i.toNat v else arr

/-! ## `merge` (sorting_multithread.cpp 19-58, sorting_multiprocess.cpp 14-53) -/

/-- The copy loops `for (t = 0; t < n; t++) T[t] = arr[base + t]` into a fresh
array of `n` cells. -/
def copySpan (arr : List Int) (base n : Int) : List Int :=
  (List.range n.toNat).map (fun (t : Nat) => rd arr (base + (t : Int)))

/-- The first `while` of `merge`: `while (i < n1 && j < n2)`.
Returns the buffer and the final `i`, `j`, `k`. -/
def mergeLoop (L R : List Int) (n1 n2 : Int) :
    Nat → List Int → Int → Int → Int → List Int × Int × Int × Int
  | 0, arr, i, j, k => (arr, i, j, k)
  | fuel + 1, arr, i, j, k =>
    if i < n1 ∧ j < n2 then
      if rd L i ≤ rd R j then
        mergeLoop L R n1 n2 fuel (wr arr k (rd L i)) (i + 1) j (k + 1)
      else
        mergeLoop L R n1 n2 fuel (wr arr k (rd R j)) i (j + 1) (k + 1)
    else (arr, i, j, k)

/-- The second and third `while` of `merge`, which have the same shape:
`while (t < n) { arr[k] = T[t]; t++; k++; }`. Returns the buffer and the
final `k`. -/
def mergeDrain (T : List Int) (n : Int) : Nat → List Int → Int → Int → List Int × Int
  | 0, arr, _, k => (arr, k)
  | fuel + 1, arr, t, k =>
    if t < n then mergeDrain T n fuel (wr arr k (rd T t)) (t + 1) (k + 1)
    else (arr, k)

/-- `void merge(int* arr, int left, int mid, int right)`. -/
def merge (arr : List Int) (left mid right : Int) : List Int :=
  let n1 := mid - left + 1
  let n2 := right - mid
  let L := copySpan arr left n1
  let R := copySpan arr (mid + 1) n2
  let fuel := (n1 + n2).toNat
  let s1 := mergeLoop L R n1 n2 fuel arr 0 0 left
  let s2 := mergeDrain L n1 fuel s1.1 s1.2.1 s1.2.2.2
  let s3 := mergeDrain R n2 fuel s2.1 s1.2.2.1 s2.2
  s3.1

/-! ## `mergeSort` (sorting_multithread.cpp 60-67) -/

/-- The recursion of `mergeSort`, on a depth budget. `/` on `int` is `Int.tdiv`. -/
def mergeSortAux : Nat → List Int → Int → Int → List Int
  | 0, arr, _, _ => arr
  | fuel + 1, arr, left, right =>
    if left < right then
      let mid := left + (right - left).tdiv 2
      let a1 := mergeSortAux fuel arr left mid
      let a2 := mergeSortAux fuel a1 (mid + 1) right
      merge a2 left mid right
    else arr

/-- `void mergeSort(int* arr, int left, int right)`. -/
def mergeSort (arr : List Int) (left right : Int) : List Int :=
  mergeSortAux (right - left).toNat arr left right

/-! ## Partitioning (main of the three programs) -/

/-- The clamp `if (num_threads > size) num_threads = size;`. -/
def clampWorkers (size num_threads : Int) : Int :=
  if num_threads > size then size else num_threads

/-- The value `int chunk_size = size / num_threads;`. -/
def chunkSize (size num_threads : Int) : Int := size.tdiv num_threads

/-- The value `thread_data[i].start = i * chunk_size`. -/
def partStart (size num_threads i : Int) : Int := i * chunkSize size num_threads

/-- The value
`thread_data[i].end = (i == num_threads - 1) ? size - 1 : (i + 1) * chunk_size - 1`. -/
def partEnd (size num_threads i : Int) : Int :=
  if i = num_threads - 1 then size - 1 else (i + 1) * chunkSize size num_threads - 1

/-- The local phase of the sort programs: worker `i` runs
`mergeSort(arr, start_i, end_i)` (`threadSort`). The workers are taken in
index order. -/
def localSortPhase (arr : List Int) (size num_threads : Int) : List Int :=
  (List.range num_threads.toNat).foldl
    (fun (a : List Int) (i : Nat) => mergeSort a (partStart size num_threads (i : Int))
      (partEnd size num_threads (i : Int))) arr

/-! ## 32-bit `int` arithmetic -/

/-- The constant `INT_MAX` of a 32-bit `int`. -/
def INT_MAX : Int := 2147483647

/-- The value a 32-bit two's complement `int` holds for the exact result `x`. -/
def wrapInt (x : Int) : Int := (x + 2147483648) % 4294967296 - 2147483648

/-- The sum `a + b` of two `int`. -/
def intAdd (a b : Int) : Int := wrapInt (a + b)

/-- The difference `a - b` of two `int`. -/
def intSub (a b : Int) : Int := wrapInt (a - b)

/-- The product `a * b` of two `int`. -/
def intMul (a b : Int) : Int := wrapInt (a * b)

/-! ## `mergeSortedChunks` (sorting_multithread.cpp 75-89) -/

/-- The inner loop `for (int i = 0; i < num_threads; i += 2 * step)`, in `int` arithmetic. -/
def chunksInner (num_threads size chunk_size step : Int) : Nat → List Int → Int → List Int
  | 0, arr, _ => arr
  | fuel + 1, arr, i =>
    if i < num_threads then
      let left := intMul i chunk_size
      let mid := min (intSub (intMul (intAdd i step) chunk_size) 1) (intSub size 1)
      let right :=
        min (intSub (intMul (intAdd i (intMul 2 step)) chunk_size) 1) (intSub size 1)
      chunksInner num_threads size chunk_size step fuel
        (if mid < right then merge arr left mid right else arr) (intAdd i (intMul 2 step))
    else arr

/-- The outer loop `for (int step = 1; step < num_threads; step *= 2)`. The doubling is
exact: `step < num_threads` before it, so it leaves `int` only for more than `2^30`
workers. -/
def chunksOuter (num_threads size chunk_size : Int) : Nat → List Int → Int → List Int
  | 0, arr, _ => arr
  | fuel + 1, arr, step =>
    if step < num_threads then
      chunksOuter num_threads size chunk_size fuel
        (chunksInner num_threads size chunk_size step num_threads.toNat arr 0) (step * 2)
    else arr

/-- `void mergeSortedChunks(int* arr, int num_threads, int size)`. -/
def mergeSortedChunks (arr : List Int) (num_threads size : Int) : List Int :=
  chunksOuter num_threads size (size.tdiv num_threads) num_threads.toNat arr 1

/-! ## `isSorted` and the sort run -/

/-- The loop of `isSorted`: `for (int i = 0; i < size - 1; i++)`. -/
def isSortedLoop (arr : List Int) (size : Int) : Nat → Int → Bool
  | 0, _ => true
  | fuel + 1, i =>
    if i < size - 1 then
      if rd arr i > rd arr (i + 1) then false else isSortedLoop arr size fuel (i + 1)
    else true

/-- `bool isSorted(int* arr, int size)`. -/
def isSorted (arr : List Int) (size : Int) : Bool :=
  isSortedLoop arr size size.toNat 0

/-- The sort programs' `main` between the two clock readings, for validated
`size` and `num_threads`: clamp, local phase, join, and the guarded
`if (num_threads > 1) mergeSortedChunks(arr, num_threads, size);`. -/
def sortRun (arr : List Int) (size num_threads : Int) : List Int :=
  let w := clampWorkers size num_threads
  let a1 := localSortPhase arr size w
  if w > 1 then mergeSortedChunks a1 w size else a1

/-! ## Max aggregation (max_aggregation.cpp) -/

/-- The constant `INT_MIN` of a 32-bit `int`. -/
def INT_MIN : Int := -2147483648

/-- The scan loop of `findMaxMutex` and `findMaxAtomic`:
`for (int i = data->start; i <= data->end; i++) if (arr[i] > local_max) local_max = arr[i];`. -/
def scanLoop (arr : List Int) (end_ : Int) : Nat → Int → Int → Int
  | 0, _, local_max => local_max
  | fuel + 1, i, local_max =>
    if i ≤ end_ then
      scanLoop arr end_ fuel (i + 1) (if rd arr i > local_max then rd arr i else local_max)
    else local_max

/-- The value of `local_max` a worker holds after its scan, starting from `INT_MIN`. -/
def localMax (arr : List Int) (start end_ : Int) : Int :=
  scanLoop arr end_ (end_ - start + 1).toNat start INT_MIN

/-- The loop of `findSequentialMax`: `for (int i = 0; i < size; i++)`. -/
def seqLoop (arr : List Int) (size : Int) : Nat → Int → Int → Int
  | 0, _, max_val => max_val
  | fuel + 1, i, max_val =>
    if i < size then
      seqLoop arr size fuel (i + 1) (if rd arr i > max_val then rd arr i else max_val)
    else max_val

/-- `int findSequentialMax(int* arr, int size)`. -/
def findSequentialMax (arr : List Int) (size : Int) : Int :=
  seqLoop arr size size.toNat 0 INT_MIN

/-- The globals `global_max` and `sync_operations` of the exclusive-lock run. -/
structure MutexState where
  global_max : Int
  sync_operations : Int
deriving DecidableEq

/-- The critical section of `findMaxMutex`, between `pthread_mutex_lock` and
`pthread_mutex_unlock`: `sync_operations++; if (local_max > global_max) global_max = local_max;`.
It runs as one step. -/
def criticalSection (local_max : Int) (s : MutexState) : MutexState :=
  { sync_operations := s.sync_operations + 1
    global_max := if local_max > s.global_max then local_max else s.global_max }

/-- `findMaxMutex`: the local scan, then the critical section. -/
def findMaxMutex (arr : List Int) (start end_ : Int) (s : MutexState) : MutexState :=
  criticalSection (localMax arr start end_) s

/-- `runExperiment(arr, size, num_threads, false)`: the globals are reset, then the
`num_threads` workers pass through their critical sections in the order `order`
(a list of worker indices). -/
def runMutex (arr : List Int) (size num_threads : Int) (order : List Nat) : MutexState :=
  order.foldl
    (fun (s : MutexState) (i : Nat) =>
      findMaxMutex arr (partStart size num_threads (i : Int)) (partEnd size num_threads (i : Int)) s)
    { global_max := INT_MIN, sync_operations := 0 }

/-- Where a `findMaxAtomic` worker stands: before `atomic_max.load()`, at the `while`
condition, at the `sync_operations++` of the loop body, at the `sync_operations++`
after the loop, or finished. -/
inductive PC where
  | atLoad
  | atTest
  | atBodyInc
  | atExitInc
  | finished
deriving DecidableEq

/-- The private variables of a `findMaxAtomic` worker. -/
structure Worker where
  local_max : Int
  expected : Int
  pc : PC
deriving DecidableEq

/-- The shared state of the lock-free run: `atomic_max`, `sync_operations`, the workers,
and a ghost count `failed` of the compare-and-swap attempts that returned false. -/
structure AtomicState where
  atomic_max : Int
  sync_operations : Int
  failed : Int
  workers : List Worker
deriving DecidableEq

/-- One atomic step of worker `w` on the shared variables. `spurious` says whether a
`compare_exchange_weak` performed in this step fails although the values are equal. -/
def stepWorker (spurious : Bool) (atomic_max sync_operations failed : Int) (w : Worker) :
    Int × Int × Int × Worker :=
  match w.pc with
  | PC.atLoad =>
    (atomic_max, sync_operations, failed, { w with expected := atomic_max, pc := PC.atTest })
  | PC.atTest =>
    if w.local_max > w.expected then
      if atomic_max = w.expected ∧ spurious = false then
        (w.local_max, sync_operations, failed, { w with pc := PC.atExitInc })
      else
        (atomic_max, sync_operations, failed + 1,
          { w with expected := atomic_max, pc := PC.atBodyInc })
    else (atomic_max, sync_operations, failed, { w with pc := PC.atExitInc })
  | PC.atBodyInc => (atomic_max, sync_operations + 1, failed, { w with pc := PC.atTest })
  | PC.atExitInc => (atomic_max, sync_operations + 1, failed, { w with pc := PC.finished })
  | PC.finished => (atomic_max, sync_operations, failed, w)

/-- The scheduler lets worker `ev.1` take its next atomic step. -/
def stepAtomic (s : AtomicState) (ev : Nat × Bool) : AtomicState :=
  match s.workers[ev.1]? with
  | none => s
  | some w =>
    let r := stepWorker ev.2 s.atomic_max s.sync_operations s.failed w
    { atomic_max := r.1, sync_operations := r.2.1, failed := r.2.2.1,
      workers := s.workers.set ev.1 r.2.2.2 }

/-- The state `runExperiment(arr, size, num_threads, true)` starts its workers in:
the globals reset, every worker with its scan done and about to load. -/
def initAtomic (arr : List Int) (size num_threads : Int) : AtomicState :=
  { atomic_max := INT_MIN, sync_operations := 0, failed := 0
    workers := (List.range num_threads.toNat).map (fun (i : Nat) =>
      { local_max := localMax arr (partStart size num_threads (i : Int))
          (partEnd size num_threads (i : Int))
        expected := 0, pc := PC.atLoad }) }

/-- The lock-free run under the interleaving `sched`. -/
def runAtomic (arr : List Int) (size num_threads : Int) (sched : List (Nat × Bool)) :
    AtomicState :=
  sched.foldl stepAtomic (initAtomic arr size num_threads)

/-- Every worker has reached `pthread_exit`. -/
def allFinished (s : AtomicState) : Prop := ∀ w ∈ s.workers, w.pc = PC.finished

instance (s : AtomicState) : Decidable (allFinished s) := by
  unfold allFinished; infer_instance

/-! ## Definitions used to state the properties -/

/-- The comparison `L[i] <= R[j]` of `merge`, as a boolean order. -/
def leInt (a b : Int) : Bool := decide (a ≤ b)

/-- The buffer the three loops of `merge` leave, from a state `(arr, i, j, k)`. -/
def mergeFrom (L R : List Int) (n1 n2 : Int) (fuel fd : Nat) (arr : List Int) (i j k : Int) :
    List Int :=
  let s1 := mergeLoop L R n1 n2 fuel arr i j k
  let s2 := mergeDrain L n1 fd s1.1 s1.2.1 s1.2.2.2
  (mergeDrain R n2 fd s2.1 s1.2.2.1 s2.2).1

/-- A property `P` of buffers of length `N` that every `merge` on in-range indices keeps. -/
def MergeStable (N : Nat) (P : List Int → Prop) : Prop :=
  ∀ (arr : List Int) (l m r : Nat), l ≤ m → m < r → r < N → arr.length = N → P arr →
    P (merge arr (l : Int) (m : Int) (r : Int))

/-- The value `v` is what a max-scan of `arr[lo..hi]` started at `m0` ends with: it bounds
`m0` and every scanned cell, and it is `m0` or one of the scanned cells. -/
def MaxOver (arr : List Int) (lo hi m0 v : Int) : Prop :=
  m0 ≤ v ∧ (∀ t : Int, lo ≤ t → t ≤ hi → rd arr t ≤ v) ∧
    (v = m0 ∨ ∃ t : Int, lo ≤ t ∧ t ≤ hi ∧ v = rd arr t)

/-- The value `v` is the maximum element of `A`. -/
def IsMaximum (A : List Int) (v : Int) : Prop := v ∈ A ∧ ∀ x ∈ A, x ≤ v

/-- The number of `sync_operations++` a worker standing at `pc` still has to perform
before it can finish without a further failed compare-and-swap. -/
def owed : PC → Int
  | PC.atLoad => 1
  | PC.atTest => 1
  | PC.atBodyInc => 2
  | PC.atExitInc => 1
  | PC.finished => 0

/-- The local maxima of the workers, in index order. -/
def localMaxima (arr : List Int) (size num_threads : Int) : List Int :=
  (List.range num_threads.toNat).map (fun (i : Nat) =>
    localMax arr (partStart size num_threads (i : Int)) (partEnd size num_threads (i : Int)))

/-- The invariant of the lock-free run, for workers whose local maxima are `lm`. -/
def AtomicInv (lm : List Int) (s : AtomicState) : Prop :=
  s.workers.map (fun w => w.local_max) = lm ∧
  (s.atomic_max = INT_MIN ∨ s.atomic_max ∈ lm) ∧
  (∀ w ∈ s.workers, (w.pc = PC.atTest ∨ w.pc = PC.atBodyInc) → w.expected ≤ s.atomic_max) ∧
  (∀ w ∈ s.workers, (w.pc = PC.atExitInc ∨ w.pc = PC.finished) →
    w.local_max ≤ s.atomic_max) ∧
  0 ≤ s.failed ∧
  s.sync_operations + (s.workers.map (fun w => owed w.pc)).sum
    = (s.workers.length : Int) + s.failed

/-- Whether the step the scheduler event `ev` lets a worker take from state `s` is a
`compare_exchange_weak` that returns false: the worker stands at the `while` condition with
`local_max > expected`, so that the exchange is attempted, and `atomic_max` differs from
`expected` or the weak exchange fails spuriously. This is read off the state before the
step; it does not look at what the step does. -/
def casFails (s : AtomicState) (ev : Nat × Bool) : Bool :=
  match s.workers[ev.1]? with
  | none => false
  | some w =>
    decide (w.pc = PC.atTest) && decide (w.local_max > w.expected)
      && (decide (s.atomic_max ≠ w.expected) || ev.2)

/-- The number of compare-and-swap attempts that return false while the interleaving
`sched` runs from state `s`. -/
def failedAttempts : AtomicState → List (Nat × Bool) → Int
  | _, [] => 0
  | s, ev :: rest => (if casFails s ev then 1 else 0) + failedAttempts (stepAtomic s ev) rest

/-- A buffer of `n` cells holding 1 followed by `m` cells holding 0. -/
def onesThenZeros (n m : Nat) : List Int := List.replicate n 1 ++ List.replicate m 0

/-! ## The `main` functions -/

/-- The guard `if (num_threads <= 0 || size <= 0) { cout << ...; return 1; }` that follows
the two `atoi` calls in the `main` of each program: the exit status it returns, or nothing
when `main` goes on. -/
def rejectParams (size num_threads : Int) : Option Int :=
  if num_threads ≤ 0 ∨ size ≤ 0 then some 1 else none

/-- What the operating system may refuse during a run: the shared mapping of the
multiprocess sort (`mmap` returns `MAP_FAILED`), and the creation of worker `i` in the
launch loop number `k` of the run (`pthread_create` returns nonzero, `fork` returns a
negative pid). The sort programs have one launch loop (number 0); `max_aggregation.cpp`
has two, one per call of `runExperiment`. -/
structure Env where
  mmapFails : Bool
  createFails : Nat → Nat → Bool

/-- What `main` does to memory and to its workers, in program order: the buffer of `size`
cells is allocated (`new int[size]`, or `mmap` succeeds), `mmap` fails, the bounds
`start`, `end` of worker `i` are computed, worker `i` is created, the creation of worker
`i` fails. -/
inductive Event where
  | allocated (size : Int)
  | mapFailed (size : Int)
  | partitioned (i start end_ : Int)
  | launched (i : Int)
  | launchFailed (i : Int)
deriving DecidableEq

/-- The launch loop `for (int i = 0; i < num_threads; i++)` from index `i` on: its events,
and whether it ran to its end (a failed creation leaves it by `return 1` or `exit(1)`).
The threaded programs store the bounds of worker `i` in `thread_data[i]` and then call
`pthread_create`; the multiprocess program calls `fork` first and the child computes its
bounds (`forkFirst`). -/
def launchLoop (fails : Nat → Bool) (forkFirst : Bool) (size num_threads : Int) :
    Nat → Int → List Event × Bool
  | 0, _ => ([], true)
  | fuel + 1, i =>
    if i < num_threads then
      let p := Event.partitioned i (partStart size num_threads i) (partEnd size num_threads i)
      if fails i.toNat then
        (if forkFirst then [Event.launchFailed i] else [p, Event.launchFailed i], false)
      else
        let r := launchLoop fails forkFirst size num_threads fuel (i + 1)
        ((if forkFirst then [Event.launched i, p] else [p, Event.launched i]) ++ r.1, r.2)
    else ([], true)

/-- The `main` of a sort program on `argc == 3` (`multiprocess` selects
`sorting_multiprocess.cpp`): the exit status, the events in program order, and the buffer
the run ends with if it gets that far. The buffer `arr` stands for what
`generateRandomArray` writes. The status is 1 at the parameter guard, at
`if (arr == MAP_FAILED) return 1;` and at the `return 1` of a failed `pthread_create` or
`fork`; otherwise `main` returns 0. -/
def sortMain (multiprocess : Bool) (env : Env) (arr : List Int) (size num_threads : Int) :
    Int × List Event × Option (List Int) :=
  match rejectParams size num_threads with
  | some status => (status, [], none)
  | none =>
    let w := clampWorkers size num_threads
    if multiprocess && env.mmapFails then (1, [Event.mapFailed size], none)
    else
      let r := launchLoop (env.createFails 0) multiprocess size w w.toNat 0
      if r.2 then (0, Event.allocated size :: r.1, some (sortRun arr size num_threads))
      else (1, Event.allocated size :: r.1, none)

/-- The `main` of `max_aggregation.cpp` on `argc == 3`: the exit status, the events in
program order, and, if both experiments ran, the sequential maximum and the final states
of the two experiments (under the order `order` of the critical sections and the
interleaving `sched`). The status is 1 at the parameter guard and at the `exit(1)` of a
failed `pthread_create` in either `runExperiment`; otherwise `main` returns 0. -/
def maxMain (env : Env) (arr : List Int) (size num_threads : Int) (order : List Nat)
    (sched : List (Nat × Bool)) :
    Int × List Event × Option (Int × MutexState × AtomicState) :=
  match rejectParams size num_threads with
  | some status => (status, [], none)
  | none =>
    let w := clampWorkers size num_threads
    let r1 := launchLoop (env.createFails 0) false size w w.toNat 0
    if r1.2 then
      let r2 := launchLoop (env.createFails 1) false size w w.toNat 0
      if r2.2 then
        (0, Event.allocated size :: (r1.1 ++ r2.1),
          some (findSequentialMax arr size, runMutex arr size w order,
            runAtomic arr size w sched))
      else (1, Event.allocated size :: (r1.1 ++ r2.1), none)
    else (1, Event.allocated size :: r1.1, none)

/-! ## The loops again, recording what they do -/

/-- The first `while` of `merge`, returning also the indices `k` of the cells `arr[k]` it
writes, in order. -/
def mergeLoopT (L R : List Int) (n1 n2 : Int) :
    Nat → List Int → Int → Int → Int → (List Int × Int × Int × Int) × List Int
  | 0, arr, i, j, k => ((arr, i, j, k), [])
  | fuel + 1, arr, i, j, k =>
    if i < n1 ∧ j < n2 then
      if rd L i ≤ rd R j then
        let r := mergeLoopT L R n1 n2 fuel (wr arr k (rd L i)) (i + 1) j (k + 1)
        (r.1, k :: r.2)
      else
        let r := mergeLoopT L R n1 n2 fuel (wr arr k (rd R j)) i (j + 1) (k + 1)
        (r.1, k :: r.2)
    else ((arr, i, j, k), [])

/-- The second and third `while` of `merge`, returning also the indices `k` of the cells
`arr[k]` they write. -/
def mergeDrainT (T : List Int) (n : Int) :
    Nat → List Int → Int → Int → (List Int × Int) × List Int
  | 0, arr, _, k => ((arr, k), [])
  | fuel + 1, arr, t, k =>
    if t < n then
      let r := mergeDrainT T n fuel (wr arr k (rd T t)) (t + 1) (k + 1)
      (r.1, k :: r.2)
    else ((arr, k), [])

/-- The indices `base + t` of the cells `arr[base + t]` a copy loop of `merge` reads. -/
def copyReads (base n : Int) : List Int :=
  (List.range n.toNat).map (fun (t : Nat) => base + (t : Int))

/-- `merge`, returning also the indices of all the cells of `arr` it reads or writes. -/
def mergeT (arr : List Int) (left mid right : Int) : List Int × List Int :=
  let n1 := mid - left + 1
  let n2 := right - mid
  let L := copySpan arr left n1
  let R := copySpan arr (mid + 1) n2
  let fuel := (n1 + n2).toNat
  let s1 := mergeLoopT L R n1 n2 fuel arr 0 0 left
  let s2 := mergeDrainT L n1 fuel s1.1.1 s1.1.2.1 s1.1.2.2.2
  let s3 := mergeDrainT R n2 fuel s2.1.1 s1.1.2.2.1 s2.1.2
  (s3.1.1, copyReads left n1 ++ copyReads (mid + 1) n2 ++ s1.2 ++ s2.2 ++ s3.2)

/-- The recursion of `mergeSort`, returning also the `merge(arr, left, mid, right)` calls it
issues, in order. -/
def mergeSortAuxT : Nat → List Int → Int → Int → List Int × List (Int × Int × Int)
  | 0, arr, _, _ => (arr, [])
  | fuel + 1, arr, left, right =>
    if left < right then
      let mid := left + (right - left).tdiv 2
      let r1 := mergeSortAuxT fuel arr left mid
      let r2 := mergeSortAuxT fuel r1.1 (mid + 1) right
      (merge r2.1 left mid right, r1.2 ++ r2.2 ++ [(left, mid, right)])
    else (arr, [])

/-- `mergeSort`, returning also the `merge` calls it issues. -/
def mergeSortT (arr : List Int) (left right : Int) : List Int × List (Int × Int × Int) :=
  mergeSortAuxT (right - left).toNat arr left right

/-- The inner loop of `mergeSortedChunks`, returning also the `merge(arr, left, mid, right)`
calls it issues, in order. -/
def chunksInnerT (num_threads size chunk_size step : Int) :
    Nat → List Int → Int → List Int × List (Int × Int × Int)
  | 0, arr, _ => (arr, [])
  | fuel + 1, arr, i =>
    if i < num_threads then
      let left := intMul i chunk_size
      let mid := min (intSub (intMul (intAdd i step) chunk_size) 1) (intSub size 1)
      let right :=
        min (intSub (intMul (intAdd i (intMul 2 step)) chunk_size) 1) (intSub size 1)
      if mid < right then
        let r := chunksInnerT num_threads size chunk_size step fuel
          (merge arr left mid right) (intAdd i (intMul 2 step))
        (r.1, (left, mid, right) :: r.2)
      else chunksInnerT num_threads size chunk_size step fuel arr (intAdd i (intMul 2 step))
    else (arr, [])

/-- The outer loop of `mergeSortedChunks`, returning also the `merge` calls issued and the
number of times its body ran. -/
def chunksOuterT (num_threads size chunk_size : Int) :
    Nat → List Int → Int → List Int × List (Int × Int × Int) × Nat
  | 0, arr, _ => (arr, [], 0)
  | fuel + 1, arr, step =>
    if step < num_threads then
      let r := chunksInnerT num_threads size chunk_size step num_threads.toNat arr 0
      let rest := chunksOuterT num_threads size chunk_size fuel r.1 (step * 2)
      (rest.1, r.2 ++ rest.2.1, rest.2.2 + 1)
    else (arr, [], 0)

/-- `mergeSortedChunks`, returning also the `merge` calls issued and the number of rounds
of the outer loop. -/
def mergeSortedChunksT (arr : List Int) (num_threads size : Int) :
    List Int × List (Int × Int × Int) × Nat :=
  chunksOuterT num_threads size (size.tdiv num_threads) num_threads.toNat arr 1

/-! ## More definitions used to state the properties -/

/-- The cells `arr[left..right]`, both ends included. -/
def segment (arr : List Int) (left right : Int) : List Int :=
  copySpan arr left (right - left + 1)

/-- The cells `arr[lo..hi]` are non-decreasing: `arr[k] <= arr[k+1]` for `lo <= k < hi`. -/
def NonDecreasing (arr : List Int) (lo hi : Int) : Prop :=
  ∀ k : Int, lo ≤ k → k < hi → rd arr k ≤ rd arr (k + 1)

/-- Any two cells of `arr[lo..hi]` are in order. -/
def SortedSeg (arr : List Int) (lo hi : Int) : Prop :=
  ∀ p q : Int, lo ≤ p → p ≤ q → q ≤ hi → rd arr p ≤ rd arr q

/-- The stable two-pointer merge of the specification: the smaller head goes first, and on
equal keys the left span's element is taken first. -/
def stableMerge : List Int → List Int → List Int
  | [], ys => ys
  | x :: xs, [] => x :: xs
  | x :: xs, y :: ys =>
    if x ≤ y then x :: stableMerge xs (y :: ys) else y :: stableMerge (x :: xs) ys
termination_by xs ys => xs.length + ys.length

/-! ## Properties of `merge` -/

theorem rd_natCast (arr : List Int) (n : Nat) : rd arr (n : Int) = arr.getD n 0 := by
  simp [rd]

theorem wr_natCast (arr : List Int) (n : Nat) (v : Int) : wr arr (n : Int) v = arr.set n v := by
  simp [wr]

theorem copySpan_eq (arr : List Int) (b n : Nat) (h : b + n ≤ arr.length) :
    copySpan arr (b : Int) (n : Int) = (arr.drop b).take n := by
  unfold copySpan
  apply List.ext_getElem
  · simp; omega
  · intro t h1 h2
    simp at h1
    have e : (b : Int) + (t : Int) = ((b + t : Nat) : Int) := by push_cast; rfl
    simp only [List.getElem_map, List.getElem_range, Int.toNat_ofNat, e, rd_natCast]
    rw [List.getD_eq_getElem _ _ (by omega)]
    simp

theorem take_succ_set (arr : List Int) (k : Nat) (v : Int) (h : k < arr.length) :
    (arr.set k v).take (k + 1) = arr.take k ++ [v] := by
  induction arr generalizing k with
  | nil => simp at h
  | cons a as ih =>
    cases k with
    | zero => simp
    | succ k =>
      simp only [List.length_cons, Nat.add_lt_add_iff_right] at h
      simp [ih k h]

theorem drop_set_of_lt (arr : List Int) (k n : Nat) (v : Int) (h : k < n) :
    (arr.set k v).drop n = arr.drop n := by
  simp [List.drop_set, h]

/-- The drain loops copy the rest of `T` to `arr[k ..]`. -/
theorem mergeDrain_eq (T : List Int) (n : Nat) (hT : T.length = n) :
    ∀ (fuel : Nat) (arr : List Int) (t k : Nat), t ≤ n → n - t ≤ fuel →
      k + (n - t) ≤ arr.length →
      mergeDrain T (n : Int) fuel arr (t : Int) (k : Int)
        = (arr.take k ++ T.drop t ++ arr.drop (k + (n - t)), ((k + (n - t) : Nat) : Int)) := by
  intro fuel
  induction fuel with
  | zero =>
    intro arr t k ht hf hk
    have : n - t = 0 := by omega
    have h2 : T.drop t = [] := by apply List.drop_eq_nil_of_le; omega
    simp [mergeDrain, this, h2]
  | succ f ih =>
    intro arr t k ht hf hk
    unfold mergeDrain
    by_cases hlt : t < n
    · have hc : (t : Int) < (n : Int) := by omega
      rw [if_pos hc]
      have e1 : (t : Int) + 1 = ((t + 1 : Nat) : Int) := by push_cast; rfl
      have e2 : (k : Int) + 1 = ((k + 1 : Nat) : Int) := by push_cast; rfl
      rw [e1, e2, rd_natCast, wr_natCast]
      rw [ih _ (t + 1) (k + 1) (by omega) (by omega) (by simp; omega)]
      have hk' : k < arr.length := by omega
      have e3 : k + 1 + (n - (t + 1)) = k + (n - t) := by omega
      rw [e3, take_succ_set _ _ _ hk', drop_set_of_lt _ _ _ _ (by omega)]
      rw [List.getD_eq_getElem _ _ (by omega : t < T.length)]
      rw [List.drop_eq_getElem_cons (by omega : t < T.length)]
      simp
    · have hc : ¬ (t : Int) < (n : Int) := by omega
      rw [if_neg hc]
      have : n - t = 0 := by omega
      have h2 : T.drop t = [] := by apply List.drop_eq_nil_of_le; omega
      simp [this, h2]

/-- The two drain loops run one after the other, when one of the spans is already used up. -/
theorem mergeDrains_eq (L R : List Int) (n1 n2 : Nat) (hL : L.length = n1) (hR : R.length = n2)
    (fd : Nat) (arr : List Int) (i j k : Nat) (hi : i ≤ n1) (hj : j ≤ n2)
    (hij : i = n1 ∨ j = n2) (hfi : n1 - i ≤ fd) (hfj : n2 - j ≤ fd)
    (hk : k + (n1 - i) + (n2 - j) ≤ arr.length) :
    (mergeDrain R (n2 : Int) fd (mergeDrain L (n1 : Int) fd arr (i : Int) (k : Int)).1 (j : Int)
        (mergeDrain L (n1 : Int) fd arr (i : Int) (k : Int)).2).1
      = arr.take k ++ List.merge (L.drop i) (R.drop j) leInt
          ++ arr.drop (k + (n1 - i) + (n2 - j)) := by
  rw [mergeDrain_eq L n1 hL fd arr i k hi hfi (by omega)]
  simp only
  rw [mergeDrain_eq R n2 hR fd _ j _ hj hfj (by simp; omega)]
  simp only
  rcases hij with h | h
  · subst h
    have h2 : L.drop i = [] := by apply List.drop_eq_nil_of_le; omega
    simp [h2, List.nil_merge]
  · subst h
    have h2 : R.drop j = [] := by apply List.drop_eq_nil_of_le; omega
    simp only [h2, List.merge_right, Nat.sub_self, Nat.add_zero, List.append_nil,
      List.take_append_drop]

theorem mergeLoop_exit (L R : List Int) (n1 n2 : Int) (fuel : Nat) (arr : List Int)
    (i j k : Int) (h : ¬ (i < n1 ∧ j < n2)) :
    mergeLoop L R n1 n2 fuel arr i j k = (arr, i, j, k) := by
  cases fuel with
  | zero => rfl
  | succ f => rw [mergeLoop, if_neg h]

theorem mergeLoop_left (L R : List Int) (n1 n2 : Int) (f : Nat) (arr : List Int)
    (i j k : Int) (h : i < n1 ∧ j < n2) (hle : rd L i ≤ rd R j) :
    mergeLoop L R n1 n2 (f + 1) arr i j k
      = mergeLoop L R n1 n2 f (wr arr k (rd L i)) (i + 1) j (k + 1) := by
  rw [mergeLoop, if_pos h, if_pos hle]

theorem mergeLoop_right (L R : List Int) (n1 n2 : Int) (f : Nat) (arr : List Int)
    (i j k : Int) (h : i < n1 ∧ j < n2) (hle : ¬ rd L i ≤ rd R j) :
    mergeLoop L R n1 n2 (f + 1) arr i j k
      = mergeLoop L R n1 n2 f (wr arr k (rd R j)) i (j + 1) (k + 1) := by
  rw [mergeLoop, if_pos h, if_neg hle]

theorem rd_getElem (T : List Int) (t : Nat) (h : t < T.length) : rd T (t : Int) = T[t] := by
  rw [rd_natCast]; exact List.getD_eq_getElem _ _ h

theorem mergeFrom_left (L R : List Int) (n1 n2 : Nat) (arr : List Int) (i j k f fd : Nat)
    (hi : i < L.length) (hj : j < R.length) (hc : i < n1 ∧ j < n2) (hle : L[i] ≤ R[j]) :
    mergeFrom L R (n1 : Int) (n2 : Int) (f + 1) fd arr (i : Int) (j : Int) (k : Int)
      = mergeFrom L R (n1 : Int) (n2 : Int) f fd (arr.set k L[i]) ((i + 1 : Nat) : Int)
          (j : Int) ((k + 1 : Nat) : Int) := by
  have hc' : (i : Int) < (n1 : Int) ∧ (j : Int) < (n2 : Int) := by omega
  have e1 : (i : Int) + 1 = ((i + 1 : Nat) : Int) := by push_cast; rfl
  have e3 : (k : Int) + 1 = ((k + 1 : Nat) : Int) := by push_cast; rfl
  have gL := rd_getElem L i hi
  have gR := rd_getElem R j hj
  have hle' : rd L (i : Int) ≤ rd R (j : Int) := by simpa only [gL, gR] using hle
  have h := mergeLoop_left L R (n1 : Int) (n2 : Int) f arr (i : Int) (j : Int) (k : Int) hc' hle'
  simp only [mergeFrom, h]
  simp only [gL, wr_natCast, e1, e3]

theorem mergeFrom_right (L R : List Int) (n1 n2 : Nat) (arr : List Int) (i j k f fd : Nat)
    (hi : i < L.length) (hj : j < R.length) (hc : i < n1 ∧ j < n2) (hle : ¬ L[i] ≤ R[j]) :
    mergeFrom L R (n1 : Int) (n2 : Int) (f + 1) fd arr (i : Int) (j : Int) (k : Int)
      = mergeFrom L R (n1 : Int) (n2 : Int) f fd (arr.set k R[j]) (i : Int)
          ((j + 1 : Nat) : Int) ((k + 1 : Nat) : Int) := by
  have hc' : (i : Int) < (n1 : Int) ∧ (j : Int) < (n2 : Int) := by omega
  have e2 : (j : Int) + 1 = ((j + 1 : Nat) : Int) := by push_cast; rfl
  have e3 : (k : Int) + 1 = ((k + 1 : Nat) : Int) := by push_cast; rfl
  have gL := rd_getElem L i hi
  have gR := rd_getElem R j hj
  have hle' : ¬ rd L (i : Int) ≤ rd R (j : Int) := by simpa only [gL, gR] using hle
  have h := mergeLoop_right L R (n1 : Int) (n2 : Int) f arr (i : Int) (j : Int) (k : Int) hc' hle'
  simp only [mergeFrom, h]
  simp only [gR, wr_natCast, e2, e3]

theorem mergeFrom_exit (L R : List Int) (n1 n2 : Nat) (hL : L.length = n1) (hR : R.length = n2)
    (fuel fd : Nat) (arr : List Int) (i j k : Nat) (hi : i ≤ n1) (hj : j ≤ n2)
    (hij : i = n1 ∨ j = n2) (hfi : n1 - i ≤ fd) (hfj : n2 - j ≤ fd)
    (hk : k + (n1 - i) + (n2 - j) ≤ arr.length) :
    mergeFrom L R (n1 : Int) (n2 : Int) fuel fd arr (i : Int) (j : Int) (k : Int)
      = arr.take k ++ List.merge (L.drop i) (R.drop j) leInt
          ++ arr.drop (k + (n1 - i) + (n2 - j)) := by
  have hc' : ¬ ((i : Int) < (n1 : Int) ∧ (j : Int) < (n2 : Int)) := by omega
  have h := mergeLoop_exit L R (n1 : Int) (n2 : Int) fuel arr (i : Int) (j : Int) (k : Int) hc'
  simp only [mergeFrom, h]
  exact mergeDrains_eq L R n1 n2 hL hR fd arr i j k hi hj hij hfi hfj hk

/-- The three loops of `merge` from the state `(i, j, k)`: what they leave in the buffer. -/
theorem mergeFrom_eq (L R : List Int) (n1 n2 : Nat) (hL : L.length = n1) (hR : R.length = n2)
    (fd : Nat) :
    ∀ (fuel : Nat) (arr : List Int) (i j k : Nat), i ≤ n1 → j ≤ n2 →
      (n1 - i) + (n2 - j) ≤ fuel → n1 - i ≤ fd → n2 - j ≤ fd →
      k + (n1 - i) + (n2 - j) ≤ arr.length →
      mergeFrom L R (n1 : Int) (n2 : Int) fuel fd arr (i : Int) (j : Int) (k : Int)
        = arr.take k ++ List.merge (L.drop i) (R.drop j) leInt
            ++ arr.drop (k + (n1 - i) + (n2 - j)) := by
  intro fuel
  induction fuel with
  | zero =>
    intro arr i j k hi hj hf hfi hfj hk
    exact mergeFrom_exit L R n1 n2 hL hR 0 fd arr i j k hi hj (by omega) hfi hfj hk
  | succ f ih =>
    intro arr i j k hi hj hf hfi hfj hk
    by_cases hc : i < n1 ∧ j < n2
    · have hiL : i < L.length := by omega
      have hjR : j < R.length := by omega
      have hk' : k < arr.length := by omega
      have hLi : L.drop i = L[i] :: L.drop (i + 1) := List.drop_eq_getElem_cons hiL
      have hRj : R.drop j = R[j] :: R.drop (j + 1) := List.drop_eq_getElem_cons hjR
      by_cases hle : L[i] ≤ R[j]
      · rw [mergeFrom_left L R n1 n2 arr i j k f fd hiL hjR hc hle]
        rw [ih _ (i + 1) j (k + 1) (by omega) hj (by omega) (by omega) hfj
          (by rw [List.length_set]; omega)]
        rw [take_succ_set _ _ _ hk', drop_set_of_lt _ _ _ _ (by omega)]
        conv => rhs; rw [hLi, hRj, List.cons_merge_cons]
        have hb : leInt L[i] R[j] = true := by simp [leInt, hle]
        rw [if_pos hb, ← hRj]
        have e : k + 1 + (n1 - (i + 1)) + (n2 - j) = k + (n1 - i) + (n2 - j) := by omega
        simp [e]
      · rw [mergeFrom_right L R n1 n2 arr i j k f fd hiL hjR hc hle]
        rw [ih _ i (j + 1) (k + 1) hi (by omega) (by omega) hfi (by omega)
          (by rw [List.length_set]; omega)]
        rw [take_succ_set _ _ _ hk', drop_set_of_lt _ _ _ _ (by omega)]
        conv => rhs; rw [hLi, hRj, List.cons_merge_cons]
        have hb : ¬ leInt L[i] R[j] = true := by simp [leInt, hle]
        rw [if_neg hb, ← hLi]
        have e : k + 1 + (n1 - i) + (n2 - (j + 1)) = k + (n1 - i) + (n2 - j) := by omega
        simp [e]
    · exact mergeFrom_exit L R n1 n2 hL hR (f + 1) fd arr i j k hi hj (by omega) hfi hfj hk

/-- What `merge` computes on in-range indices: the span `arr[left..right]` is replaced by the
two-way merge of `arr[left..mid]` and `arr[mid+1..right]`, the rest of the buffer is kept. -/
theorem merge_eq (arr : List Int) (l m r : Nat) (hlm : l ≤ m) (hmr : m < r)
    (hr : r < arr.length) :
    merge arr (l : Int) (m : Int) (r : Int)
      = arr.take l
        ++ List.merge ((arr.drop l).take (m - l + 1)) ((arr.drop (m + 1)).take (r - m)) leInt
        ++ arr.drop (r + 1) := by
  unfold merge
  have e1 : (m : Int) - (l : Int) + 1 = ((m - l + 1 : Nat) : Int) := by omega
  have e2 : (r : Int) - (m : Int) = ((r - m : Nat) : Int) := by omega
  have e3 : (m : Int) + 1 = ((m + 1 : Nat) : Int) := by push_cast; rfl
  simp only [e1, e2, e3]
  rw [copySpan_eq arr l (m - l + 1) (by omega), copySpan_eq arr (m + 1) (r - m) (by omega)]
  have hL : ((arr.drop l).take (m - l + 1)).length = m - l + 1 := by simp; omega
  have hR : ((arr.drop (m + 1)).take (r - m)).length = r - m := by simp; omega
  have e4 : (((m - l + 1 : Nat) : Int) + ((r - m : Nat) : Int)).toNat = (m - l + 1) + (r - m) := by
    omega
  rw [e4]
  have h := mergeFrom_eq _ _ (m - l + 1) (r - m) hL hR ((m - l + 1) + (r - m))
    ((m - l + 1) + (r - m)) arr 0 0 l (by omega) (by omega) (by omega) (by omega) (by omega)
    (by omega)
  simp only [Nat.cast_zero, List.drop_zero, Nat.sub_zero, mergeFrom] at h
  rw [h]
  congr 2
  omega

/-! ## Facts about `merge` on in-range indices -/

theorem span_split (arr : List Int) (l m r : Nat) (hlm : l ≤ m) (hmr : m < r) :
    arr.take l ++ ((arr.drop l).take (m - l + 1) ++ (arr.drop (m + 1)).take (r - m))
      ++ arr.drop (r + 1) = arr := by
  have e1 : (arr.drop (m + 1)).take (r - m) = ((arr.drop l).drop (m - l + 1)).take (r - m) := by
    rw [List.drop_drop]; congr 2; omega
  rw [e1, ← List.take_add]
  have e2 : arr.drop (r + 1) = (arr.drop l).drop (m - l + 1 + (r - m)) := by
    rw [List.drop_drop]; congr 1; omega
  rw [e2, List.append_assoc, List.take_append_drop, List.take_append_drop]

theorem merge_perm (arr : List Int) (l m r : Nat) (hlm : l ≤ m) (hmr : m < r)
    (hr : r < arr.length) : List.Perm (merge arr (l : Int) (m : Int) (r : Int)) arr := by
  rw [merge_eq arr l m r hlm hmr hr]
  have h := span_split arr l m r hlm hmr
  conv => rhs; rw [← h]
  exact List.Perm.append_right _ (List.Perm.append_left _ (List.perm_merge _ _ _))

theorem merge_length (arr : List Int) (l m r : Nat) (hlm : l ≤ m) (hmr : m < r)
    (hr : r < arr.length) : (merge arr (l : Int) (m : Int) (r : Int)).length = arr.length :=
  (merge_perm arr l m r hlm hmr hr).length_eq

/-- On a non-decreasing buffer `merge` changes nothing. -/
theorem merge_sorted_id (arr : List Int) (l m r : Nat) (hlm : l ≤ m) (hmr : m < r)
    (hr : r < arr.length) (hs : arr.Pairwise (fun a b => a ≤ b)) :
    merge arr (l : Int) (m : Int) (r : Int) = arr := by
  rw [merge_eq arr l m r hlm hmr hr]
  have h := span_split arr l m r hlm hmr
  have hs2 := hs
  rw [← h] at hs2
  have h3 := (List.pairwise_append.1 (List.pairwise_append.1 hs2).1).2.1
  have h4 := (List.pairwise_append.1 h3).2.2
  rw [List.merge_of_le (fun a b ha hb => by simpa [leInt] using h4 a ha b hb)]
  exact h

/-- In-range `Int` indices are the casts of their `toNat`. -/
theorem merge_int (arr : List Int) (left mid right : Int) (h0 : 0 ≤ left) (hlm : left ≤ mid)
    (hmr : mid < right) :
    merge arr left mid right
      = merge arr (left.toNat : Int) (mid.toNat : Int) (right.toNat : Int) := by
  rw [Int.toNat_of_nonneg h0, Int.toNat_of_nonneg (by omega), Int.toNat_of_nonneg (by omega)]

/-! ## Index arithmetic of the partitioning -/

theorem chunk_facts (N W : Int) (h1 : 1 ≤ W) (hW : W ≤ N) :
    1 ≤ N.tdiv W ∧ W * N.tdiv W ≤ N ∧ N < W * N.tdiv W + W := by
  have hN : 0 ≤ N := by omega
  have hW0 : 0 ≤ W := by omega
  have hWpos : 0 < W := by omega
  rw [Int.tdiv_eq_ediv hN hW0]
  refine ⟨?_, ?_, ?_⟩
  · exact (Int.le_ediv_iff_mul_le hWpos).2 (by omega)
  · exact Int.mul_ediv_self_le (by omega)
  · have := Int.lt_mul_ediv_self_add hWpos (x := N)
    linarith

theorem wrapInt_eq (x : Int) (h1 : -2147483648 ≤ x) (h2 : x ≤ 2147483647) : wrapInt x = x := by
  unfold wrapInt; omega

/-- Below `2 * size ≤ INT_MAX` no index computation of the inner loop of `mergeSortedChunks`
leaves the range of `int`. -/
theorem chunk_step_exact (N W c step i : Int) (hc1 : 1 ≤ c) (hc2 : W * c ≤ N)
    (hb : 2 * N ≤ INT_MAX) (hs : 1 ≤ step) (hsW : step < W) (hi : i < W)
    (hinv : i = 0 ∨ 2 * step ≤ i) :
    intSub (intMul (intAdd i step) c) 1 = (i + step) * c - 1 ∧
    intSub (intMul (intAdd i (intMul 2 step)) c) 1 = (i + 2 * step) * c - 1 ∧
    intMul i c = i * c ∧
    intSub N 1 = N - 1 ∧
    intAdd i (intMul 2 step) = i + 2 * step := by
  unfold INT_MAX at hb
  have hi0 : 0 ≤ i := by omega
  have hsum : i + 2 * step ≤ 2 * W - 1 := by omega
  have hWc : W ≤ W * c := by nlinarith
  have p1 : 0 ≤ i * c := mul_nonneg hi0 (by omega)
  have p2 : i * c ≤ W * c := mul_le_mul_of_nonneg_right (by omega) (by omega)
  have p3 : 0 ≤ (i + step) * c := mul_nonneg (by omega) (by omega)
  have p4 : (i + step) * c ≤ (2 * W - 1) * c := mul_le_mul_of_nonneg_right (by omega) (by omega)
  have p5 : 0 ≤ (i + 2 * step) * c := mul_nonneg (by omega) (by omega)
  have p6 : (i + 2 * step) * c ≤ (2 * W - 1) * c :=
    mul_le_mul_of_nonneg_right hsum (by omega)
  have p7 : (2 * W - 1) * c = 2 * (W * c) - c := by ring
  have a1 : intAdd i step = i + step := wrapInt_eq _ (by omega) (by omega)
  have a2 : intMul 2 step = 2 * step := wrapInt_eq _ (by omega) (by omega)
  have a3 : intAdd i (2 * step) = i + 2 * step := wrapInt_eq _ (by omega) (by omega)
  have a4 : intMul (i + step) c = (i + step) * c := wrapInt_eq _ (by omega) (by omega)
  have a5 : intMul (i + 2 * step) c = (i + 2 * step) * c := wrapInt_eq _ (by omega) (by omega)
  have a6 : intSub ((i + step) * c) 1 = (i + step) * c - 1 := wrapInt_eq _ (by omega) (by omega)
  have a7 : intSub ((i + 2 * step) * c) 1 = (i + 2 * step) * c - 1 :=
    wrapInt_eq _ (by omega) (by omega)
  have a8 : intMul i c = i * c := wrapInt_eq _ (by omega) (by omega)
  have a9 : intSub N 1 = N - 1 := wrapInt_eq _ (by omega) (by omega)
  rw [a1, a2, a3, a4, a5, a6, a7]
  exact ⟨rfl, rfl, a8, a9, rfl⟩
/-- A property of buffers of length `N` that no in-range `merge` destroys. -/
theorem merge_keeps (N : Nat) (P : List Int → Prop) (hP : MergeStable N P)
    (arr : List Int) (left mid right : Int) (h0 : 0 ≤ left) (hlm : left ≤ mid)
    (hmr : mid < right) (hr : right < N) (hlen : arr.length = N) (ha : P arr) :
    (merge arr left mid right).length = N ∧ P (merge arr left mid right) := by
  rw [merge_int arr left mid right h0 hlm hmr]
  constructor
  · rw [merge_length _ _ _ _ (by omega) (by omega) (by omega)]; exact hlen
  · exact hP arr _ _ _ (by omega) (by omega) (by omega) hlen ha

theorem mergeSortAux_keeps (N : Nat) (P : List Int → Prop) (hP : MergeStable N P) :
    ∀ (fuel : Nat) (arr : List Int) (left right : Int), 0 ≤ left → right < N →
      arr.length = N → P arr →
      (mergeSortAux fuel arr left right).length = N ∧ P (mergeSortAux fuel arr left right) := by
  intro fuel
  induction fuel with
  | zero => intro arr left right _ _ hlen ha; exact ⟨hlen, ha⟩
  | succ f ih =>
    intro arr left right h0 hr hlen ha
    rw [mergeSortAux]
    by_cases hlt : left < right
    · rw [if_pos hlt]
      have hd : (right - left).tdiv 2 = (right - left) / 2 :=
        Int.tdiv_eq_ediv (by omega) (by omega)
      simp only [hd]
      have h1 := ih arr left (left + (right - left) / 2) h0 (by omega) hlen ha
      have h2 := ih _ (left + (right - left) / 2 + 1) right (by omega) hr h1.1 h1.2
      exact merge_keeps N P hP _ left _ right h0 (by omega) (by omega) hr h2.1 h2.2
    · rw [if_neg hlt]; exact ⟨hlen, ha⟩

theorem partition_bounds (N W i : Int) (h1 : 1 ≤ W) (hW : W ≤ N) (hi0 : 0 ≤ i) (hi : i < W) :
    0 ≤ partStart N W i ∧ partStart N W i ≤ partEnd N W i ∧ partEnd N W i < N := by
  obtain ⟨hc1, hc2, hc3⟩ := chunk_facts N W h1 hW
  unfold partStart partEnd chunkSize
  have hm : 0 ≤ i * N.tdiv W := mul_nonneg hi0 (by omega)
  have hm2 : (i + 1) * N.tdiv W ≤ W * N.tdiv W :=
    mul_le_mul_of_nonneg_right (by omega) (by omega)
  have hm3 : (i + 1) * N.tdiv W = i * N.tdiv W + N.tdiv W := by ring
  split_ifs with h <;> refine ⟨hm, ?_, ?_⟩ <;> omega

theorem localSortPhase_keeps (N : Nat) (P : List Int → Prop) (hP : MergeStable N P)
    (W : Int) (h1 : 1 ≤ W) (hW : W ≤ N) (arr : List Int) (hlen : arr.length = N) (ha : P arr) :
    (localSortPhase arr N W).length = N ∧ P (localSortPhase arr N W) := by
  unfold localSortPhase
  have key : ∀ (is : List Nat), (∀ i ∈ is, (i : Int) < W) → ∀ (a : List Int),
      a.length = N → P a →
      (is.foldl (fun (a : List Int) (i : Nat) =>
          mergeSort a (partStart N W (i : Int)) (partEnd N W (i : Int))) a).length = N ∧
        P (is.foldl (fun (a : List Int) (i : Nat) =>
          mergeSort a (partStart N W (i : Int)) (partEnd N W (i : Int))) a) := by
    intro is
    induction is with
    | nil => intro _ a hl hp; exact ⟨hl, hp⟩
    | cons i is ih =>
      intro his a hl hp
      rw [List.foldl_cons]
      have hb := partition_bounds N W i h1 hW (by omega) (his i (List.mem_cons_self _ _))
      have hs := mergeSortAux_keeps N P hP
        (partEnd N W i - partStart N W i).toNat a _ _ hb.1 hb.2.2 hl hp
      exact ih (fun j hj => his j (List.mem_cons_of_mem _ hj)) _ hs.1 hs.2
  exact key _ (fun i hi => by have := List.mem_range.1 hi; omega) arr hlen ha

theorem chunksInner_keeps (N : Nat) (P : List Int → Prop) (hP : MergeStable N P)
    (W c step : Int) (hc1 : 1 ≤ c) (hc2 : W * c ≤ N) (hb : 2 * (N : Int) ≤ INT_MAX)
    (hs : 1 ≤ step) (hsW : step < W) :
    ∀ (fuel : Nat) (arr : List Int) (i : Int), (i = 0 ∨ 2 * step ≤ i) → arr.length = N →
      P arr →
      (chunksInner W N c step fuel arr i).length = N ∧ P (chunksInner W N c step fuel arr i) := by
  intro fuel
  induction fuel with
  | zero => intro arr i _ hlen ha; exact ⟨hlen, ha⟩
  | succ f ih =>
    intro arr i hinv hlen ha
    rw [chunksInner]
    by_cases hi : i < W
    · rw [if_pos hi]
      simp only
      obtain ⟨x1, x2, x3, x4, x5⟩ := chunk_step_exact N W c step i hc1 hc2 hb hs hsW hi hinv
      rw [x1, x2, x3, x4, x5]
      have hi0 : 0 ≤ i := by omega
      have hm : 0 ≤ i * c := mul_nonneg hi0 (by omega)
      have hm1 : (i + step) * c = i * c + step * c := by ring
      have hm2 : 1 ≤ step * c := by nlinarith
      have hm3 : i * c + c ≤ W * c := by nlinarith
      split_ifs with hlt
      · have hk := merge_keeps N P hP arr (i * c) (min ((i + step) * c - 1) (N - 1))
          (min ((i + 2 * step) * c - 1) (N - 1)) hm
          (by rw [le_min_iff]; constructor <;> omega) hlt
          (by have := min_le_right ((i + 2 * step) * c - 1) ((N : Int) - 1); omega) hlen ha
        exact ih _ _ (by omega) hk.1 hk.2
      · exact ih _ _ (by omega) hlen ha
    · rw [if_neg hi]; exact ⟨hlen, ha⟩

theorem chunksOuter_keeps (N : Nat) (P : List Int → Prop) (hP : MergeStable N P)
    (W c : Int) (hc1 : 1 ≤ c) (hc2 : W * c ≤ N) (hb : 2 * (N : Int) ≤ INT_MAX) :
    ∀ (fuel : Nat) (arr : List Int) (step : Int), 1 ≤ step → arr.length = N → P arr →
      (chunksOuter W N c fuel arr step).length = N ∧ P (chunksOuter W N c fuel arr step) := by
  intro fuel
  induction fuel with
  | zero => intro arr step _ hlen ha; exact ⟨hlen, ha⟩
  | succ f ih =>
    intro arr step hs hlen ha
    rw [chunksOuter]
    split_ifs with hlt
    · have hk := chunksInner_keeps N P hP W c step hc1 hc2 hb hs hlt W.toNat arr 0
        (Or.inl rfl) hlen ha
      exact ih _ _ (by omega) hk.1 hk.2
    · exact ⟨hlen, ha⟩

/-- While `2 * N ≤ INT_MAX`, a property of buffers of length `N` that no in-range `merge`
destroys survives `mergeSortedChunks`: every `merge` it issues is in range. -/
theorem mergeSortedChunks_keeps (N : Nat) (P : List Int → Prop) (hP : MergeStable N P)
    (W : Int) (h1 : 1 ≤ W) (hW : W ≤ N) (hb : 2 * (N : Int) ≤ INT_MAX) (arr : List Int)
    (hlen : arr.length = N) (ha : P arr) :
    (mergeSortedChunks arr W N).length = N ∧ P (mergeSortedChunks arr W N) := by
  obtain ⟨hc1, hc2, _⟩ := chunk_facts N W h1 hW
  exact chunksOuter_keeps N P hP W _ hc1 hc2 hb _ arr 1 (le_refl 1) hlen ha

/-! ## Non-decreasing buffers -/

theorem rd_cons_succ (a : Int) (arr : List Int) (k : Int) (hk : 0 ≤ k) :
    rd (a :: arr) (k + 1) = rd arr k := by
  have e : (k + 1).toNat = k.toNat + 1 := by omega
  simp [rd, hk, (by omega : 0 ≤ k + 1), e]

/-- Adjacent order `arr[k] <= arr[k+1]` on every `k` gives order between any two positions. -/
theorem pairwise_of_adjacent (arr : List Int)
    (hs : ∀ k : Int, 0 ≤ k → k < (arr.length : Int) - 1 → rd arr k ≤ rd arr (k + 1)) :
    arr.Pairwise (fun a b => a ≤ b) := by
  induction arr with
  | nil => exact List.Pairwise.nil
  | cons a as ih =>
    have hs' : ∀ k : Int, 0 ≤ k → k < (as.length : Int) - 1 → rd as k ≤ rd as (k + 1) := by
      intro k h0 h1
      have := hs (k + 1) (by omega) (by simp only [List.length_cons]; push_cast; omega)
      rwa [rd_cons_succ a as k h0, rd_cons_succ a as (k + 1) (by omega)] at this
    have ih' := ih hs'
    refine List.Pairwise.cons ?_ ih'
    cases as with
    | nil => intro b hb; simp at hb
    | cons b bs =>
      have hab : a ≤ b := by
        have := hs 0 (le_refl 0) (by simp only [List.length_cons]; push_cast; omega)
        simpa [rd] using this
      intro x hx
      rcases List.mem_cons.1 hx with h | h
      · rw [h]; exact hab
      · exact le_trans hab ((List.pairwise_cons.1 ih').1 x h)

/-! ## The sort pipeline -/

theorem mergeStable_perm (A : List Int) (N : Nat) :
    MergeStable N (fun arr => List.Perm arr A) := by
  intro arr l m r hlm hmr hr hlen ha
  exact (merge_perm arr l m r hlm hmr (by omega)).trans ha

theorem mergeStable_eq (A : List Int) (N : Nat) (hs : A.Pairwise (fun a b => a ≤ b)) :
    MergeStable N (fun arr => arr = A) := by
  intro arr l m r hlm hmr hr hlen ha
  subst ha
  exact merge_sorted_id arr l m r hlm hmr (by omega) hs

/-- C1, at the input `A = [9,9,1,2,3]`, `W = 2`: the partitions are `[0,1]` and `[2,4]`, the
only merge issued is `merge(arr, 0, 1, 3)`, and the run ends with `[1,2,9,9,3]`, which is
not non-decreasing (`arr[3] = 9 > 3 = arr[4]`); `isSorted` reports it. -/
theorem sortRun_not_sorted :
    localSortPhase [9, 9, 1, 2, 3] 5 2 = [9, 9, 1, 2, 3] ∧
    sortRun [9, 9, 1, 2, 3] 5 2 = [1, 2, 9, 9, 3] ∧
    rd (sortRun [9, 9, 1, 2, 3] 5 2) 3 > rd (sortRun [9, 9, 1, 2, 3] 5 2) (3 + 1) ∧
    isSorted (sortRun [9, 9, 1, 2, 3] 5 2) 5 = false := by
  decide

/-- While `2 * N ≤ INT_MAX`: for a buffer `A` of length `N` and `1 ≤ W ≤ N`, sorting every
partition with `mergeSort` and then running `mergeSortedChunks(arr, W, N)` yields a
permutation of `A`; so does the run of `main`, which skips `mergeSortedChunks` when
`W = 1`. -/
theorem sort_pipeline_perm_bounded (A : List Int) (N W : Int) (hN : (A.length : Int) = N)
    (h1 : 1 ≤ W) (hW : W ≤ N) (hb : 2 * N ≤ INT_MAX) :
    List.Perm (mergeSortedChunks (localSortPhase A N W) W N) A ∧
      List.Perm (sortRun A N W) A := by
  subst hN
  have hP := mergeStable_perm A A.length
  have hl := localSortPhase_keeps A.length _ hP W h1 hW A rfl (List.Perm.refl A)
  have hm := mergeSortedChunks_keeps A.length _ hP W h1 hW hb _ hl.1 hl.2
  refine ⟨hm.2, ?_⟩
  have hc : clampWorkers (A.length : Int) W = W := by
    unfold clampWorkers; rw [if_neg (by omega)]
  unfold sortRun
  simp only [hc]
  split_ifs
  · exact hm.2
  · exact hl.2

theorem sort_pipeline_perm_bounded_witness :
    ((([5, 3, 8, 1, 9, 2, 7] : List Int).length : Int) = 7) ∧ (1 : Int) ≤ 3 ∧ (3 : Int) ≤ 7 ∧
    (2 : Int) * 7 ≤ INT_MAX ∧
    (List.Perm (mergeSortedChunks (localSortPhase [5, 3, 8, 1, 9, 2, 7] 7 3) 3 7)
        [5, 3, 8, 1, 9, 2, 7] ∧
      List.Perm (sortRun [5, 3, 8, 1, 9, 2, 7] 7 3) [5, 3, 8, 1, 9, 2, 7]) :=
  ⟨by decide, by decide, by decide, by decide,
    sort_pipeline_perm_bounded [5, 3, 8, 1, 9, 2, 7] 7 3 (by decide) (by decide) (by decide)
      (by decide)⟩

/-- While `2 * N ≤ INT_MAX`: on a non-decreasing buffer of length `N ≥ 1`, for
`1 ≤ W ≤ N`, `mergeSortedChunks(arr, W, N)` leaves the buffer as it is. -/
theorem mergeSortedChunks_sorted_id_bounded (arr : List Int) (N W : Int)
    (hN : (arr.length : Int) = N) (h1 : 1 ≤ W) (hW : W ≤ N) (hb : 2 * N ≤ INT_MAX)
    (hs : ∀ k : Int, 0 ≤ k → k < N - 1 → rd arr k ≤ rd arr (k + 1)) :
    mergeSortedChunks arr W N = arr := by
  subst hN
  have hp : arr.Pairwise (fun a b => a ≤ b) := pairwise_of_adjacent arr hs
  exact (mergeSortedChunks_keeps arr.length _ (mergeStable_eq arr arr.length hp) W h1 hW hb
    arr rfl rfl).2

theorem mergeSortedChunks_sorted_id_bounded_witness :
    ((([1, 2, 2, 5, 7] : List Int).length : Int) = 5) ∧ (1 : Int) ≤ 2 ∧ (2 : Int) ≤ 5 ∧
    (2 : Int) * 5 ≤ INT_MAX ∧
    (∀ k : Int, 0 ≤ k → k < 5 - 1 → rd [1, 2, 2, 5, 7] k ≤ rd [1, 2, 2, 5, 7] (k + 1)) ∧
    mergeSortedChunks [1, 2, 2, 5, 7] 2 5 = [1, 2, 2, 5, 7] := by
  have hs : ∀ k : Int, 0 ≤ k → k < 5 - 1 → rd [1, 2, 2, 5, 7] k ≤ rd [1, 2, 2, 5, 7] (k + 1) := by
    intro k h0 h1
    have : k = 0 ∨ k = 1 ∨ k = 2 ∨ k = 3 := by omega
    rcases this with h | h | h | h <;> subst h <;> decide
  exact ⟨by decide, by decide, by decide, by decide, hs,
    mergeSortedChunks_sorted_id_bounded [1, 2, 2, 5, 7] 5 2 (by decide) (by decide)
      (by decide) (by decide) hs⟩

/-! ## The partitioner -/

theorem clampWorkers_bounds (N W : Int) (hN : 1 ≤ N) (hW : 1 ≤ W) :
    1 ≤ clampWorkers N W ∧ clampWorkers N W ≤ N := by
  unfold clampWorkers
  split_ifs <;> omega

theorem partEnd_lt_partStart (N W i j : Int) (h1 : 1 ≤ W) (hW : W ≤ N)
    (hij : i < j) (hj : j < W) : partEnd N W i < partStart N W j := by
  obtain ⟨hc1, _, _⟩ := chunk_facts N W h1 hW
  unfold partStart partEnd chunkSize
  rw [if_neg (by omega)]
  have hm : (i + 1) * N.tdiv W ≤ j * N.tdiv W :=
    mul_le_mul_of_nonneg_right (by omega) (by omega)
  omega

theorem partition_cover (N W k : Int) (h1 : 1 ≤ W) (hW : W ≤ N) (hk0 : 0 ≤ k) (hk : k < N) :
    ∃ i : Int, 0 ≤ i ∧ i < W ∧ partStart N W i ≤ k ∧ k ≤ partEnd N W i := by
  obtain ⟨hc1, hc2, _⟩ := chunk_facts N W h1 hW
  have hcpos : 0 < N.tdiv W := by omega
  by_cases hq : k / N.tdiv W < W - 1
  · refine ⟨k / N.tdiv W, Int.ediv_nonneg hk0 (by omega), by omega, ?_, ?_⟩
    · unfold partStart chunkSize
      exact Int.ediv_mul_le k (by omega)
    · unfold partEnd chunkSize
      rw [if_neg (by omega)]
      have := Int.lt_ediv_add_one_mul_self k hcpos
      omega
  · refine ⟨W - 1, by omega, by omega, ?_, ?_⟩
    · unfold partStart chunkSize
      have h2 : (W - 1) * N.tdiv W ≤ (k / N.tdiv W) * N.tdiv W :=
        mul_le_mul_of_nonneg_right (by omega) (by omega)
      have h3 := Int.ediv_mul_le k (by omega : N.tdiv W ≠ 0)
      omega
    · unfold partEnd
      rw [if_pos rfl]
      omega

/-- C4: for `N ≥ 1` and `W ≥ 1`, with `W` clamped to `N` and `c = floor(N/W)`, worker `i`
gets the range `[i*c, (i+1)*c - 1]`, the last worker `[(W-1)*c, N-1]`; these ranges are each
non-empty, pairwise disjoint, and an index lies in one of them exactly when it lies in
`[0, N)`. -/
theorem partition_coverage (N W : Int) (hN : 1 ≤ N) (hW : 1 ≤ W) :
    (∀ i : Int, partStart N (clampWorkers N W) i = i * (N / clampWorkers N W) ∧
      partEnd N (clampWorkers N W) i
        = if i = clampWorkers N W - 1 then N - 1 else (i + 1) * (N / clampWorkers N W) - 1) ∧
    (∀ i : Int, 0 ≤ i → i < clampWorkers N W →
      partStart N (clampWorkers N W) i ≤ partEnd N (clampWorkers N W) i) ∧
    (∀ i j k : Int, 0 ≤ i → i < clampWorkers N W → 0 ≤ j → j < clampWorkers N W →
      partStart N (clampWorkers N W) i ≤ k → k ≤ partEnd N (clampWorkers N W) i →
      partStart N (clampWorkers N W) j ≤ k → k ≤ partEnd N (clampWorkers N W) j → i = j) ∧
    (∀ k : Int, (0 ≤ k ∧ k < N) ↔
      ∃ i : Int, 0 ≤ i ∧ i < clampWorkers N W ∧
        partStart N (clampWorkers N W) i ≤ k ∧ k ≤ partEnd N (clampWorkers N W) i) := by
  obtain ⟨h1, h2⟩ := clampWorkers_bounds N W hN hW
  generalize clampWorkers N W = w at h1 h2
  have hd : N.tdiv w = N / w := Int.tdiv_eq_ediv (by omega) (by omega)
  refine ⟨?_, ?_, ?_, ?_⟩
  · intro i
    unfold partStart partEnd chunkSize
    rw [hd]
    exact ⟨rfl, rfl⟩
  · intro i hi0 hi
    exact (partition_bounds N w i h1 h2 hi0 hi).2.1
  · intro i j k hi0 hi hj0 hj a1 a2 b1 b2
    by_contra hne
    rcases lt_or_gt_of_ne hne with h | h
    · have := partEnd_lt_partStart N w i j h1 h2 h hj
      omega
    · have := partEnd_lt_partStart N w j i h1 h2 h hi
      omega
  · intro k
    constructor
    · rintro ⟨hk0, hk⟩
      exact partition_cover N w k h1 h2 hk0 hk
    · rintro ⟨i, hi0, hi, a1, a2⟩
      have := partition_bounds N w i h1 h2 hi0 hi
      omega

theorem partition_coverage_witness :
    (1 : Int) ≤ 7 ∧ (1 : Int) ≤ 3 ∧
    ((∀ i : Int, partStart 7 (clampWorkers 7 3) i = i * (7 / clampWorkers 7 3) ∧
      partEnd 7 (clampWorkers 7 3) i
        = if i = clampWorkers 7 3 - 1 then 7 - 1 else (i + 1) * (7 / clampWorkers 7 3) - 1) ∧
    (∀ i : Int, 0 ≤ i → i < clampWorkers 7 3 →
      partStart 7 (clampWorkers 7 3) i ≤ partEnd 7 (clampWorkers 7 3) i) ∧
    (∀ i j k : Int, 0 ≤ i → i < clampWorkers 7 3 → 0 ≤ j → j < clampWorkers 7 3 →
      partStart 7 (clampWorkers 7 3) i ≤ k → k ≤ partEnd 7 (clampWorkers 7 3) i →
      partStart 7 (clampWorkers 7 3) j ≤ k → k ≤ partEnd 7 (clampWorkers 7 3) j → i = j) ∧
    (∀ k : Int, (0 ≤ k ∧ k < 7) ↔
      ∃ i : Int, 0 ≤ i ∧ i < clampWorkers 7 3 ∧
        partStart 7 (clampWorkers 7 3) i ≤ k ∧ k ≤ partEnd 7 (clampWorkers 7 3) i)) :=
  ⟨by decide, by decide, partition_coverage 7 3 (by decide) (by decide)⟩

/-- C5: for `N ≥ 1` and `1 ≤ W ≤ N`, every partition but the last holds `floor(N/W)`
cells, and the last one ends at `N - 1` and holds `floor(N/W) + N mod W` cells
(the bound `W ≤ N` is not used). -/
theorem partition_sizes (N W : Int) (hN : 1 ≤ N) (h1 : 1 ≤ W) :
    (∀ i : Int, 0 ≤ i → i < W - 1 → partEnd N W i - partStart N W i + 1 = N / W) ∧
    partEnd N W (W - 1) = N - 1 ∧
    partEnd N W (W - 1) - partStart N W (W - 1) + 1 = N / W + N % W := by
  have hd : N.tdiv W = N / W := Int.tdiv_eq_ediv (by omega) (by omega)
  refine ⟨?_, ?_, ?_⟩
  · intro i _ hi
    unfold partStart partEnd chunkSize
    rw [if_neg (by omega), hd]
    ring
  · unfold partEnd
    rw [if_pos rfl]
  · unfold partStart partEnd chunkSize
    rw [if_pos rfl, hd, Int.emod_def]
    ring

theorem partition_sizes_witness :
    (1 : Int) ≤ 7 ∧ (1 : Int) ≤ 3 ∧
    ((∀ i : Int, 0 ≤ i → i < 3 - 1 → partEnd 7 3 i - partStart 7 3 i + 1 = 7 / 3) ∧
    partEnd 7 3 (3 - 1) = 7 - 1 ∧
    partEnd 7 3 (3 - 1) - partStart 7 3 (3 - 1) + 1 = 7 / 3 + 7 % 3) :=
  ⟨by decide, by decide, partition_sizes 7 3 (by decide) (by decide)⟩

/-- C6: for `N ≥ 1` and a requested `W > N`, the clamp makes the worker count `N`, and
partition `i` is then the single cell `i`. -/
theorem clamp_single_cells (N W : Int) (hN : 1 ≤ N) (hW : N < W) :
    clampWorkers N W = N ∧
    ∀ i : Int, 0 ≤ i → i < clampWorkers N W →
      partStart N (clampWorkers N W) i = i ∧ partEnd N (clampWorkers N W) i = i := by
  have hc : clampWorkers N W = N := by unfold clampWorkers; rw [if_pos (by omega)]
  have hd : N.tdiv N = 1 := by
    rw [Int.tdiv_eq_ediv (by omega) (by omega)]; exact Int.ediv_self (by omega)
  rw [hc]
  refine ⟨rfl, ?_⟩
  intro i _ hi
  unfold partStart partEnd chunkSize
  rw [hd]
  split_ifs <;> omega

theorem clamp_single_cells_witness :
    (1 : Int) ≤ 4 ∧ (4 : Int) < 9 ∧
    (clampWorkers 4 9 = 4 ∧
    ∀ i : Int, 0 ≤ i → i < clampWorkers 4 9 →
      partStart 4 (clampWorkers 4 9) i = i ∧ partEnd 4 (clampWorkers 4 9) i = i) :=
  ⟨by decide, by decide, clamp_single_cells 4 9 (by decide) (by decide)⟩


/-! ## The max scans -/

theorem scanLoop_spec (arr : List Int) (end_ : Int) :
    ∀ (fuel : Nat) (i m : Int), (end_ - i + 1).toNat ≤ fuel →
      MaxOver arr i end_ m (scanLoop arr end_ fuel i m) := by
  intro fuel
  induction fuel with
  | zero =>
    intro i m hf
    rw [scanLoop]
    exact ⟨le_refl m, fun t h1 h2 => by omega, Or.inl rfl⟩
  | succ f ih =>
    intro i m hf
    rw [scanLoop]
    by_cases hi : i ≤ end_
    · rw [if_pos hi]
      obtain ⟨h1, h2, h3⟩ := ih (i + 1) (if rd arr i > m then rd arr i else m) (by omega)
      have hm : m ≤ (if rd arr i > m then rd arr i else m) ∧
          rd arr i ≤ (if rd arr i > m then rd arr i else m) := by
        split_ifs <;> constructor <;> omega
      refine ⟨by omega, ?_, ?_⟩
      · intro t ht1 ht2
        by_cases hti : t = i
        · subst hti; omega
        · exact h2 t (by omega) ht2
      · rcases h3 with h | ⟨t, ht1, ht2, ht3⟩
        · by_cases hgt : rd arr i > m
          · exact Or.inr ⟨i, le_refl i, hi, h.trans (if_pos hgt)⟩
          · exact Or.inl (h.trans (if_neg hgt))
        · exact Or.inr ⟨t, by omega, ht2, ht3⟩
    · rw [if_neg hi]
      exact ⟨le_refl m, fun t h1 h2 => by omega, Or.inl rfl⟩

theorem seqLoop_spec (arr : List Int) (size : Int) :
    ∀ (fuel : Nat) (i m : Int), (size - i).toNat ≤ fuel →
      MaxOver arr i (size - 1) m (seqLoop arr size fuel i m) := by
  intro fuel
  induction fuel with
  | zero =>
    intro i m hf
    rw [seqLoop]
    exact ⟨le_refl m, fun t h1 h2 => by omega, Or.inl rfl⟩
  | succ f ih =>
    intro i m hf
    rw [seqLoop]
    by_cases hi : i < size
    · rw [if_pos hi]
      obtain ⟨h1, h2, h3⟩ := ih (i + 1) (if rd arr i > m then rd arr i else m) (by omega)
      have hm : m ≤ (if rd arr i > m then rd arr i else m) ∧
          rd arr i ≤ (if rd arr i > m then rd arr i else m) := by
        split_ifs <;> constructor <;> omega
      refine ⟨by omega, ?_, ?_⟩
      · intro t ht1 ht2
        by_cases hti : t = i
        · subst hti; omega
        · exact h2 t (by omega) ht2
      · rcases h3 with h | ⟨t, ht1, ht2, ht3⟩
        · by_cases hgt : rd arr i > m
          · exact Or.inr ⟨i, le_refl i, by omega, h.trans (if_pos hgt)⟩
          · exact Or.inl (h.trans (if_neg hgt))
        · exact Or.inr ⟨t, by omega, ht2, ht3⟩
    · rw [if_neg hi]
      exact ⟨le_refl m, fun t h1 h2 => by omega, Or.inl rfl⟩

theorem localMax_spec (arr : List Int) (start end_ : Int) :
    MaxOver arr start end_ INT_MIN (localMax arr start end_) :=
  scanLoop_spec arr end_ _ start INT_MIN (le_refl _)

theorem findSequentialMax_spec (arr : List Int) (size : Int) :
    MaxOver arr 0 (size - 1) INT_MIN (findSequentialMax arr size) :=
  seqLoop_spec arr size _ 0 INT_MIN (by simp)

theorem rd_mem (A : List Int) (t : Int) (h0 : 0 ≤ t) (ht : t < A.length) : rd A t ∈ A := by
  have h : t.toNat < A.length := by omega
  simp only [rd, if_pos h0, List.getD_eq_getElem _ _ h]
  exact List.getElem_mem h

theorem mem_rd (A : List Int) (x : Int) (hx : x ∈ A) :
    ∃ t : Int, 0 ≤ t ∧ t < A.length ∧ rd A t = x := by
  obtain ⟨n, hn, rfl⟩ := List.mem_iff_getElem.1 hx
  refine ⟨(n : Int), by omega, by omega, ?_⟩
  rw [rd_getElem A n hn]

/-- A scan of the whole buffer from `INT_MIN` ends with the maximum element, when the
buffer is not empty and holds `int` values. -/
theorem maxOver_isMaximum (A : List Int) (N v : Int) (hN : (A.length : Int) = N)
    (hpos : 1 ≤ N) (hrange : ∀ x ∈ A, INT_MIN ≤ x) (h : MaxOver A 0 (N - 1) INT_MIN v) :
    IsMaximum A v := by
  obtain ⟨_, h2, h3⟩ := h
  constructor
  · rcases h3 with h | ⟨t, ht0, ht1, ht⟩
    · have h0 := h2 0 (le_refl 0) (by omega)
      have hm := rd_mem A 0 (le_refl 0) (by omega)
      have := hrange _ hm
      have e : v = rd A 0 := by omega
      rw [e]; exact hm
    · rw [ht]; exact rd_mem A t ht0 (by omega)
  · intro x hx
    obtain ⟨t, ht0, ht1, rfl⟩ := mem_rd A x hx
    exact h2 t ht0 (by omega)

theorem isMaximum_unique (A : List Int) (u v : Int) (hu : IsMaximum A u) (hv : IsMaximum A v) :
    u = v :=
  le_antisymm (hv.2 u hu.1) (hu.2 v hv.1)

/-- A value that bounds every worker's local maximum and is `INT_MIN` or one of them is
the result of a scan of the whole buffer. -/
theorem reduction_maxOver (A : List Int) (N W g : Int) (h1 : 1 ≤ W) (hW : W ≤ N)
    (hb : ∀ x ∈ localMaxima A N W, x ≤ g)
    (hg : g = INT_MIN ∨ g ∈ localMaxima A N W) :
    MaxOver A 0 (N - 1) INT_MIN g := by
  have hloc : ∀ i : Int, 0 ≤ i → i < W →
      localMax A (partStart N W i) (partEnd N W i) ∈ localMaxima A N W := by
    intro i hi0 hi
    unfold localMaxima
    refine List.mem_map.2 ⟨i.toNat, List.mem_range.2 (by omega), ?_⟩
    rw [Int.toNat_of_nonneg hi0]
  refine ⟨?_, ?_, ?_⟩
  · rcases hg with h | h
    · omega
    · obtain ⟨n, _, hn⟩ := List.mem_map.1 h
      have := (localMax_spec A (partStart N W n) (partEnd N W n)).1
      omega
  · intro t ht0 ht1
    obtain ⟨i, hi0, hi, hs, he⟩ := partition_cover N W t h1 hW ht0 (by omega)
    have h2 := (localMax_spec A (partStart N W i) (partEnd N W i)).2.1 t hs he
    have h3 := hb _ (hloc i hi0 hi)
    omega
  · rcases hg with h | h
    · exact Or.inl h
    · obtain ⟨n, hn, hgn⟩ := List.mem_map.1 h
      have hn' := List.mem_range.1 hn
      have hb2 := partition_bounds N W n h1 hW (by omega) (by omega)
      rcases (localMax_spec A (partStart N W n) (partEnd N W n)).2.2 with h4 | ⟨t, a1, a2, a3⟩
      · exact Or.inl (by omega)
      · exact Or.inr ⟨t, by omega, by omega, by omega⟩


/-! ## The exclusive-lock reduction -/

theorem mutex_fold (lm : Nat → Int) :
    ∀ (order : List Nat) (s : MutexState),
      (order.foldl (fun (s : MutexState) (i : Nat) => criticalSection (lm i) s)
        s).sync_operations = s.sync_operations + order.length ∧
      s.global_max ≤ (order.foldl (fun (s : MutexState) (i : Nat) => criticalSection (lm i) s)
        s).global_max ∧
      (∀ i ∈ order, lm i ≤ (order.foldl
        (fun (s : MutexState) (i : Nat) => criticalSection (lm i) s) s).global_max) ∧
      ((order.foldl (fun (s : MutexState) (i : Nat) => criticalSection (lm i) s)
        s).global_max = s.global_max ∨
        ∃ i ∈ order, (order.foldl (fun (s : MutexState) (i : Nat) => criticalSection (lm i) s)
          s).global_max = lm i) := by
  intro order
  induction order with
  | nil => intro s; simp
  | cons a as ih =>
    intro s
    rw [List.foldl_cons]
    obtain ⟨h1, h2, h3, h4⟩ := ih (criticalSection (lm a) s)
    have e1 : (criticalSection (lm a) s).sync_operations = s.sync_operations + 1 := rfl
    have e2 : (criticalSection (lm a) s).global_max
        = if lm a > s.global_max then lm a else s.global_max := rfl
    rw [e1] at h1
    rw [e2] at h2 h4
    have hm : s.global_max ≤ (if lm a > s.global_max then lm a else s.global_max) ∧
        lm a ≤ (if lm a > s.global_max then lm a else s.global_max) := by
      split_ifs <;> constructor <;> omega
    refine ⟨?_, by omega, ?_, ?_⟩
    · rw [h1, List.length_cons]; push_cast; ring
    · intro i hi
      rcases List.mem_cons.1 hi with h | h
      · subst h; omega
      · exact h3 i h
    · rcases h4 with h | ⟨i, hi, h⟩
      · by_cases hgt : lm a > s.global_max
        · exact Or.inr ⟨a, List.mem_cons_self _ _, h.trans (if_pos hgt)⟩
        · exact Or.inl (h.trans (if_neg hgt))
      · exact Or.inr ⟨i, List.mem_cons_of_mem _ hi, h⟩

theorem runMutex_eq (arr : List Int) (size num_threads : Int) (order : List Nat) :
    runMutex arr size num_threads order
      = order.foldl (fun (s : MutexState) (i : Nat) =>
          criticalSection (localMax arr (partStart size num_threads (i : Int))
            (partEnd size num_threads (i : Int))) s)
          { global_max := INT_MIN, sync_operations := 0 } := rfl

/-- The exclusive-lock run ends with the maximum element, in whatever order the workers
pass through their critical sections. -/
theorem runMutex_isMaximum (A : List Int) (N W : Int) (hN : (A.length : Int) = N)
    (h1 : 1 ≤ W) (hW : W ≤ N) (hrange : ∀ x ∈ A, INT_MIN ≤ x)
    (order : List Nat) (hperm : order.Perm (List.range W.toNat)) :
    IsMaximum A (runMutex A N W order).global_max := by
  rw [runMutex_eq]
  obtain ⟨_, _, h3, h4⟩ := mutex_fold
    (fun (i : Nat) => localMax A (partStart N W (i : Int)) (partEnd N W (i : Int))) order
    { global_max := INT_MIN, sync_operations := 0 }
  have e0 : ({ global_max := INT_MIN, sync_operations := 0 } : MutexState).global_max
      = INT_MIN := rfl
  rw [e0] at h4
  have hmo := reduction_maxOver A N W _ h1 hW
    (by
      intro x hx
      obtain ⟨n, hn, rfl⟩ := List.mem_map.1 hx
      exact h3 n (hperm.mem_iff.2 hn))
    (by
      rcases h4 with h | ⟨i, hi, h⟩
      · exact Or.inl h
      · exact Or.inr (List.mem_map.2 ⟨i, hperm.mem_iff.1 hi, h.symm⟩))
  exact maxOver_isMaximum A N _ hN (by omega) hrange hmo

/-- C3: for a non-empty buffer `A` of `int` values and `1 ≤ W ≤ len(A)`, whatever the order
in which the `W` workers pass through their critical sections, `global_max` ends as the
value `findSequentialMax(A, len(A))` returns, which is the maximum element of `A`. -/
theorem mutex_reduction (A : List Int) (N W : Int) (hN : (A.length : Int) = N)
    (h1 : 1 ≤ W) (hW : W ≤ N) (hrange : ∀ x ∈ A, INT_MIN ≤ x)
    (order : List Nat) (hperm : order.Perm (List.range W.toNat)) :
    (runMutex A N W order).global_max = findSequentialMax A N ∧
      IsMaximum A (runMutex A N W order).global_max := by
  have hseq := maxOver_isMaximum A N _ hN (by omega) hrange (findSequentialMax_spec A N)
  have hmax := runMutex_isMaximum A N W hN h1 hW hrange order hperm
  exact ⟨isMaximum_unique A _ _ hmax hseq, hmax⟩

theorem mutex_reduction_witness :
    ((([5, 3, 8, 1, 9, 2, 7] : List Int).length : Int) = 7) ∧ (1 : Int) ≤ 3 ∧ (3 : Int) ≤ 7 ∧
    (∀ x ∈ ([5, 3, 8, 1, 9, 2, 7] : List Int), INT_MIN ≤ x) ∧
    List.Perm [2, 0, 1] (List.range (3 : Int).toNat) ∧
    ((runMutex [5, 3, 8, 1, 9, 2, 7] 7 3 [2, 0, 1]).global_max
        = findSequentialMax [5, 3, 8, 1, 9, 2, 7] 7 ∧
      IsMaximum [5, 3, 8, 1, 9, 2, 7] (runMutex [5, 3, 8, 1, 9, 2, 7] 7 3 [2, 0, 1]).global_max) :=
  ⟨by decide, by decide, by decide, by decide, by decide,
    mutex_reduction [5, 3, 8, 1, 9, 2, 7] 7 3 (by decide) (by decide) (by decide) (by decide)
      [2, 0, 1] (by decide)⟩

/-- C7: after the reset, when the `W` workers of `findMaxMutex` have all run, in whatever
order, `sync_operations` is `W`, whatever the buffer holds. -/
theorem mutex_sync_count (A : List Int) (N W : Int) (hW : 0 ≤ W)
    (order : List Nat) (hperm : order.Perm (List.range W.toNat)) :
    (runMutex A N W order).sync_operations = W := by
  rw [runMutex_eq]
  obtain ⟨h1, _⟩ := mutex_fold
    (fun (i : Nat) => localMax A (partStart N W (i : Int)) (partEnd N W (i : Int))) order
    { global_max := INT_MIN, sync_operations := 0 }
  rw [h1, hperm.length_eq, List.length_range]
  show (0 : Int) + (W.toNat : Int) = W
  omega

theorem mutex_sync_count_witness :
    (0 : Int) ≤ 3 ∧ List.Perm [1, 2, 0] (List.range (3 : Int).toNat) ∧
    (runMutex [9, 9, 9, 1, 1, 1] 6 3 [1, 2, 0]).sync_operations = 3 :=
  ⟨by decide, by decide, mutex_sync_count [9, 9, 9, 1, 1, 1] 6 3 (by decide) [1, 2, 0] (by decide)⟩


/-! ## The lock-free reduction -/

theorem map_set_same {β : Type} (f : Worker → β) :
    ∀ (l : List Worker) (i : Nat) (w w' : Worker), l[i]? = some w → f w' = f w →
      (l.set i w').map f = l.map f := by
  intro l
  induction l with
  | nil => intro i w w' h _; simp at h
  | cons a as ih =>
    intro i w w' h hf
    cases i with
    | zero =>
      simp only [List.getElem?_cons_zero, Option.some.injEq] at h
      subst h
      simp [hf]
    | succ n =>
      simp only [List.getElem?_cons_succ] at h
      simp only [List.set_cons_succ, List.map_cons, ih n w w' h hf]

theorem sum_map_set (g : Worker → Int) :
    ∀ (l : List Worker) (i : Nat) (w w' : Worker), l[i]? = some w →
      ((l.set i w').map g).sum = (l.map g).sum - g w + g w' := by
  intro l
  induction l with
  | nil => intro i w w' h; simp at h
  | cons a as ih =>
    intro i w w' h
    cases i with
    | zero =>
      simp only [List.getElem?_cons_zero, Option.some.injEq] at h
      subst h
      simp only [List.set_cons_zero, List.map_cons, List.sum_cons]
      ring
    | succ n =>
      simp only [List.getElem?_cons_succ] at h
      simp only [List.set_cons_succ, List.map_cons, List.sum_cons, ih n w w' h]
      ring

/-- What one step of a worker does to the shared variables and to itself. -/
theorem stepWorker_facts (sp : Bool) (g sy fl : Int) (w : Worker)
    (hexp : (w.pc = PC.atTest ∨ w.pc = PC.atBodyInc) → w.expected ≤ g)
    (hloc : (w.pc = PC.atExitInc ∨ w.pc = PC.finished) → w.local_max ≤ g) :
    (stepWorker sp g sy fl w).2.2.2.local_max = w.local_max ∧
    g ≤ (stepWorker sp g sy fl w).1 ∧
    ((stepWorker sp g sy fl w).1 = g ∨ (stepWorker sp g sy fl w).1 = w.local_max) ∧
    (((stepWorker sp g sy fl w).2.2.2.pc = PC.atTest ∨
        (stepWorker sp g sy fl w).2.2.2.pc = PC.atBodyInc) →
      (stepWorker sp g sy fl w).2.2.2.expected ≤ (stepWorker sp g sy fl w).1) ∧
    (((stepWorker sp g sy fl w).2.2.2.pc = PC.atExitInc ∨
        (stepWorker sp g sy fl w).2.2.2.pc = PC.finished) →
      (stepWorker sp g sy fl w).2.2.2.local_max ≤ (stepWorker sp g sy fl w).1) ∧
    fl ≤ (stepWorker sp g sy fl w).2.2.1 ∧
    (stepWorker sp g sy fl w).2.1 + owed (stepWorker sp g sy fl w).2.2.2.pc
        - (stepWorker sp g sy fl w).2.2.1
      = sy + owed w.pc - fl := by
  obtain ⟨lm, ex, pc⟩ := w
  cases pc
  · simp [stepWorker, owed]
  · simp only [stepWorker]
    simp only [true_or, forall_const] at hexp
    by_cases h1 : lm > ex
    · rw [if_pos h1]
      by_cases h2 : g = ex ∧ sp = false
      · rw [if_pos h2]
        simp [owed]
        omega
      · rw [if_neg h2]
        simp [owed]
        omega
    · rw [if_neg h1]
      simp [owed]
      omega
  · simp only [or_true, forall_const] at hexp
    simp [stepWorker, owed, hexp]
    omega
  · simp only [true_or, forall_const] at hloc
    simp [stepWorker, owed, hloc]
  · simp only [or_true, forall_const] at hloc
    simp [stepWorker, owed, hloc]

theorem stepAtomic_inv (lm : List Int) (s : AtomicState) (ev : Nat × Bool)
    (h : AtomicInv lm s) : AtomicInv lm (stepAtomic s ev) := by
  unfold stepAtomic
  cases hw : s.workers[ev.1]? with
  | none => exact h
  | some w =>
    obtain ⟨i1, i2, i3, i4, i5, i6⟩ := h
    have hmem : w ∈ s.workers := List.mem_iff_getElem?.2 ⟨ev.1, hw⟩
    obtain ⟨f1, f2, f3, f4, f5, f6, f7⟩ :=
      stepWorker_facts ev.2 s.atomic_max s.sync_operations s.failed w (i3 w hmem) (i4 w hmem)
    simp only
    generalize stepWorker ev.2 s.atomic_max s.sync_operations s.failed w = r at f1 f2 f3 f4 f5 f6 f7
    refine ⟨?_, ?_, ?_, ?_, ?_, ?_⟩
    · rw [map_set_same (fun w => w.local_max) s.workers ev.1 w r.2.2.2 hw f1]
      exact i1
    · rcases f3 with e | e
      · rw [e]; exact i2
      · right
        rw [e, ← i1]
        exact List.mem_map_of_mem _ hmem
    · intro x hx hpc
      rcases List.mem_or_eq_of_mem_set hx with hx' | hx'
      · have := i3 x hx' hpc
        show x.expected ≤ r.1
        omega
      · subst hx'
        exact f4 hpc
    · intro x hx hpc
      rcases List.mem_or_eq_of_mem_set hx with hx' | hx'
      · have := i4 x hx' hpc
        show x.local_max ≤ r.1
        omega
      · subst hx'
        exact f5 hpc
    · show 0 ≤ r.2.2.1
      omega
    · show r.2.1 + ((s.workers.set ev.1 r.2.2.2).map (fun w => owed w.pc)).sum
        = ((s.workers.set ev.1 r.2.2.2).length : Int) + r.2.2.1
      rw [sum_map_set (fun w => owed w.pc) s.workers ev.1 w r.2.2.2 hw, List.length_set]
      omega

theorem initAtomic_inv (arr : List Int) (size num_threads : Int) :
    AtomicInv (localMaxima arr size num_threads) (initAtomic arr size num_threads) := by
  unfold AtomicInv initAtomic localMaxima
  refine ⟨?_, Or.inl rfl, ?_, ?_, le_refl 0, ?_⟩
  · simp [List.map_map, Function.comp_def]
  · intro w hw hpc
    obtain ⟨n, _, rfl⟩ := List.mem_map.1 hw
    simp at hpc
  · intro w hw hpc
    obtain ⟨n, _, rfl⟩ := List.mem_map.1 hw
    simp at hpc
  · simp [List.map_map, Function.comp_def, owed]

theorem runAtomic_inv (arr : List Int) (size num_threads : Int) (sched : List (Nat × Bool)) :
    AtomicInv (localMaxima arr size num_threads) (runAtomic arr size num_threads sched) := by
  unfold runAtomic
  have key : ∀ (sched : List (Nat × Bool)) (s : AtomicState),
      AtomicInv (localMaxima arr size num_threads) s →
      AtomicInv (localMaxima arr size num_threads) (sched.foldl stepAtomic s) := by
    intro sched
    induction sched with
    | nil => intro s hs; exact hs
    | cons ev evs ih => intro s hs; exact ih _ (stepAtomic_inv _ s ev hs)
  exact key sched _ (initAtomic_inv arr size num_threads)

theorem localMaxima_length (arr : List Int) (size num_threads : Int) :
    (localMaxima arr size num_threads).length = num_threads.toNat := by
  simp [localMaxima]

theorem owed_sum_finished :
    ∀ (l : List Worker), (∀ w ∈ l, w.pc = PC.finished) →
      (l.map (fun w => owed w.pc)).sum = 0 := by
  intro l
  induction l with
  | nil => intro _; rfl
  | cons a as ih =>
    intro h
    have ha : owed a.pc = 0 := by rw [h a (List.mem_cons_self _ _)]; rfl
    rw [List.map_cons, List.sum_cons, ha, ih (fun w hw => h w (List.mem_cons_of_mem _ hw))]
    rfl

/-- C8: for a non-empty buffer `A` of `int` values and `1 ≤ W ≤ len(A)`, under every
interleaving `sched` of the workers' atomic steps (a step that performs a
`compare_exchange_weak` may fail spuriously), once all workers have finished `atomic_max`
is the value of `findSequentialMax`, the maximum element of `A`, and the value
`global_max` has after the exclusive-lock run in any order. -/
theorem atomic_reduction (A : List Int) (N W : Int) (hN : (A.length : Int) = N)
    (h1 : 1 ≤ W) (hW : W ≤ N) (hrange : ∀ x ∈ A, INT_MIN ≤ x)
    (sched : List (Nat × Bool)) (hfin : allFinished (runAtomic A N W sched)) :
    (runAtomic A N W sched).atomic_max = findSequentialMax A N ∧
      IsMaximum A (runAtomic A N W sched).atomic_max ∧
      ∀ order : List Nat, order.Perm (List.range W.toNat) →
        (runAtomic A N W sched).atomic_max = (runMutex A N W order).global_max := by
  obtain ⟨i1, i2, _, i4, _, _⟩ := runAtomic_inv A N W sched
  have hb : ∀ x ∈ localMaxima A N W, x ≤ (runAtomic A N W sched).atomic_max := by
    intro x hx
    rw [← i1] at hx
    obtain ⟨w, hw, rfl⟩ := List.mem_map.1 hx
    exact i4 w hw (Or.inr (hfin w hw))
  have hmo := reduction_maxOver A N W _ h1 hW hb i2
  have hmax := maxOver_isMaximum A N _ hN (by omega) hrange hmo
  have hseq := maxOver_isMaximum A N _ hN (by omega) hrange (findSequentialMax_spec A N)
  refine ⟨isMaximum_unique A _ _ hmax hseq, hmax, ?_⟩
  intro order hperm
  exact isMaximum_unique A _ _ hmax (runMutex_isMaximum A N W hN h1 hW hrange order hperm)

theorem atomic_reduction_witness :
    ((([5, 3, 8, 1, 9, 2] : List Int).length : Int) = 6) ∧ (1 : Int) ≤ 3 ∧ (3 : Int) ≤ 6 ∧
    (∀ x ∈ ([5, 3, 8, 1, 9, 2] : List Int), INT_MIN ≤ x) ∧
    allFinished (runAtomic [5, 3, 8, 1, 9, 2] 6 3
      [(0, false), (1, false), (2, false), (0, false), (1, false), (1, false), (1, true),
        (1, false), (1, false), (2, false), (2, false), (2, false), (0, false), (1, false),
        (2, false)]) ∧
    ((runAtomic [5, 3, 8, 1, 9, 2] 6 3
      [(0, false), (1, false), (2, false), (0, false), (1, false), (1, false), (1, true),
        (1, false), (1, false), (2, false), (2, false), (2, false), (0, false), (1, false),
        (2, false)]).atomic_max = findSequentialMax [5, 3, 8, 1, 9, 2] 6 ∧
      IsMaximum [5, 3, 8, 1, 9, 2] (runAtomic [5, 3, 8, 1, 9, 2] 6 3
      [(0, false), (1, false), (2, false), (0, false), (1, false), (1, false), (1, true),
        (1, false), (1, false), (2, false), (2, false), (2, false), (0, false), (1, false),
        (2, false)]).atomic_max ∧
      ∀ order : List Nat, order.Perm (List.range (3 : Int).toNat) →
        (runAtomic [5, 3, 8, 1, 9, 2] 6 3
      [(0, false), (1, false), (2, false), (0, false), (1, false), (1, false), (1, true),
        (1, false), (1, false), (2, false), (2, false), (2, false), (0, false), (1, false),
        (2, false)]).atomic_max = (runMutex [5, 3, 8, 1, 9, 2] 6 3 order).global_max) :=
  ⟨by decide, by decide, by decide, by decide, by decide,
    atomic_reduction [5, 3, 8, 1, 9, 2] 6 3 (by decide) (by decide) (by decide) (by decide)
      [(0, false), (1, false), (2, false), (0, false), (1, false), (1, false), (1, true),
        (1, false), (1, false), (2, false), (2, false), (2, false), (0, false), (1, false),
        (2, false)] (by decide)⟩

theorem stepAtomic_failed (s : AtomicState) (ev : Nat × Bool) :
    (stepAtomic s ev).failed = s.failed + (if casFails s ev = true then 1 else 0) := by
  unfold stepAtomic casFails
  cases hw : s.workers[ev.1]? with
  | none => simp
  | some w =>
    obtain ⟨lmx, ex, pc⟩ := w
    cases pc <;> simp [stepWorker]
    by_cases h1 : ex < lmx
    · by_cases h2 : s.atomic_max = ex ∧ ev.2 = false
      · simp [h1, h2]
      · rw [if_pos h1, if_neg h2]
        have h3 : ¬ s.atomic_max = ex ∨ ev.2 = true := by
          by_cases h4 : s.atomic_max = ex
          · right
            cases h5 : ev.2
            · exact absurd ⟨h4, h5⟩ h2
            · rfl
          · left; exact h4
        simp [h1, h3]
    · simp [h1]

theorem foldl_stepAtomic_failed :
    ∀ (sched : List (Nat × Bool)) (s : AtomicState),
      (sched.foldl stepAtomic s).failed = s.failed + failedAttempts s sched := by
  intro sched
  induction sched with
  | nil =>
    intro s
    simp [failedAttempts]
  | cons ev rest ih =>
    intro s
    rw [List.foldl_cons, ih, stepAtomic_failed, failedAttempts]
    omega

theorem runAtomic_failed (A : List Int) (N W : Int) (sched : List (Nat × Bool)) :
    (runAtomic A N W sched).failed = failedAttempts (initAtomic A N W) sched := by
  unfold runAtomic
  rw [foldl_stepAtomic_failed]
  simp [initAtomic]

/-- At every point of every interleaving, finished or not, `sync_operations` plus the
increments the workers still owe is the number of workers plus the number of
compare-and-swap attempts that have returned false. -/
theorem atomic_sync_balance (A : List Int) (N W : Int) (sched : List (Nat × Bool)) :
    (runAtomic A N W sched).sync_operations
        + ((runAtomic A N W sched).workers.map (fun w => owed w.pc)).sum
      = (W.toNat : Int) + failedAttempts (initAtomic A N W) sched ∧
    0 ≤ failedAttempts (initAtomic A N W) sched := by
  obtain ⟨i1, _, _, _, i5, i6⟩ := runAtomic_inv A N W sched
  have hlen : (runAtomic A N W sched).workers.length = W.toNat := by
    rw [← localMaxima_length A N W, ← i1, List.length_map]
  rw [hlen, runAtomic_failed] at i6
  rw [runAtomic_failed] at i5
  exact ⟨i6, i5⟩

/-- C9: in every run of `W` `findMaxAtomic` workers from `sync_operations = 0`, under
every interleaving, once all workers have finished `sync_operations` is `W` plus the
number of compare-and-swap attempts that returned false along the interleaving (counted
on the states the interleaving passes through: a worker at the `while` condition with
`local_max > expected` meets `atomic_max ≠ expected` or a spurious failure), hence at
least `W`. -/
theorem atomic_sync_count (A : List Int) (N W : Int) (hW : 0 ≤ W)
    (sched : List (Nat × Bool)) (hfin : allFinished (runAtomic A N W sched)) :
    (runAtomic A N W sched).sync_operations
        = W + failedAttempts (initAtomic A N W) sched ∧
      0 ≤ failedAttempts (initAtomic A N W) sched ∧
      W ≤ (runAtomic A N W sched).sync_operations := by
  obtain ⟨i1, _, _, _, i5, i6⟩ := runAtomic_inv A N W sched
  have hlen : (runAtomic A N W sched).workers.length = W.toNat := by
    rw [← localMaxima_length A N W, ← i1, List.length_map]
  rw [owed_sum_finished _ hfin, hlen, runAtomic_failed] at i6
  rw [runAtomic_failed] at i5
  omega

theorem atomic_sync_count_witness :
    (0 : Int) ≤ 2 ∧
    allFinished (runAtomic [1, 2, 3, 4] 4 2
      [(0, false), (1, false), (1, true), (1, false), (1, false), (0, false), (0, false),
        (0, false), (0, false), (1, false)]) ∧
    failedAttempts (initAtomic [1, 2, 3, 4] 4 2)
      [(0, false), (1, false), (1, true), (1, false), (1, false), (0, false), (0, false),
        (0, false), (0, false), (1, false)] = 2 ∧
    (runAtomic [1, 2, 3, 4] 4 2
      [(0, false), (1, false), (1, true), (1, false), (1, false), (0, false), (0, false),
        (0, false), (0, false), (1, false)]).sync_operations = 4 ∧
    ((runAtomic [1, 2, 3, 4] 4 2
      [(0, false), (1, false), (1, true), (1, false), (1, false), (0, false), (0, false),
        (0, false), (0, false), (1, false)]).sync_operations
      = 2 + failedAttempts (initAtomic [1, 2, 3, 4] 4 2)
      [(0, false), (1, false), (1, true), (1, false), (1, false), (0, false), (0, false),
        (0, false), (0, false), (1, false)] ∧
    0 ≤ failedAttempts (initAtomic [1, 2, 3, 4] 4 2)
      [(0, false), (1, false), (1, true), (1, false), (1, false), (0, false), (0, false),
        (0, false), (0, false), (1, false)] ∧
    2 ≤ (runAtomic [1, 2, 3, 4] 4 2
      [(0, false), (1, false), (1, true), (1, false), (1, false), (0, false), (0, false),
        (0, false), (0, false), (1, false)]).sync_operations) :=
  ⟨by decide, by decide, by decide, by decide,
    atomic_sync_count [1, 2, 3, 4] 4 2 (by decide)
      [(0, false), (1, false), (1, true), (1, false), (1, false), (0, false), (0, false),
        (0, false), (0, false), (1, false)] (by decide)⟩


/-! ## The step budgets suffice

Each budgeted loop returns the same buffer for every budget that is at least the one its
caller passes: when the budget passed runs out, the loop condition is already false. For
the inner loop of `mergeSortedChunks` this needs `i += 2 * step` not to leave `int`, which
holds while twice the worker count fits. -/

theorem mergeSortAux_fuel :
    ∀ (f g : Nat) (arr : List Int) (left right : Int),
      (right - left).toNat ≤ f → (right - left).toNat ≤ g →
      mergeSortAux f arr left right = mergeSortAux g arr left right := by
  intro f
  induction f with
  | zero =>
    intro g arr left right hf _
    have hlt : ¬ left < right := by omega
    cases g with
    | zero => rfl
    | succ g => rw [mergeSortAux, mergeSortAux, if_neg hlt]
  | succ f ih =>
    intro g arr left right hf hg
    by_cases hlt : left < right
    · cases g with
      | zero => omega
      | succ g =>
        rw [mergeSortAux, mergeSortAux, if_pos hlt, if_pos hlt]
        have hd : (right - left).tdiv 2 = (right - left) / 2 :=
          Int.tdiv_eq_ediv (by omega) (by omega)
        simp only [hd]
        rw [ih g arr left (left + (right - left) / 2) (by omega) (by omega)]
        rw [ih g _ (left + (right - left) / 2 + 1) right (by omega) (by omega)]
    · cases g with
      | zero => rw [mergeSortAux, mergeSortAux, if_neg hlt]
      | succ g => rw [mergeSortAux, mergeSortAux, if_neg hlt, if_neg hlt]

theorem chunk_next_exact (W step i : Int) (hbW : 2 * W ≤ INT_MAX) (hs : 1 ≤ step)
    (hsW : step < W) (hi : i < W) (hinv : i = 0 ∨ 2 * step ≤ i) :
    intAdd i (intMul 2 step) = i + 2 * step := by
  unfold INT_MAX at hbW
  have a2 : intMul 2 step = 2 * step := wrapInt_eq _ (by omega) (by omega)
  rw [a2]
  exact wrapInt_eq _ (by omega) (by omega)

theorem chunksInner_fuel (W N c step : Int) (hbW : 2 * W ≤ INT_MAX) (hs : 1 ≤ step)
    (hsW : step < W) :
    ∀ (f g : Nat) (arr : List Int) (i : Int), (i = 0 ∨ 2 * step ≤ i) →
      (W - i).toNat ≤ f → (W - i).toNat ≤ g →
      chunksInner W N c step f arr i = chunksInner W N c step g arr i := by
  intro f
  induction f with
  | zero =>
    intro g arr i _ hf _
    have hlt : ¬ i < W := by omega
    cases g with
    | zero => rfl
    | succ g => rw [chunksInner, chunksInner, if_neg hlt]
  | succ f ih =>
    intro g arr i hinv hf hg
    by_cases hlt : i < W
    · cases g with
      | zero => omega
      | succ g =>
        rw [chunksInner, chunksInner, if_pos hlt, if_pos hlt]
        simp only [chunk_next_exact W step i hbW hs hsW hlt hinv]
        exact ih g _ (i + 2 * step) (by omega) (by omega) (by omega)
    · cases g with
      | zero => rw [chunksInner, chunksInner, if_neg hlt]
      | succ g => rw [chunksInner, chunksInner, if_neg hlt, if_neg hlt]

theorem chunksOuter_fuel (W N c : Int) :
    ∀ (f g : Nat) (arr : List Int) (step : Int), 1 ≤ step →
      (W - step).toNat ≤ f → (W - step).toNat ≤ g →
      chunksOuter W N c f arr step = chunksOuter W N c g arr step := by
  intro f
  induction f with
  | zero =>
    intro g arr step _ hf _
    have hlt : ¬ step < W := by omega
    cases g with
    | zero => rfl
    | succ g => rw [chunksOuter, chunksOuter, if_neg hlt]
  | succ f ih =>
    intro g arr step hs hf hg
    by_cases hlt : step < W
    · cases g with
      | zero => omega
      | succ g =>
        rw [chunksOuter, chunksOuter, if_pos hlt, if_pos hlt]
        exact ih g _ (step * 2) (by omega) (by omega) (by omega)
    · cases g with
      | zero => rw [chunksOuter, chunksOuter, if_neg hlt]
      | succ g => rw [chunksOuter, chunksOuter, if_neg hlt, if_neg hlt]

/-- More budget than `mergeSort` passes does not change what `mergeSort` returns. -/
theorem mergeSort_fuel (arr : List Int) (left right : Int) (extra : Nat) :
    mergeSortAux ((right - left).toNat + extra) arr left right = mergeSort arr left right :=
  mergeSortAux_fuel _ _ arr left right (by omega) (le_refl _)

/-- More budget than `mergeSortedChunks` passes to its two loops does not change what it
returns. -/
theorem mergeSortedChunks_fuel (arr : List Int) (W N : Int) (extra : Nat) :
    chunksOuter W N (N.tdiv W) (W.toNat + extra) arr 1 = mergeSortedChunks arr W N :=
  chunksOuter_fuel W N _ _ _ arr 1 (le_refl 1) (by omega) (by omega)

theorem chunksInner_fuel_extra (W N c step : Int) (hbW : 2 * W ≤ INT_MAX) (hs : 1 ≤ step)
    (hsW : step < W) (arr : List Int) (extra : Nat) :
    chunksInner W N c step (W.toNat + extra) arr 0 = chunksInner W N c step W.toNat arr 0 :=
  chunksInner_fuel W N c step hbW hs hsW _ _ arr 0 (Or.inl rfl) (by omega) (by omega)


/-! ## Parameter validation -/

theorem launchLoop_ok (fails : Nat → Bool) (ff : Bool) (N W : Int) :
    ∀ (fuel : Nat) (i : Int), 0 ≤ i → (W - i).toNat ≤ fuel →
      ((launchLoop fails ff N W fuel i).2 = true ↔
        ∀ t : Nat, i ≤ (t : Int) → (t : Int) < W → fails t = false) := by
  intro fuel
  induction fuel with
  | zero =>
    intro i _ hf
    unfold launchLoop
    constructor
    · intro _ t h1 h2
      omega
    · intro _
      rfl
  | succ n ih =>
    intro i h0 hf
    unfold launchLoop
    by_cases hi : i < W
    · rw [if_pos hi]
      obtain ⟨k, rfl⟩ := Int.eq_ofNat_of_zero_le h0
      by_cases hfl : fails ((k : Int)).toNat = true
      · simp only [hfl, if_true]
        constructor
        · intro h
          exact absurd h (by simp)
        · intro h
          have := h k (le_refl _) hi
          rw [Int.toNat_ofNat] at hfl
          rw [this] at hfl
          exact absurd hfl (by simp)
      · have hfl2 : fails ((k : Int)).toNat = false := by
          cases hx : fails ((k : Int)).toNat
          · rfl
          · exact absurd hx hfl
        simp only [hfl2]
        have ih2 := ih ((k : Int) + 1) (by omega) (by omega)
        rw [Int.toNat_ofNat] at hfl2
        constructor
        · intro h t h1 h2
          by_cases htk : t = k
          · rw [htk]; exact hfl2
          · exact (ih2.1 h) t (by omega) h2
        · intro h
          exact ih2.2 (fun t h1 h2 => h t (by omega) h2)
    · rw [if_neg hi]
      constructor
      · intro _ t h1 h2
        omega
      · intro _
        rfl

theorem launchLoop_all (fails : Nat → Bool) (ff : Bool) (N W : Int) :
    (launchLoop fails ff N W W.toNat 0).2 = true ↔
      ∀ t : Nat, (t : Int) < W → fails t = false := by
  rw [launchLoop_ok fails ff N W W.toNat 0 (le_refl _) (by simp)]
  constructor
  · intro h t ht
    exact h t (by omega) ht
  · intro h t _ ht
    exact h t ht

/-- C11: for all integers `N` (size) and `W` (worker count), and whatever the operating
system refuses later in the run, the `main` of each program returns exit status 1 with
nothing allocated, partitioned or launched exactly when `N ≤ 0` or `W ≤ 0`; exactly when
`N ≥ 1` and `W ≥ 1` the run passes the guard, and its first event is then the allocation
of the `N`-cell buffer (or the failure of `mmap`). A run that passed the guard can still
end with status 1: it returns 0 exactly when, besides, `mmap` and every creation of a
worker succeed. -/
theorem param_validation (mp : Bool) (env : Env) (arr : List Int) (N W : Int)
    (order : List Nat) (sched : List (Nat × Bool)) :
    (((sortMain mp env arr N W).1 = 1 ∧ (sortMain mp env arr N W).2.1 = [])
      ↔ (N ≤ 0 ∨ W ≤ 0)) ∧
    (((maxMain env arr N W order sched).1 = 1 ∧ (maxMain env arr N W order sched).2.1 = [])
      ↔ (N ≤ 0 ∨ W ≤ 0)) ∧
    ((sortMain mp env arr N W).2.1 = [] ↔ (N ≤ 0 ∨ W ≤ 0)) ∧
    ((maxMain env arr N W order sched).2.1 = [] ↔ (N ≤ 0 ∨ W ≤ 0)) ∧
    ((sortMain mp env arr N W).2.1.head?
        = some (if mp = true ∧ env.mmapFails = true then Event.mapFailed N
            else Event.allocated N)
      ↔ (1 ≤ N ∧ 1 ≤ W)) ∧
    ((maxMain env arr N W order sched).2.1.head? = some (Event.allocated N)
      ↔ (1 ≤ N ∧ 1 ≤ W)) ∧
    ((sortMain mp env arr N W).1 = 0 ↔
      (1 ≤ N ∧ 1 ≤ W ∧ ¬ (mp = true ∧ env.mmapFails = true) ∧
        ∀ i : Nat, (i : Int) < clampWorkers N W → env.createFails 0 i = false)) ∧
    ((maxMain env arr N W order sched).1 = 0 ↔
      (1 ≤ N ∧ 1 ≤ W ∧
        ∀ k : Nat, k < 2 → ∀ i : Nat, (i : Int) < clampWorkers N W →
          env.createFails k i = false)) ∧
    ((sortMain mp env arr N W).1 = 0 ∨ (sortMain mp env arr N W).1 = 1) ∧
    ((maxMain env arr N W order sched).1 = 0 ∨ (maxMain env arr N W order sched).1 = 1) ∧
    ((sortMain mp env arr N W).2.2 = some (sortRun arr N W)
      ↔ (sortMain mp env arr N W).1 = 0) ∧
    ((maxMain env arr N W order sched).2.2.isSome = true
      ↔ (maxMain env arr N W order sched).1 = 0) := by
  have hs := launchLoop_all (env.createFails 0) mp N (clampWorkers N W)
  have h1 := launchLoop_all (env.createFails 0) false N (clampWorkers N W)
  have h2 := launchLoop_all (env.createFails 1) false N (clampWorkers N W)
  have hk : (∀ k : Nat, k < 2 → ∀ i : Nat, (i : Int) < clampWorkers N W →
          env.createFails k i = false) ↔
      ((∀ i : Nat, (i : Int) < clampWorkers N W → env.createFails 0 i = false) ∧
       (∀ i : Nat, (i : Int) < clampWorkers N W → env.createFails 1 i = false)) := by
    constructor
    · intro h
      exact ⟨h 0 (by decide), h 1 (by decide)⟩
    · rintro ⟨ha, hb⟩ k hk
      have : k = 0 ∨ k = 1 := by omega
      rcases this with h | h <;> subst h
      · exact ha
      · exact hb
  rw [hk, ← h1, ← h2]
  have hsb := hs.trans h1.symm
  clear hs h1 h2 hk
  revert hsb
  unfold sortMain maxMain rejectParams
  by_cases h : W ≤ 0 ∨ N ≤ 0
  · rw [if_pos h]
    intro _
    simp
    omega
  · rw [if_neg h]
    have hN : 1 ≤ N ∧ 1 ≤ W := by omega
    have hN2 : ¬ (N ≤ 0 ∨ W ≤ 0) := by omega
    cases mp <;> cases hm : env.mmapFails <;>
      cases ha : (launchLoop (env.createFails 0) false N (clampWorkers N W)
        (clampWorkers N W).toNat 0).2 <;>
      cases hb : (launchLoop (env.createFails 1) false N (clampWorkers N W)
        (clampWorkers N W).toNat 0).2 <;>
      cases hc : (launchLoop (env.createFails 0) true N (clampWorkers N W)
        (clampWorkers N W).toNat 0).2 <;>
      simp [hN, hN2, hm, ha, hb, hc]

/-! ## `isSorted` -/

theorem isSortedLoop_spec (arr : List Int) (size : Int) :
    ∀ (fuel : Nat) (i : Int), (size - 1 - i).toNat ≤ fuel →
      (isSortedLoop arr size fuel i = true ↔
        ∀ k : Int, i ≤ k → k < size - 1 → rd arr k ≤ rd arr (k + 1)) := by
  intro fuel
  induction fuel with
  | zero =>
    intro i hf
    rw [isSortedLoop]
    exact ⟨fun _ k h1 h2 => by omega, fun _ => rfl⟩
  | succ f ih =>
    intro i hf
    rw [isSortedLoop]
    by_cases hi : i < size - 1
    · rw [if_pos hi]
      by_cases hgt : rd arr i > rd arr (i + 1)
      · rw [if_pos hgt]
        constructor
        · intro h; exact absurd h (by decide)
        · intro h
          have := h i (le_refl i) hi
          omega
      · rw [if_neg hgt, ih (i + 1) (by omega)]
        constructor
        · intro h k hk1 hk2
          by_cases hki : k = i
          · subst hki; omega
          · exact h k (by omega) hk2
        · intro h k hk1 hk2
          exact h k (by omega) hk2
    · rw [if_neg hi]
      exact ⟨fun _ k h1 h2 => by omega, fun _ => rfl⟩

/-- C17: for every buffer and every size `N`, `isSorted(arr, N)` returns true exactly when
`arr[i] <= arr[i+1]` for every `0 ≤ i < N - 1`; and it returns true for every size that is
at most 1 (written `min N 1`). -/
theorem isSorted_iff (arr : List Int) (N : Int) :
    (isSorted arr N = true ↔ ∀ i : Int, 0 ≤ i → i < N - 1 → rd arr i ≤ rd arr (i + 1)) ∧
    isSorted arr (min N 1) = true := by
  refine ⟨isSortedLoop_spec arr N N.toNat 0 (by omega), ?_⟩
  have hm := min_le_right N 1
  exact (isSortedLoop_spec arr (min N 1) (min N 1).toNat 0 (by omega)).2
    (fun k h1 h2 => by omega)


/-! ## The recording loops compute the same buffers -/

theorem mergeSortAuxT_fst :
    ∀ (fuel : Nat) (arr : List Int) (left right : Int),
      (mergeSortAuxT fuel arr left right).1 = mergeSortAux fuel arr left right := by
  intro fuel
  induction fuel with
  | zero => intro arr left right; rfl
  | succ f ih =>
    intro arr left right
    rw [mergeSortAuxT, mergeSortAux]
    split_ifs with h
    · simp only [ih]
    · rfl

theorem mergeSortT_fst (arr : List Int) (left right : Int) :
    (mergeSortT arr left right).1 = mergeSort arr left right :=
  mergeSortAuxT_fst _ arr left right

theorem chunksOuterT_rounds (W N c : Int) :
    ∀ (fuel : Nat) (arr : List Int) (k : Nat), (W - (2 : Int) ^ k).toNat ≤ fuel →
      (k = 0 ∨ (2 : Int) ^ (k - 1) < W) →
      W ≤ (2 : Int) ^ (k + (chunksOuterT W N c fuel arr ((2 : Int) ^ k)).2.2) ∧
      (k + (chunksOuterT W N c fuel arr ((2 : Int) ^ k)).2.2 = 0 ∨
        (2 : Int) ^ (k + (chunksOuterT W N c fuel arr ((2 : Int) ^ k)).2.2 - 1) < W) := by
  intro fuel
  induction fuel with
  | zero =>
    intro arr k hf hk
    have hW : W ≤ (2 : Int) ^ k := by omega
    simp only [chunksOuterT, Nat.add_zero]
    exact ⟨hW, hk⟩
  | succ f ih =>
    intro arr k hf hk
    have hpos : (1 : Int) ≤ (2 : Int) ^ k := one_le_pow₀ (by norm_num)
    rw [chunksOuterT]
    by_cases hlt : (2 : Int) ^ k < W
    · rw [if_pos hlt]
      simp only
      have e : (2 : Int) ^ k * 2 = (2 : Int) ^ (k + 1) := by rw [pow_succ]
      rw [e]
      have h := ih (chunksInnerT W N c ((2 : Int) ^ k) W.toNat arr 0).1 (k + 1)
        (by rw [← e]; omega) (Or.inr (by simpa using hlt))
      have e2 : ∀ r : Nat, k + (r + 1) = k + 1 + r := by intro r; omega
      rw [e2]
      exact h
    · rw [if_neg hlt]
      simp only [Nat.add_zero]
      exact ⟨by omega, hk⟩

/-- C13: for every `W ≥ 1` (and every `N`, every buffer), the body of the outer loop of
`mergeSortedChunks(arr, W, N)` runs exactly `ceil(log2 W)` times: the count `r` is
`Nat.clog 2 W`, that is, `W ≤ 2^r` and `r = 0` or `2^(r-1) < W`. For `W = 1` it runs zero
times. -/
theorem merge_rounds (arr : List Int) (N W : Int) (h1 : 1 ≤ W) :
    (mergeSortedChunksT arr W N).2.2 = Nat.clog 2 W.toNat ∧
    W ≤ (2 : Int) ^ (mergeSortedChunksT arr W N).2.2 ∧
    ((mergeSortedChunksT arr W N).2.2 = 0 ∨
      (2 : Int) ^ ((mergeSortedChunksT arr W N).2.2 - 1) < W) ∧
    (mergeSortedChunksT arr 1 N).2.2 = 0 := by
  have h := chunksOuterT_rounds W N (N.tdiv W) W.toNat arr 0 (by simp) (Or.inl rfl)
  simp only [pow_zero, Nat.zero_add] at h
  have hr : (mergeSortedChunksT arr W N).2.2
      = (chunksOuterT W N (N.tdiv W) W.toNat arr 1).2.2 := rfl
  rw [hr]
  generalize (chunksOuterT W N (N.tdiv W) W.toNat arr 1).2.2 = r at h
  obtain ⟨ha, hb⟩ := h
  have hWn : (W.toNat : Int) = W := Int.toNat_of_nonneg (by omega)
  refine ⟨?_, ha, hb, ?_⟩
  · apply le_antisymm
    · by_contra hc
      have hlt : Nat.clog 2 W.toNat < r := by omega
      rcases hb with hb | hb
      · omega
      · have h2 : Nat.clog 2 W.toNat ≤ r - 1 := by omega
        have h3 := (Nat.le_pow_iff_clog_le (by norm_num : 1 < 2)).2 h2
        have h4 : (W.toNat : Int) ≤ ((2 ^ (r - 1) : Nat) : Int) := by exact_mod_cast h3
        rw [hWn] at h4
        push_cast at h4
        omega
    · apply (Nat.le_pow_iff_clog_le (by norm_num : 1 < 2)).1
      have h4 : (W.toNat : Int) ≤ ((2 ^ r : Nat) : Int) := by
        rw [hWn]; push_cast; exact ha
      exact_mod_cast h4
  · rfl

theorem merge_rounds_witness :
    (1 : Int) ≤ 5 ∧
    ((mergeSortedChunksT [3, 1, 4, 1, 5, 9, 2] 5 7).2.2 = Nat.clog 2 (5 : Int).toNat ∧
    (5 : Int) ≤ (2 : Int) ^ (mergeSortedChunksT [3, 1, 4, 1, 5, 9, 2] 5 7).2.2 ∧
    ((mergeSortedChunksT [3, 1, 4, 1, 5, 9, 2] 5 7).2.2 = 0 ∨
      (2 : Int) ^ ((mergeSortedChunksT [3, 1, 4, 1, 5, 9, 2] 5 7).2.2 - 1) < 5) ∧
    (mergeSortedChunksT [3, 1, 4, 1, 5, 9, 2] 1 7).2.2 = 0) :=
  ⟨by decide, merge_rounds [3, 1, 4, 1, 5, 9, 2] 7 5 (by decide)⟩


/-! ## The cells `merge` touches -/

theorem mergeLoopT_fst (L R : List Int) (n1 n2 : Int) :
    ∀ (fuel : Nat) (arr : List Int) (i j k : Int),
      (mergeLoopT L R n1 n2 fuel arr i j k).1 = mergeLoop L R n1 n2 fuel arr i j k := by
  intro fuel
  induction fuel with
  | zero => intro arr i j k; rfl
  | succ f ih =>
    intro arr i j k
    rw [mergeLoopT, mergeLoop]
    by_cases h1 : i < n1 ∧ j < n2
    · rw [if_pos h1, if_pos h1]
      by_cases h2 : rd L i ≤ rd R j
      · rw [if_pos h2, if_pos h2]; exact ih _ _ _ _
      · rw [if_neg h2, if_neg h2]; exact ih _ _ _ _
    · rw [if_neg h1, if_neg h1]

theorem mergeDrainT_fst (T : List Int) (n : Int) :
    ∀ (fuel : Nat) (arr : List Int) (t k : Int),
      (mergeDrainT T n fuel arr t k).1 = mergeDrain T n fuel arr t k := by
  intro fuel
  induction fuel with
  | zero => intro arr t k; rfl
  | succ f ih =>
    intro arr t k
    rw [mergeDrainT, mergeDrain]
    by_cases h1 : t < n
    · rw [if_pos h1, if_pos h1]; exact ih _ _ _
    · rw [if_neg h1, if_neg h1]

theorem mergeT_fst (arr : List Int) (left mid right : Int) :
    (mergeT arr left mid right).1 = merge arr left mid right := by
  simp only [mergeT, merge, mergeLoopT_fst, mergeDrainT_fst]

theorem mergeLoopT_bounds (L R : List Int) (n1 n2 : Int) :
    ∀ (fuel : Nat) (arr : List Int) (i j k : Int), i ≤ n1 → j ≤ n2 →
      i ≤ (mergeLoopT L R n1 n2 fuel arr i j k).1.2.1 ∧
      (mergeLoopT L R n1 n2 fuel arr i j k).1.2.1 ≤ n1 ∧
      j ≤ (mergeLoopT L R n1 n2 fuel arr i j k).1.2.2.1 ∧
      (mergeLoopT L R n1 n2 fuel arr i j k).1.2.2.1 ≤ n2 ∧
      (mergeLoopT L R n1 n2 fuel arr i j k).1.2.2.2
        = k + ((mergeLoopT L R n1 n2 fuel arr i j k).1.2.1 - i)
            + ((mergeLoopT L R n1 n2 fuel arr i j k).1.2.2.1 - j) ∧
      ∀ x ∈ (mergeLoopT L R n1 n2 fuel arr i j k).2,
        k ≤ x ∧ x < (mergeLoopT L R n1 n2 fuel arr i j k).1.2.2.2 := by
  intro fuel
  induction fuel with
  | zero =>
    intro arr i j k hi hj
    simp only [mergeLoopT]
    refine ⟨le_refl _, hi, le_refl _, hj, by omega, ?_⟩
    intro x hx; simp at hx
  | succ f ih =>
    intro arr i j k hi hj
    rw [mergeLoopT]
    by_cases h1 : i < n1 ∧ j < n2
    · rw [if_pos h1]
      by_cases h2 : rd L i ≤ rd R j
      · rw [if_pos h2]
        simp only
        obtain ⟨a1, a2, a3, a4, a5, a6⟩ := ih (wr arr k (rd L i)) (i + 1) j (k + 1)
          (by omega) hj
        refine ⟨by omega, a2, a3, a4, by omega, ?_⟩
        intro x hx
        rcases List.mem_cons.1 hx with h | h
        · omega
        · have := a6 x h; omega
      · rw [if_neg h2]
        simp only
        obtain ⟨a1, a2, a3, a4, a5, a6⟩ := ih (wr arr k (rd R j)) i (j + 1) (k + 1)
          hi (by omega)
        refine ⟨a1, a2, by omega, a4, by omega, ?_⟩
        intro x hx
        rcases List.mem_cons.1 hx with h | h
        · omega
        · have := a6 x h; omega
    · rw [if_neg h1]
      refine ⟨le_refl _, hi, le_refl _, hj, by simp, ?_⟩
      intro x hx; simp at hx

theorem mergeDrainT_bounds (T : List Int) (n : Int) :
    ∀ (fuel : Nat) (arr : List Int) (t k : Int), t ≤ n →
      k ≤ (mergeDrainT T n fuel arr t k).1.2 ∧
      (mergeDrainT T n fuel arr t k).1.2 ≤ k + (n - t) ∧
      ∀ x ∈ (mergeDrainT T n fuel arr t k).2,
        k ≤ x ∧ x < (mergeDrainT T n fuel arr t k).1.2 := by
  intro fuel
  induction fuel with
  | zero =>
    intro arr t k ht
    simp only [mergeDrainT]
    refine ⟨le_refl _, by omega, ?_⟩
    intro x hx; simp at hx
  | succ f ih =>
    intro arr t k ht
    rw [mergeDrainT]
    by_cases h1 : t < n
    · rw [if_pos h1]
      simp only
      obtain ⟨a1, a2, a3⟩ := ih (wr arr k (rd T t)) (t + 1) (k + 1) (by omega)
      refine ⟨by omega, by omega, ?_⟩
      intro x hx
      rcases List.mem_cons.1 hx with h | h
      · omega
      · have := a3 x h; omega
    · rw [if_neg h1]
      refine ⟨le_refl _, by simp; omega, ?_⟩
      intro x hx; simp at hx

theorem mem_copyReads (base n x : Int) (hx : x ∈ copyReads base n) :
    base ≤ x ∧ x < base + n := by
  unfold copyReads at hx
  obtain ⟨t, ht, rfl⟩ := List.mem_map.1 hx
  have := List.mem_range.1 ht
  omega

/-- Every cell `merge` reads or writes lies in `arr[left..right]`. -/
theorem mergeT_touched (arr : List Int) (left mid right : Int) (hlm : left ≤ mid + 1)
    (hmr : mid ≤ right) :
    ∀ x ∈ (mergeT arr left mid right).2, left ≤ x ∧ x ≤ right := by
  intro x hx
  simp only [mergeT] at hx
  generalize copySpan arr left (mid - left + 1) = L at hx
  generalize copySpan arr (mid + 1) (right - mid) = R at hx
  generalize (mid - left + 1 + (right - mid)).toNat = fuel at hx
  obtain ⟨a1, a2, a3, a4, a5, a6⟩ := mergeLoopT_bounds L R (mid - left + 1) (right - mid)
    fuel arr 0 0 left (by omega) (by omega)
  generalize mergeLoopT L R (mid - left + 1) (right - mid) fuel arr 0 0 left = s1
    at hx a1 a2 a3 a4 a5 a6
  obtain ⟨b1, b2, b3⟩ := mergeDrainT_bounds L (mid - left + 1) fuel s1.1.1 s1.1.2.1
    s1.1.2.2.2 a2
  generalize mergeDrainT L (mid - left + 1) fuel s1.1.1 s1.1.2.1 s1.1.2.2.2 = s2
    at hx b1 b2 b3
  obtain ⟨c1, c2, c3⟩ := mergeDrainT_bounds R (right - mid) fuel s2.1.1 s1.1.2.2.1 s2.1.2 a4
  generalize mergeDrainT R (right - mid) fuel s2.1.1 s1.1.2.2.1 s2.1.2 = s3 at hx c1 c2 c3
  simp only [List.mem_append] at hx
  rcases hx with (((h | h) | h) | h) | h
  · have := mem_copyReads _ _ _ h; omega
  · have := mem_copyReads _ _ _ h; omega
  · have := a6 x h; omega
  · have := b3 x h; omega
  · have := c3 x h; omega


/-! ## The merge calls of `mergeSortedChunks` -/

theorem chunksInnerT_calls (N W c step : Int) (hc1 : 1 ≤ c) (hc2 : W * c ≤ N)
    (hb : 2 * N ≤ INT_MAX) (hs : 1 ≤ step) (hsW : step < W) :
    ∀ (fuel : Nat) (arr : List Int) (i : Int), (i = 0 ∨ 2 * step ≤ i) →
      ∀ call ∈ (chunksInnerT W N c step fuel arr i).2,
        0 ≤ call.1 ∧ call.1 ≤ call.2.1 ∧ call.2.1 < call.2.2 ∧ call.2.2 ≤ N - 1 := by
  intro fuel
  induction fuel with
  | zero => intro arr i _ call hc; simp [chunksInnerT] at hc
  | succ f ih =>
    intro arr i hinv call hc
    rw [chunksInnerT] at hc
    by_cases hi : i < W
    · rw [if_pos hi] at hc
      simp only at hc
      obtain ⟨x1, x2, x3, x4, x5⟩ := chunk_step_exact N W c step i hc1 hc2 hb hs hsW hi hinv
      rw [x1, x2, x3, x4, x5] at hc
      have hi0 : 0 ≤ i := by omega
      have hm : 0 ≤ i * c := mul_nonneg hi0 (by omega)
      have hm1 : (i + step) * c = i * c + step * c := by ring
      have hm2 : 1 ≤ step * c := by nlinarith
      have hm3 : i * c + c ≤ W * c := by nlinarith
      by_cases hlt : min ((i + step) * c - 1) (N - 1) < min ((i + 2 * step) * c - 1) (N - 1)
      · rw [if_pos hlt] at hc
        rcases List.mem_cons.1 hc with h | h
        · subst h
          refine ⟨hm, ?_, hlt, min_le_right _ _⟩
          show i * c ≤ min ((i + step) * c - 1) (N - 1)
          rw [le_min_iff]; constructor <;> omega
        · exact ih _ _ (by omega) call h
      · rw [if_neg hlt] at hc
        exact ih _ _ (by omega) call hc
    · rw [if_neg hi] at hc
      simp at hc

theorem chunksOuterT_calls (N W c : Int) (hc1 : 1 ≤ c) (hc2 : W * c ≤ N)
    (hb : 2 * N ≤ INT_MAX) :
    ∀ (fuel : Nat) (arr : List Int) (step : Int), 1 ≤ step →
      ∀ call ∈ (chunksOuterT W N c fuel arr step).2.1,
        0 ≤ call.1 ∧ call.1 ≤ call.2.1 ∧ call.2.1 < call.2.2 ∧ call.2.2 ≤ N - 1 := by
  intro fuel
  induction fuel with
  | zero => intro arr step _ call hc; simp [chunksOuterT] at hc
  | succ f ih =>
    intro arr step hs call hc
    rw [chunksOuterT] at hc
    by_cases hlt : step < W
    · rw [if_pos hlt] at hc
      simp only at hc
      rcases List.mem_append.1 hc with h | h
      · exact chunksInnerT_calls N W c step hc1 hc2 hb hs hlt _ arr 0 (Or.inl rfl) call h
      · exact ih _ _ (by omega) call h
    · rw [if_neg hlt] at hc
      simp at hc

/-- While `2 * N ≤ INT_MAX`: for `N ≥ 1` and `1 ≤ W ≤ N`, every call
`merge(arr, left, mid, right)` that `mergeSortedChunks(arr, W, N)` issues has
`0 ≤ left ≤ mid < right ≤ N - 1`; so both temporary spans have positive length
(`n1 = mid - left + 1`, `n2 = right - mid`), and every cell that call reads or writes,
whatever the buffer holds, has its index in `[0, N)`. -/
theorem merge_calls_in_range_bounded (arr : List Int) (N W : Int) (h1 : 1 ≤ W) (hW : W ≤ N)
    (hb : 2 * N ≤ INT_MAX) :
    ∀ call ∈ (mergeSortedChunksT arr W N).2.1,
      (0 ≤ call.1 ∧ call.1 ≤ call.2.1 ∧ call.2.1 < call.2.2 ∧ call.2.2 ≤ N - 1) ∧
      (1 ≤ call.2.1 - call.1 + 1 ∧ 1 ≤ call.2.2 - call.2.1) ∧
      ∀ (b : List Int), ∀ x ∈ (mergeT b call.1 call.2.1 call.2.2).2, 0 ≤ x ∧ x < N := by
  intro call hc
  obtain ⟨hc1, hc2, _⟩ := chunk_facts N W h1 hW
  have hb' := chunksOuterT_calls N W (N.tdiv W) hc1 hc2 hb W.toNat arr 1 (le_refl 1) call hc
  refine ⟨hb', by omega, ?_⟩
  intro b x hx
  have := mergeT_touched b call.1 call.2.1 call.2.2 (by omega) (by omega) x hx
  omega

theorem merge_calls_in_range_bounded_witness :
    (1 : Int) ≤ 3 ∧ (3 : Int) ≤ 7 ∧ (2 : Int) * 7 ≤ INT_MAX ∧
    (mergeSortedChunksT [5, 3, 8, 1, 9, 2, 7] 3 7).2.1 = [(0, 1, 3), (4, 5, 6), (0, 3, 6)] ∧
    ∀ call ∈ (mergeSortedChunksT [5, 3, 8, 1, 9, 2, 7] 3 7).2.1,
      (0 ≤ call.1 ∧ call.1 ≤ call.2.1 ∧ call.2.1 < call.2.2 ∧ call.2.2 ≤ 7 - 1) ∧
      (1 ≤ call.2.1 - call.1 + 1 ∧ 1 ≤ call.2.2 - call.2.1) ∧
      ∀ (b : List Int), ∀ x ∈ (mergeT b call.1 call.2.1 call.2.2).2, 0 ≤ x ∧ x < 7 :=
  ⟨by decide, by decide, by decide, by decide,
    merge_calls_in_range_bounded [5, 3, 8, 1, 9, 2, 7] 7 3 (by decide) (by decide)
      (by decide)⟩

/-! ## The worked scenario -/

/-- C12: for `A = [5,3,8,1,9,2]` and `W = 3` the partitions are `[0,1]`, `[2,3]`, `[4,5]`;
the local maxima are 5, 8, 9 and the reduced maximum is 9 in every order of the critical
sections; `mergeSort` on each partition gives `[3,5]`, `[1,8]`, `[2,9]`; and
`mergeSortedChunks(arr, 3, 6)` runs its outer loop exactly twice (issuing `merge(0,1,3)` and
`merge(0,3,5)`) and leaves `[1,2,3,5,8,9]`. -/
theorem worked_scenario :
    clampWorkers 6 3 = 3 ∧
    (partStart 6 3 0, partEnd 6 3 0) = (0, 1) ∧
    (partStart 6 3 1, partEnd 6 3 1) = (2, 3) ∧
    (partStart 6 3 2, partEnd 6 3 2) = (4, 5) ∧
    localMaxima [5, 3, 8, 1, 9, 2] 6 3 = [5, 8, 9] ∧
    (∀ order ∈ [[0, 1, 2], [0, 2, 1], [1, 0, 2], [1, 2, 0], [2, 0, 1], [2, 1, 0]],
      (runMutex [5, 3, 8, 1, 9, 2] 6 3 order).global_max = 9) ∧
    findSequentialMax [5, 3, 8, 1, 9, 2] 6 = 9 ∧
    segment (mergeSort [5, 3, 8, 1, 9, 2] 0 1) 0 1 = [3, 5] ∧
    segment (mergeSort [5, 3, 8, 1, 9, 2] 2 3) 2 3 = [1, 8] ∧
    segment (mergeSort [5, 3, 8, 1, 9, 2] 4 5) 4 5 = [2, 9] ∧
    localSortPhase [5, 3, 8, 1, 9, 2] 6 3 = [3, 5, 1, 8, 2, 9] ∧
    mergeSortedChunksT [3, 5, 1, 8, 2, 9] 3 6 = ([1, 2, 3, 5, 8, 9], [(0, 1, 3), (0, 3, 5)], 2) ∧
    mergeSortedChunks [3, 5, 1, 8, 2, 9] 3 6 = [1, 2, 3, 5, 8, 9] ∧
    sortRun [5, 3, 8, 1, 9, 2] 6 3 = [1, 2, 3, 5, 8, 9] := by
  decide


/-! ## Buffers as prefix, span and suffix -/

theorem rd_neg (arr : List Int) (k : Int) (hk : k < 0) : rd arr k = 0 := by
  unfold rd; rw [if_neg (by omega)]

theorem rd_app_left (P R : List Int) (k : Int) (hk : k < P.length) :
    rd (P ++ R) k = rd P k := by
  by_cases h0 : 0 ≤ k
  · unfold rd
    rw [if_pos h0, if_pos h0, List.getD_append _ _ _ _ (by omega)]
  · rw [rd_neg _ k (by omega), rd_neg _ k (by omega)]

theorem rd_app_right (P R : List Int) (k : Int) (hk : (P.length : Int) ≤ k) :
    rd (P ++ R) k = rd R (k - P.length) := by
  unfold rd
  rw [if_pos (by omega), if_pos (by omega), List.getD_append_right _ _ _ _ (by omega)]
  congr 1
  omega

theorem rd_app_mid (P X Q : List Int) (t : Nat) (ht : t < X.length) :
    rd (P ++ (X ++ Q)) ((P.length : Int) + (t : Int)) = X[t] := by
  rw [rd_app_right _ _ _ (by omega), rd_app_left _ _ _ (by omega)]
  have e : (P.length : Int) + (t : Int) - (P.length : Int) = (t : Int) := by omega
  rw [e, rd_getElem X t ht]

/-- Two buffers that differ only inside a span agree on every index outside it. -/
theorem rd_app_frame (P X S Q : List Int) (hlen : S.length = X.length) (k : Int)
    (hk : k < P.length ∨ (P.length : Int) + X.length ≤ k) :
    rd (P ++ (S ++ Q)) k = rd (P ++ (X ++ Q)) k := by
  rcases hk with h | h
  · rw [rd_app_left _ _ _ h, rd_app_left _ _ _ h]
  · rw [rd_app_right _ _ _ (by omega), rd_app_right _ _ _ (by omega),
      rd_app_right _ _ _ (by omega), rd_app_right _ _ _ (by omega), hlen]

theorem segment_app (P X Q : List Int) (left right : Int) (hl : left = P.length)
    (hr : right + 1 = left + X.length) : segment (P ++ (X ++ Q)) left right = X := by
  unfold segment
  have e : right - left + 1 = ((X.length : Nat) : Int) := by omega
  rw [e, hl, copySpan_eq _ _ _ (by simp), List.drop_left, List.take_left]

theorem sortedSeg_app (P X Q : List Int) (left right : Int) (hl : left = P.length)
    (hr : right + 1 = left + X.length) :
    SortedSeg (P ++ (X ++ Q)) left right ↔ X.Pairwise (fun a b => a ≤ b) := by
  constructor
  · intro h
    rw [List.pairwise_iff_getElem]
    intro i j hi hj hij
    have := h (left + i) (left + j) (by omega) (by omega) (by omega)
    rw [hl, rd_app_mid P X Q i hi, rd_app_mid P X Q j hj] at this
    exact this
  · intro h p q hp hpq hq
    have hi : (p - left).toNat < X.length := by omega
    have hj : (q - left).toNat < X.length := by omega
    have ep : p = (P.length : Int) + ((p - left).toNat : Int) := by omega
    have eq : q = (P.length : Int) + ((q - left).toNat : Int) := by omega
    rw [ep, eq, rd_app_mid P X Q _ hi, rd_app_mid P X Q _ hj]
    by_cases hpq' : (p - left).toNat = (q - left).toNat
    · simp only [hpq']; exact le_refl _
    · exact (List.pairwise_iff_getElem.1 h) _ _ hi hj (by omega)

/-- An in-range span cuts the buffer into prefix, span and suffix. -/
theorem buffer_split (arr : List Int) (left right : Int) (h0 : 0 ≤ left)
    (hlr : left ≤ right + 1) (hr : right < arr.length) :
    arr = arr.take left.toNat ++ (segment arr left right ++ arr.drop (right + 1).toNat) ∧
    ((arr.take left.toNat).length : Int) = left ∧
    ((segment arr left right).length : Int) = right - left + 1 := by
  have hseg : segment arr left right
      = (arr.drop left.toNat).take (right - left + 1).toNat := by
    unfold segment
    obtain ⟨l, rfl⟩ := Int.eq_ofNat_of_zero_le h0
    obtain ⟨d, hd⟩ := Int.eq_ofNat_of_zero_le (by omega : 0 ≤ right - (l : Int) + 1)
    rw [hd, copySpan_eq _ _ _ (by omega)]
    simp
  refine ⟨?_, by simp; omega, by rw [hseg]; simp; omega⟩
  rw [hseg]
  have e3 : (right + 1).toNat = left.toNat + (right - left + 1).toNat := by omega
  rw [e3, ← List.drop_drop, List.take_append_drop, List.take_append_drop]

theorem merge_app (P X1 X2 Q : List Int) (l m r : Nat) (hl : P.length = l)
    (hm : l + X1.length = m + 1) (hr : m + 1 + X2.length = r + 1) (h1 : 0 < X1.length)
    (h2 : 0 < X2.length) :
    merge (P ++ (X1 ++ (X2 ++ Q))) (l : Int) (m : Int) (r : Int)
      = P ++ (List.merge X1 X2 leInt ++ Q) := by
  rw [merge_eq _ l m r (by omega) (by omega) (by simp; omega)]
  have e1 : (P ++ (X1 ++ (X2 ++ Q))).drop (m + 1) = X2 ++ Q := by
    rw [← List.append_assoc]; exact List.drop_left' (by simp; omega)
  have e2 : (P ++ (X1 ++ (X2 ++ Q))).drop (r + 1) = Q := by
    rw [← List.append_assoc, ← List.append_assoc]; exact List.drop_left' (by simp; omega)
  rw [List.take_left' hl, List.drop_left' hl, List.take_left' (by omega), e1, e2,
    List.take_left' (by omega), List.append_assoc]

theorem pairwise_leInt (X : List Int) :
    X.Pairwise (fun a b => leInt a b = true) ↔ X.Pairwise (fun a b => a ≤ b) := by
  constructor <;> intro h <;> refine h.imp ?_ <;> intro a b hab <;> simpa [leInt] using hab

theorem merge_pairwise (X1 X2 : List Int) (h1 : X1.Pairwise (fun a b => a ≤ b))
    (h2 : X2.Pairwise (fun a b => a ≤ b)) :
    (List.merge X1 X2 leInt).Pairwise (fun a b => a ≤ b) := by
  rw [← pairwise_leInt] at h1 h2 ⊢
  refine List.sorted_merge ?_ ?_ X1 X2 h1 h2
  · intro a b c hab hbc
    simp only [leInt, decide_eq_true_eq] at hab hbc ⊢
    omega
  · intro a b
    simp only [leInt, Bool.or_eq_true, decide_eq_true_eq]
    omega

theorem stableMerge_eq : ∀ (X1 X2 : List Int), stableMerge X1 X2 = List.merge X1 X2 leInt := by
  intro X1
  induction X1 with
  | nil => intro X2; rw [stableMerge, List.nil_merge]
  | cons x xs ih1 =>
    intro X2
    induction X2 with
    | nil => rw [stableMerge, List.merge_right]
    | cons y ys ih2 =>
      rw [stableMerge, List.cons_merge_cons]
      by_cases hxy : x ≤ y
      · have hb : leInt x y = true := by simp [leInt, hxy]
        rw [if_pos hxy, if_pos hb, ih1]
      · have hb : ¬ leInt x y = true := by simp [leInt, hxy]
        rw [if_neg hxy, if_neg hb, ih2]


/-! ## Non-decreasing spans -/

theorem sortedSeg_of_nonDecreasing (arr : List Int) (lo hi : Int)
    (h : NonDecreasing arr lo hi) : SortedSeg arr lo hi := by
  have key : ∀ (d : Nat) (p : Int), lo ≤ p → p + d ≤ hi → rd arr p ≤ rd arr (p + d) := by
    intro d
    induction d with
    | zero => intro p _ _; simp
    | succ n ih =>
      intro p hp hq
      have h1 := ih p hp (by push_cast at hq; omega)
      have h2 := h (p + n) (by omega) (by push_cast at hq; omega)
      have e : p + ((n + 1 : Nat) : Int) = p + n + 1 := by push_cast; ring
      rw [e]
      exact le_trans h1 h2
  intro p q hp hpq hq
  have := key (q - p).toNat p hp (by omega)
  have e : p + ((q - p).toNat : Int) = q := by omega
  rwa [e] at this

theorem nonDecreasing_of_sortedSeg (arr : List Int) (lo hi : Int)
    (h : SortedSeg arr lo hi) : NonDecreasing arr lo hi :=
  fun k h1 h2 => h k (k + 1) h1 (by omega) (by omega)

/-- A non-decreasing test over the offsets `t < hi - lo`, which can be evaluated. -/
theorem nonDecreasing_of_offsets (arr : List Int) (lo hi : Int)
    (h : ∀ t : Nat, t < (hi - lo).toNat → rd arr (lo + t) ≤ rd arr (lo + t + 1)) :
    NonDecreasing arr lo hi := by
  intro k h1 h2
  have := h (k - lo).toNat (by omega)
  have e : lo + ((k - lo).toNat : Int) = k := by omega
  rwa [e] at this

/-! ## What `merge` and `mergeSort` do to their span -/

theorem segment_eq (arr : List Int) (l r : Nat) (h : l ≤ r + 1) (hr : r < arr.length) :
    segment arr (l : Int) (r : Int) = (arr.drop l).take (r + 1 - l) := by
  unfold segment
  have e : (r : Int) - (l : Int) + 1 = ((r + 1 - l : Nat) : Int) := by omega
  rw [e, copySpan_eq _ _ _ (by omega)]

/-- An in-range `merge` cuts the buffer into prefix, left span, right span and suffix, and
replaces the two spans by their merge. -/
theorem merge_decomp (arr : List Int) (left mid right : Int) (h0 : 0 ≤ left)
    (hlm : left ≤ mid) (hmr : mid < right) (hr : right < arr.length) :
    ∃ P X1 X2 Q : List Int, arr = P ++ (X1 ++ (X2 ++ Q)) ∧ (P.length : Int) = left ∧
      (X1.length : Int) = mid - left + 1 ∧ (X2.length : Int) = right - mid ∧
      X1 = segment arr left mid ∧ X2 = segment arr (mid + 1) right ∧
      merge arr left mid right = P ++ (List.merge X1 X2 leInt ++ Q) := by
  obtain ⟨l, rfl⟩ := Int.eq_ofNat_of_zero_le h0
  obtain ⟨m, rfl⟩ := Int.eq_ofNat_of_zero_le (by omega : 0 ≤ mid)
  obtain ⟨r, rfl⟩ := Int.eq_ofNat_of_zero_le (by omega : 0 ≤ right)
  have hlm' : l ≤ m := by omega
  have hmr' : m < r := by omega
  have hr' : r < arr.length := by omega
  have hsplit := span_split arr l m r hlm' hmr'
  have hP : (arr.take l).length = l := by simp; omega
  have hX1 : ((arr.drop l).take (m - l + 1)).length = m - l + 1 := by simp; omega
  have hX2 : ((arr.drop (m + 1)).take (r - m)).length = r - m := by simp; omega
  have e1 : (m : Int) + 1 = ((m + 1 : Nat) : Int) := by push_cast; rfl
  refine ⟨arr.take l, (arr.drop l).take (m - l + 1), (arr.drop (m + 1)).take (r - m),
    arr.drop (r + 1), ?_, by omega, by omega, by omega, ?_, ?_, ?_⟩
  · conv => lhs; rw [← hsplit]
    simp only [List.append_assoc]
  · rw [segment_eq arr l m (by omega) (by omega)]
    congr 1; omega
  · rw [e1, segment_eq arr (m + 1) r (by omega) (by omega)]
    congr 1; omega
  · rw [merge_eq arr l m r hlm' hmr' hr', List.append_assoc]

/-- C14: for `0 ≤ left ≤ mid < right < len(arr)` with `arr[left..mid]` and
`arr[mid+1..right]` each non-decreasing, after `merge(arr, left, mid, right)` the span
`arr[left..right]` is the stable two-way merge of the two spans (on equal keys the left
span's element first); it is non-decreasing and a permutation of what the span held. -/
theorem merge_correct (arr : List Int) (left mid right : Int) (h0 : 0 ≤ left)
    (hlm : left ≤ mid) (hmr : mid < right) (hr : right < arr.length)
    (hL : NonDecreasing arr left mid) (hR : NonDecreasing arr (mid + 1) right) :
    segment (merge arr left mid right) left right
        = stableMerge (segment arr left mid) (segment arr (mid + 1) right) ∧
      NonDecreasing (merge arr left mid right) left right ∧
      List.Perm (segment (merge arr left mid right) left right) (segment arr left right) := by
  obtain ⟨P, X1, X2, Q, harr, hP, hX1, hX2, hs1, hs2, hres⟩ :=
    merge_decomp arr left mid right h0 hlm hmr hr
  have hperm := List.perm_merge leInt X1 X2
  have hlen : ((List.merge X1 X2 leInt).length : Int) = right - left + 1 := by
    rw [hperm.length_eq, List.length_append]; push_cast; omega
  have hseg : segment (merge arr left mid right) left right = List.merge X1 X2 leInt := by
    rw [hres]; exact segment_app _ _ _ _ _ (by omega) (by omega)
  have hsegA : segment arr left right = X1 ++ X2 := by
    conv => lhs; rw [harr, ← List.append_assoc X1 X2 Q]
    exact segment_app _ _ _ _ _ (by omega) (by rw [List.length_append]; push_cast; omega)
  have hp1 : X1.Pairwise (fun a b => a ≤ b) := by
    have h := sortedSeg_of_nonDecreasing arr left mid hL
    rw [harr] at h
    exact (sortedSeg_app P X1 (X2 ++ Q) left mid (by omega) (by omega)).1 h
  have hp2 : X2.Pairwise (fun a b => a ≤ b) := by
    have h := sortedSeg_of_nonDecreasing arr (mid + 1) right hR
    rw [harr, ← List.append_assoc P X1 (X2 ++ Q)] at h
    exact (sortedSeg_app (P ++ X1) X2 Q (mid + 1) right
      (by rw [List.length_append]; push_cast; omega) (by omega)).1 h
  refine ⟨?_, ?_, ?_⟩
  · rw [hseg, ← hs1, ← hs2, stableMerge_eq]
  · apply nonDecreasing_of_sortedSeg
    rw [hres]
    exact (sortedSeg_app P _ Q left right (by omega) (by omega)).2 (merge_pairwise X1 X2 hp1 hp2)
  · rw [hseg, hsegA]; exact hperm

theorem merge_correct_witness :
    (0 : Int) ≤ 1 ∧ (1 : Int) ≤ 2 ∧ (2 : Int) < 4 ∧
    (4 : Int) < (([7, 2, 6, 2, 3, 0] : List Int).length : Int) ∧
    NonDecreasing [7, 2, 6, 2, 3, 0] 1 2 ∧ NonDecreasing [7, 2, 6, 2, 3, 0] (2 + 1) 4 ∧
    merge [7, 2, 6, 2, 3, 0] 1 2 4 = [7, 2, 2, 3, 6, 0] ∧
    (segment (merge [7, 2, 6, 2, 3, 0] 1 2 4) 1 4
        = stableMerge (segment [7, 2, 6, 2, 3, 0] 1 2) (segment [7, 2, 6, 2, 3, 0] (2 + 1) 4) ∧
      NonDecreasing (merge [7, 2, 6, 2, 3, 0] 1 2 4) 1 4 ∧
      List.Perm (segment (merge [7, 2, 6, 2, 3, 0] 1 2 4) 1 4)
        (segment [7, 2, 6, 2, 3, 0] 1 4)) :=
  ⟨by decide, by decide, by decide, by decide,
    nonDecreasing_of_offsets _ _ _ (by decide), nonDecreasing_of_offsets _ _ _ (by decide),
    by decide,
    merge_correct [7, 2, 6, 2, 3, 0] 1 2 4 (by decide) (by decide) (by decide) (by decide)
      (nonDecreasing_of_offsets _ _ _ (by decide)) (nonDecreasing_of_offsets _ _ _ (by decide))⟩


theorem pairwise_of_length_le_one (X : List Int) (h : X.length ≤ 1) :
    X.Pairwise (fun a b => a ≤ b) := by
  match X, h with
  | [], _ => exact List.Pairwise.nil
  | [a], _ => exact List.pairwise_singleton _ a
  | _ :: _ :: _, h => simp at h

theorem mergeSortAux_app :
    ∀ (fuel : Nat) (P X Q : List Int) (l r : Nat), P.length = l → l + X.length = r + 1 →
      r - l ≤ fuel →
      ∃ S : List Int, mergeSortAux fuel (P ++ (X ++ Q)) (l : Int) (r : Int) = P ++ (S ++ Q) ∧
        S.Pairwise (fun a b => a ≤ b) ∧ S.Perm X := by
  intro fuel
  induction fuel with
  | zero =>
    intro P X Q l r _ hX hf
    exact ⟨X, rfl, pairwise_of_length_le_one X (by omega), List.Perm.refl X⟩
  | succ f ih =>
    intro P X Q l r hP hX hf
    rw [mergeSortAux]
    by_cases hlt : l < r
    · rw [if_pos (by omega)]
      have hd : ((r : Int) - (l : Int)).tdiv 2 = ((r : Int) - (l : Int)) / 2 :=
        Int.tdiv_eq_ediv (by omega) (by omega)
      have hmid : (l : Int) + ((r : Int) - (l : Int)) / 2 = ((l + (r - l) / 2 : Nat) : Int) := by
        omega
      simp only [hd, hmid]
      have e1 : ((l + (r - l) / 2 : Nat) : Int) + 1 = ((l + (r - l) / 2 + 1 : Nat) : Int) := by
        push_cast; rfl
      rw [e1]
      have hsplit : X = X.take ((r - l) / 2 + 1) ++ X.drop ((r - l) / 2 + 1) :=
        (List.take_append_drop _ X).symm
      have hl1 : (X.take ((r - l) / 2 + 1)).length = (r - l) / 2 + 1 := by
        rw [List.length_take]; omega
      have hl2 : (X.drop ((r - l) / 2 + 1)).length = r - l - (r - l) / 2 := by
        rw [List.length_drop]; omega
      generalize X.take ((r - l) / 2 + 1) = X1 at hsplit hl1
      generalize X.drop ((r - l) / 2 + 1) = X2 at hsplit hl2
      obtain ⟨S1, hs1, hp1, hq1⟩ := ih P X1 (X2 ++ Q) l (l + (r - l) / 2) hP (by omega)
        (by omega)
      obtain ⟨S2, hs2, hp2, hq2⟩ := ih (P ++ S1) X2 Q (l + (r - l) / 2 + 1) r
        (by rw [List.length_append, hq1.length_eq]; omega) (by omega) (by omega)
      rw [hsplit, List.append_assoc X1 X2 Q, hs1, ← List.append_assoc P S1 (X2 ++ Q), hs2,
        List.append_assoc P S1 (S2 ++ Q)]
      rw [merge_app P S1 S2 Q l (l + (r - l) / 2) r hP (by rw [hq1.length_eq]; omega)
        (by rw [hq2.length_eq]; omega) (by rw [hq1.length_eq]; omega)
        (by rw [hq2.length_eq]; omega)]
      exact ⟨List.merge S1 S2 leInt, rfl, merge_pairwise S1 S2 hp1 hp2,
        (List.perm_merge leInt S1 S2).trans (hq1.append hq2)⟩
    · rw [if_neg (by omega)]
      exact ⟨X, rfl, pairwise_of_length_le_one X (by omega), List.Perm.refl X⟩

/-- An in-range `mergeSort` cuts the buffer into prefix, span and suffix, and replaces the
span by a non-decreasing permutation of it. -/
theorem mergeSort_decomp (arr : List Int) (left right : Int) (h0 : 0 ≤ left)
    (hlr : left ≤ right) (hr : right < arr.length) :
    ∃ P X S Q : List Int, arr = P ++ (X ++ Q) ∧ (P.length : Int) = left ∧
      (X.length : Int) = right - left + 1 ∧ X = segment arr left right ∧
      mergeSort arr left right = P ++ (S ++ Q) ∧
      S.Pairwise (fun a b => a ≤ b) ∧ S.Perm X := by
  obtain ⟨hsplit, hP, hX⟩ := buffer_split arr left right h0 (by omega) hr
  obtain ⟨S, hs, hp, hq⟩ := mergeSortAux_app (right - left).toNat (arr.take left.toNat)
    (segment arr left right) (arr.drop (right + 1).toNat) left.toNat right.toNat
    (by omega) (by omega) (by omega)
  refine ⟨_, _, S, _, hsplit, hP, hX, rfl, ?_, hp, hq⟩
  unfold mergeSort
  rw [← hs, ← hsplit, Int.toNat_of_nonneg h0, Int.toNat_of_nonneg (by omega)]

/-- C15: for `0 ≤ left ≤ right < len(arr)`, after `mergeSort(arr, left, right)` the span
`arr[left..right]` is non-decreasing and is a permutation of what the span held before the
call. -/
theorem mergeSort_correct (arr : List Int) (left right : Int) (h0 : 0 ≤ left)
    (hlr : left ≤ right) (hr : right < arr.length) :
    NonDecreasing (mergeSort arr left right) left right ∧
      List.Perm (segment (mergeSort arr left right) left right) (segment arr left right) := by
  obtain ⟨P, X, S, Q, _, hP, hX, hseg, hres, hp, hq⟩ :=
    mergeSort_decomp arr left right h0 hlr hr
  have hlen : (S.length : Int) = right - left + 1 := by rw [hq.length_eq]; exact hX
  constructor
  · apply nonDecreasing_of_sortedSeg
    rw [hres]
    exact (sortedSeg_app P S Q left right (by omega) (by omega)).2 hp
  · rw [hres, segment_app P S Q left right (by omega) (by omega), ← hseg]
    exact hq

theorem mergeSort_correct_witness :
    (0 : Int) ≤ 1 ∧ (1 : Int) ≤ 4 ∧ (4 : Int) < (([7, 9, 6, 2, 3, 0] : List Int).length : Int) ∧
    mergeSort [7, 9, 6, 2, 3, 0] 1 4 = [7, 2, 3, 6, 9, 0] ∧
    (NonDecreasing (mergeSort [7, 9, 6, 2, 3, 0] 1 4) 1 4 ∧
      List.Perm (segment (mergeSort [7, 9, 6, 2, 3, 0] 1 4) 1 4)
        (segment [7, 9, 6, 2, 3, 0] 1 4)) :=
  ⟨by decide, by decide, by decide, by decide,
    mergeSort_correct [7, 9, 6, 2, 3, 0] 1 4 (by decide) (by decide) (by decide)⟩


/-! ## Frame properties -/

/-- An in-range `merge` keeps the length and every cell outside `arr[left..right]`. -/
theorem merge_frame (arr : List Int) (left mid right : Int) (h0 : 0 ≤ left)
    (hlm : left ≤ mid) (hmr : mid < right) (hr : right < arr.length) :
    (merge arr left mid right).length = arr.length ∧
      ∀ k : Int, (k < left ∨ right < k) → rd (merge arr left mid right) k = rd arr k := by
  obtain ⟨P, X1, X2, Q, harr, hP, hX1, hX2, _, _, hres⟩ :=
    merge_decomp arr left mid right h0 hlm hmr hr
  have hperm := List.perm_merge leInt X1 X2
  constructor
  · rw [hres]
    conv => rhs; rw [harr]
    simp only [List.length_append, hperm.length_eq]
    omega
  · intro k hk
    rw [hres]
    conv => rhs; rw [harr, ← List.append_assoc X1 X2 Q]
    apply rd_app_frame P (X1 ++ X2) _ Q hperm.length_eq
    rw [List.length_append]
    push_cast
    omega

/-- An in-range `mergeSort` keeps the length and every cell outside `arr[left..right]`. -/
theorem mergeSort_keeps_outside (arr : List Int) (left right : Int) (h0 : 0 ≤ left)
    (hlr : left ≤ right) (hr : right < arr.length) :
    (mergeSort arr left right).length = arr.length ∧
      ∀ k : Int, (k < left ∨ right < k) → rd (mergeSort arr left right) k = rd arr k := by
  obtain ⟨P, X, S, Q, harr, hP, hX, _, hres, _, hq⟩ :=
    mergeSort_decomp arr left right h0 hlr hr
  constructor
  · rw [hres]
    conv => rhs; rw [harr]
    simp only [List.length_append, hq.length_eq]
  · intro k hk
    rw [hres]
    conv => rhs; rw [harr]
    exact rd_app_frame P X S Q hq.length_eq k (by omega)

theorem mergeSortAuxT_calls :
    ∀ (fuel : Nat) (arr : List Int) (left right : Int),
      ∀ call ∈ (mergeSortAuxT fuel arr left right).2,
        left ≤ call.1 ∧ call.1 ≤ call.2.1 ∧ call.2.1 < call.2.2 ∧ call.2.2 ≤ right := by
  intro fuel
  induction fuel with
  | zero => intro arr left right call hc; simp [mergeSortAuxT] at hc
  | succ f ih =>
    intro arr left right call hc
    rw [mergeSortAuxT] at hc
    by_cases hlt : left < right
    · rw [if_pos hlt] at hc
      have hd : (right - left).tdiv 2 = (right - left) / 2 :=
        Int.tdiv_eq_ediv (by omega) (by omega)
      simp only [hd, List.mem_append, List.mem_singleton] at hc
      rcases hc with (h | h) | h
      · have := ih _ _ _ call h; omega
      · have := ih _ _ _ call h; omega
      · subst h
        simp only
        omega
    · rw [if_neg hlt] at hc
      simp at hc

/-- C16: for `0 ≤ left ≤ right < len(arr)`, `mergeSort(arr, left, right)` leaves the length
and every cell at an index outside `[left, right]` as they were; and every
`merge(arr, l, m, r)` it performs has `left ≤ l ≤ m < r ≤ right`, reads and writes only
cells of `[left, right]`, and leaves every cell outside `[left, right]` of the buffer it is
given as it was. So the local sort of a worker does not touch another worker's partition. -/
theorem mergeSort_frame (arr : List Int) (left right : Int) (h0 : 0 ≤ left)
    (hlr : left ≤ right) (hr : right < arr.length) :
    (mergeSort arr left right).length = arr.length ∧
    (∀ k : Int, (k < left ∨ right < k) → rd (mergeSort arr left right) k = rd arr k) ∧
    (∀ call ∈ (mergeSortT arr left right).2,
      (left ≤ call.1 ∧ call.1 ≤ call.2.1 ∧ call.2.1 < call.2.2 ∧ call.2.2 ≤ right) ∧
      ∀ b : List Int, b.length = arr.length →
        (∀ x ∈ (mergeT b call.1 call.2.1 call.2.2).2, left ≤ x ∧ x ≤ right) ∧
        (merge b call.1 call.2.1 call.2.2).length = b.length ∧
        ∀ k : Int, (k < left ∨ right < k) →
          rd (merge b call.1 call.2.1 call.2.2) k = rd b k) := by
  obtain ⟨h1, h2⟩ := mergeSort_keeps_outside arr left right h0 hlr hr
  refine ⟨h1, h2, ?_⟩
  intro call hc
  have hb := mergeSortAuxT_calls _ arr left right call hc
  refine ⟨hb, ?_⟩
  intro b hlen
  obtain ⟨f1, f2⟩ := merge_frame b call.1 call.2.1 call.2.2 (by omega) (by omega) (by omega)
    (by omega)
  refine ⟨?_, f1, ?_⟩
  · intro x hx
    have := mergeT_touched b call.1 call.2.1 call.2.2 (by omega) (by omega) x hx
    omega
  · intro k hk
    exact f2 k (by omega)

theorem mergeSort_frame_witness :
    (0 : Int) ≤ 1 ∧ (1 : Int) ≤ 4 ∧ (4 : Int) < (([7, 9, 6, 2, 3, 0] : List Int).length : Int) ∧
    mergeSortT [7, 9, 6, 2, 3, 0] 1 4
      = ([7, 2, 3, 6, 9, 0], [(1, 1, 2), (3, 3, 4), (1, 2, 4)]) ∧
    ((mergeSort [7, 9, 6, 2, 3, 0] 1 4).length = ([7, 9, 6, 2, 3, 0] : List Int).length ∧
    (∀ k : Int, (k < 1 ∨ 4 < k) →
      rd (mergeSort [7, 9, 6, 2, 3, 0] 1 4) k = rd [7, 9, 6, 2, 3, 0] k) ∧
    (∀ call ∈ (mergeSortT [7, 9, 6, 2, 3, 0] 1 4).2,
      (1 ≤ call.1 ∧ call.1 ≤ call.2.1 ∧ call.2.1 < call.2.2 ∧ call.2.2 ≤ 4) ∧
      ∀ b : List Int, b.length = ([7, 9, 6, 2, 3, 0] : List Int).length →
        (∀ x ∈ (mergeT b call.1 call.2.1 call.2.2).2, 1 ≤ x ∧ x ≤ 4) ∧
        (merge b call.1 call.2.1 call.2.2).length = b.length ∧
        ∀ k : Int, (k < 1 ∨ 4 < k) →
          rd (merge b call.1 call.2.1 call.2.2) k = rd b k)) :=
  ⟨by decide, by decide, by decide, by decide,
    mergeSort_frame [7, 9, 6, 2, 3, 0] 1 4 (by decide) (by decide) (by decide)⟩


/-! ## Sorted spans through the local phase -/

theorem sortedSeg_congr (a b : List Int) (lo hi : Int)
    (h : ∀ k : Int, lo ≤ k → k ≤ hi → rd a k = rd b k) (hb : SortedSeg b lo hi) :
    SortedSeg a lo hi := by
  intro p q hp hpq hq
  rw [h p hp (by omega), h q (by omega) hq]
  exact hb p q hp hpq hq

theorem sortedSeg_empty (arr : List Int) (lo hi : Int) (h : hi < lo) : SortedSeg arr lo hi :=
  fun p q hp hpq hq => by omega

/-- An in-range `merge` of two sorted spans leaves their union sorted. -/
theorem merge_sortedSeg (arr : List Int) (left mid right : Int) (h0 : 0 ≤ left)
    (hlm : left ≤ mid) (hmr : mid < right) (hr : right < arr.length)
    (hL : SortedSeg arr left mid) (hR : SortedSeg arr (mid + 1) right) :
    SortedSeg (merge arr left mid right) left right := by
  obtain ⟨P, X1, X2, Q, harr, hP, hX1, hX2, _, _, hres⟩ :=
    merge_decomp arr left mid right h0 hlm hmr hr
  have hperm := List.perm_merge leInt X1 X2
  have hlen : ((List.merge X1 X2 leInt).length : Int) = right - left + 1 := by
    rw [hperm.length_eq, List.length_append]; push_cast; omega
  have hp1 : X1.Pairwise (fun a b => a ≤ b) := by
    rw [harr] at hL
    exact (sortedSeg_app P X1 (X2 ++ Q) left mid (by omega) (by omega)).1 hL
  have hp2 : X2.Pairwise (fun a b => a ≤ b) := by
    rw [harr, ← List.append_assoc P X1 (X2 ++ Q)] at hR
    exact (sortedSeg_app (P ++ X1) X2 Q (mid + 1) right
      (by rw [List.length_append]; push_cast; omega) (by omega)).1 hR
  rw [hres]
  exact (sortedSeg_app P _ Q left right (by omega) (by omega)).2 (merge_pairwise X1 X2 hp1 hp2)

theorem mergeSort_sortedSeg (arr : List Int) (left right : Int) (h0 : 0 ≤ left)
    (hlr : left ≤ right) (hr : right < arr.length) :
    SortedSeg (mergeSort arr left right) left right := by
  obtain ⟨P, X, S, Q, _, hP, hX, _, hres, hp, hq⟩ := mergeSort_decomp arr left right h0 hlr hr
  have hlen : (S.length : Int) = right - left + 1 := by rw [hq.length_eq]; exact hX
  rw [hres]
  exact (sortedSeg_app P S Q left right (by omega) (by omega)).2 hp

/-- After the local phase every worker's partition is sorted. -/
theorem localSortPhase_sorted (arr : List Int) (N W : Int) (hlen : (arr.length : Int) = N)
    (h1 : 1 ≤ W) (hW : W ≤ N) :
    (localSortPhase arr N W).length = arr.length ∧
      ∀ i : Int, 0 ≤ i → i < W →
        SortedSeg (localSortPhase arr N W) (partStart N W i) (partEnd N W i) := by
  unfold localSortPhase
  have key : ∀ n : Nat, (n : Int) ≤ W →
      ((List.range n).foldl (fun (a : List Int) (i : Nat) =>
          mergeSort a (partStart N W (i : Int)) (partEnd N W (i : Int))) arr).length
        = arr.length ∧
      ∀ i : Int, 0 ≤ i → i < n →
        SortedSeg ((List.range n).foldl (fun (a : List Int) (i : Nat) =>
          mergeSort a (partStart N W (i : Int)) (partEnd N W (i : Int))) arr)
          (partStart N W i) (partEnd N W i) := by
    intro n
    induction n with
    | zero => intro _; exact ⟨rfl, fun i h0 h => by omega⟩
    | succ n ih =>
      intro hn
      obtain ⟨hl, hs⟩ := ih (by omega)
      rw [List.range_succ, List.foldl_append, List.foldl_cons, List.foldl_nil]
      generalize (List.range n).foldl (fun (a : List Int) (i : Nat) =>
          mergeSort a (partStart N W (i : Int)) (partEnd N W (i : Int))) arr = a at hl hs
      have hb := partition_bounds N W n h1 hW (by omega) (by omega)
      obtain ⟨f1, f2⟩ := mergeSort_keeps_outside a (partStart N W n) (partEnd N W n) hb.1
        hb.2.1 (by omega)
      refine ⟨by rw [f1, hl], ?_⟩
      intro i hi0 hi
      by_cases hin : i = n
      · rw [hin]
        exact mergeSort_sortedSeg a _ _ hb.1 hb.2.1 (by omega)
      · have hlt := partEnd_lt_partStart N W i n h1 hW (by omega) (by omega)
        exact sortedSeg_congr _ a _ _ (fun k _ hk2 => f2 k (by omega)) (hs i hi0 (by omega))
  have := key W.toNat (by omega)
  exact ⟨this.1, fun i hi0 hi => this.2 i hi0 (by omega)⟩


/-! ## The merge tree on an even split

With `N = W * c`, before the round with step `s` every aligned block of `u = s * c` cells,
`arr[u*t .. min(u*t + u - 1, N - 1)]`, is sorted; the round leaves every aligned block of
`2 * u` cells sorted. -/

theorem chunksInner_level (N W c s u : Int) (hc1 : 1 ≤ c) (hN : W * c = N)
    (hb : 2 * N ≤ INT_MAX) (hs : 1 ≤ s) (hsW : s < W) (hu : u = s * c) :
    ∀ (fuel : Nat) (arr : List Int) (i t0 : Int), 0 ≤ t0 → i = 2 * s * t0 →
      (W - i).toNat ≤ fuel → (arr.length : Int) = N →
      (∀ t : Int, 0 ≤ t → t < t0 →
        SortedSeg arr (2 * (u * t)) (min (2 * (u * t) + 2 * u - 1) (N - 1))) →
      (∀ t : Int, 2 * t0 ≤ t → SortedSeg arr (u * t) (min (u * t + u - 1) (N - 1))) →
      ((chunksInner W N c s fuel arr i).length : Int) = N ∧
        ∀ t : Int, 0 ≤ t →
          SortedSeg (chunksInner W N c s fuel arr i) (2 * (u * t))
            (min (2 * (u * t) + 2 * u - 1) (N - 1)) := by
  have hu1 : 1 ≤ u := by rw [hu]; nlinarith
  have done : ∀ (arr : List Int) (i t0 : Int), 0 ≤ t0 → i = 2 * s * t0 → W ≤ i →
      (∀ t : Int, 0 ≤ t → t < t0 →
        SortedSeg arr (2 * (u * t)) (min (2 * (u * t) + 2 * u - 1) (N - 1))) →
      ∀ t : Int, 0 ≤ t →
        SortedSeg arr (2 * (u * t)) (min (2 * (u * t) + 2 * u - 1) (N - 1)) := by
    intro arr i t0 ht0 hi hWi hA t ht
    by_cases htt : t < t0
    · exact hA t ht htt
    · apply sortedSeg_empty
      have e1 : i * c = 2 * (u * t0) := by rw [hi, hu]; ring
      have e2 : W * c ≤ i * c := mul_le_mul_of_nonneg_right hWi (by omega)
      have e3 : u * t0 ≤ u * t := mul_le_mul_of_nonneg_left (by omega) (by omega)
      have := min_le_right (2 * (u * t) + 2 * u - 1) (N - 1)
      omega
  intro fuel
  induction fuel with
  | zero =>
    intro arr i t0 ht0 hi hf hlen hA _
    rw [chunksInner]
    exact ⟨hlen, done arr i t0 ht0 hi (by omega) hA⟩
  | succ f ih =>
    intro arr i t0 ht0 hi hf hlen hA hB
    rw [chunksInner]
    by_cases hiW : i < W
    · rw [if_pos hiW]
      simp only
      have hi0 : 0 ≤ i := by rw [hi]; positivity
      have hinv : i = 0 ∨ 2 * s ≤ i := by
        by_cases ht : t0 = 0
        · left; rw [hi, ht]; ring
        · right
          have : 2 * s * 1 ≤ 2 * s * t0 := mul_le_mul_of_nonneg_left (by omega) (by omega)
          omega
      obtain ⟨x1, x2, x3, x4, x5⟩ :=
        chunk_step_exact N W c s i hc1 (le_of_eq hN) hb hs hsW hiW hinv
      rw [x1, x2, x3, x4, x5]
      have e1 : i * c = 2 * (u * t0) := by rw [hi, hu]; ring
      have e2 : (i + s) * c = i * c + u := by rw [hu]; ring
      have e3 : (i + 2 * s) * c = i * c + 2 * u := by rw [hu]; ring
      have e4 : i * c + c ≤ W * c := by nlinarith
      have e5 : 0 ≤ u * t0 := mul_nonneg (by omega) ht0
      have e6 : u * (2 * t0) = 2 * (u * t0) := by ring
      have e7 : u * (2 * t0 + 1) = 2 * (u * t0) + u := by ring
      have hnext : i + 2 * s = 2 * s * (t0 + 1) := by rw [hi]; ring
      have e8 : u * (t0 + 1) = u * t0 + u := by ring
      have hB0 := hB (2 * t0) (le_refl _)
      have hB1 := hB (2 * t0 + 1) (by omega)
      rw [e6] at hB0
      rw [e7] at hB1
      rw [e2, e3, e1]
      have hfam2 : ∀ (a : List Int),
          (∀ k : Int, 2 * (u * t0) + 2 * u ≤ k → rd a k = rd arr k) →
          ∀ t : Int, 2 * (t0 + 1) ≤ t → SortedSeg a (u * t) (min (u * t + u - 1) (N - 1)) := by
        intro a ha t ht
        have e9 : u * (2 * t0 + 2) ≤ u * t := mul_le_mul_of_nonneg_left (by omega) (by omega)
        have e10 : u * (2 * t0 + 2) = 2 * (u * t0) + 2 * u := by ring
        exact sortedSeg_congr a arr _ _ (fun k hk1 _ => ha k (by omega)) (hB t (by omega))
      have hfam1 : ∀ (a : List Int),
          (∀ k : Int, k < 2 * (u * t0) → rd a k = rd arr k) →
          SortedSeg a (2 * (u * t0)) (min (2 * (u * t0) + 2 * u - 1) (N - 1)) →
          ∀ t : Int, 0 ≤ t → t < t0 + 1 →
            SortedSeg a (2 * (u * t)) (min (2 * (u * t) + 2 * u - 1) (N - 1)) := by
        intro a ha hnew t ht htt
        by_cases htt0 : t = t0
        · rw [htt0]; exact hnew
        · have e11 : u * (t + 1) ≤ u * t0 := mul_le_mul_of_nonneg_left (by omega) (by omega)
          have e12 : u * (t + 1) = u * t + u := by ring
          refine sortedSeg_congr a arr _ _ (fun k _ hk2 => ha k ?_) (hA t ht (by omega))
          have := min_le_left (2 * (u * t) + 2 * u - 1) (N - 1)
          omega
      by_cases hlt : min (2 * (u * t0) + u - 1) (N - 1) < min (2 * (u * t0) + 2 * u - 1) (N - 1)
      · rw [if_pos hlt]
        have hmid : min (2 * (u * t0) + u - 1) (N - 1) = 2 * (u * t0) + u - 1 := by
          rcases min_choice (2 * (u * t0) + u - 1) (N - 1) with h | h
          · exact h
          · have := min_le_right (2 * (u * t0) + 2 * u - 1) (N - 1); omega
        have hright := min_le_right (2 * (u * t0) + 2 * u - 1) (N - 1)
        rw [hmid] at hlt hB0 ⊢
        have hB1' : SortedSeg arr (2 * (u * t0) + u - 1 + 1)
            (min (2 * (u * t0) + 2 * u - 1) (N - 1)) := by
          have e13 : 2 * (u * t0) + u - 1 + 1 = 2 * (u * t0) + u := by ring
          have e14 : 2 * (u * t0) + u + u - 1 = 2 * (u * t0) + 2 * u - 1 := by ring
          rw [e13]; rw [e14] at hB1; exact hB1
        obtain ⟨f1, f2⟩ := merge_frame arr (2 * (u * t0)) (2 * (u * t0) + u - 1)
          (min (2 * (u * t0) + 2 * u - 1) (N - 1)) (by omega) (by omega) hlt (by omega)
        have hnew := merge_sortedSeg arr (2 * (u * t0)) (2 * (u * t0) + u - 1)
          (min (2 * (u * t0) + 2 * u - 1) (N - 1)) (by omega) (by omega) hlt (by omega)
          hB0 hB1'
        exact ih _ (i + 2 * s) (t0 + 1) (by omega) hnext (by omega) (by rw [f1]; exact hlen)
          (hfam1 _ (fun k hk => f2 k (Or.inl hk)) hnew)
          (hfam2 _ (fun k hk => f2 k (Or.inr (by omega))))
      · rw [if_neg hlt]
        have hnew : SortedSeg arr (2 * (u * t0)) (min (2 * (u * t0) + 2 * u - 1) (N - 1)) := by
          have hle : min (2 * (u * t0) + 2 * u - 1) (N - 1)
              ≤ min (2 * (u * t0) + u - 1) (N - 1) := by omega
          intro p q hp hpq hq
          exact hB0 p q hp hpq (by omega)
        exact ih arr (i + 2 * s) (t0 + 1) (by omega) hnext (by omega) hlen
          (hfam1 arr (fun k _ => rfl) hnew) (hfam2 arr (fun k _ => rfl))
    · rw [if_neg hiW]
      exact ⟨hlen, done arr i t0 ht0 hi (by omega) hA⟩

theorem chunksOuter_level (N W c : Int) (hc1 : 1 ≤ c) (hN : W * c = N)
    (hb : 2 * N ≤ INT_MAX) :
    ∀ (fuel : Nat) (arr : List Int) (s u : Int), 1 ≤ s → u = s * c →
      (W - s).toNat ≤ fuel → (arr.length : Int) = N →
      (∀ t : Int, 0 ≤ t → SortedSeg arr (u * t) (min (u * t + u - 1) (N - 1))) →
      SortedSeg (chunksOuter W N c fuel arr s) 0 (N - 1) := by
  have done : ∀ (arr : List Int) (s u : Int), u = s * c → W ≤ s →
      (∀ t : Int, 0 ≤ t → SortedSeg arr (u * t) (min (u * t + u - 1) (N - 1))) →
      SortedSeg arr 0 (N - 1) := by
    intro arr s u hu hWs hL
    have h := hL 0 (le_refl 0)
    have e1 : W * c ≤ s * c := mul_le_mul_of_nonneg_right hWs (by omega)
    have e2 : min (u * 0 + u - 1) (N - 1) = N - 1 := by
      rw [min_eq_right]; rw [hu]; omega
    rw [e2, mul_zero] at h
    exact h
  intro fuel
  induction fuel with
  | zero =>
    intro arr s u _ hu hf _ hL
    rw [chunksOuter]
    exact done arr s u hu (by omega) hL
  | succ f ih =>
    intro arr s u hs hu hf hlen hL
    rw [chunksOuter]
    by_cases hlt : s < W
    · rw [if_pos hlt]
      obtain ⟨g1, g2⟩ := chunksInner_level N W c s u hc1 hN hb hs hlt hu W.toNat arr 0 0
        (le_refl 0) (by ring) (by omega) hlen (fun t h0 h => by omega)
        (fun t ht => hL t (by omega))
      refine ih _ (s * 2) (2 * u) (by omega) (by rw [hu]; ring) (by omega) g1 ?_
      intro t ht
      have e1 : 2 * u * t = 2 * (u * t) := by ring
      rw [e1]
      exact g2 t ht
    · rw [if_neg hlt]
      exact done arr s u hu (by omega) hL

/-- While `2 * N ≤ INT_MAX`, on an even split the merge tree sorts a buffer whose
partitions are sorted. -/
theorem mergeSortedChunks_even (arr : List Int) (N W : Int) (hlen : (arr.length : Int) = N)
    (h1 : 1 ≤ W) (hW : W ≤ N) (hdiv : N % W = 0) (hb : 2 * N ≤ INT_MAX)
    (hparts : ∀ i : Int, 0 ≤ i → i < W → SortedSeg arr (partStart N W i) (partEnd N W i)) :
    SortedSeg (mergeSortedChunks arr W N) 0 (N - 1) := by
  obtain ⟨hc1, _, _⟩ := chunk_facts N W h1 hW
  have hd : N.tdiv W = N / W := Int.tdiv_eq_ediv (by omega) (by omega)
  have hNc : W * N.tdiv W = N := by
    rw [hd]; exact Int.mul_ediv_cancel' (Int.dvd_of_emod_eq_zero hdiv)
  unfold mergeSortedChunks
  refine chunksOuter_level N W (N.tdiv W) hc1 hNc hb W.toNat arr 1 (N.tdiv W) (le_refl 1)
    (by ring) (by omega) hlen ?_
  intro t ht
  have hparts' : ∀ i : Int, 0 ≤ i → i < W →
      SortedSeg arr (i * N.tdiv W)
        (if i = W - 1 then N - 1 else (i + 1) * N.tdiv W - 1) := hparts
  generalize N.tdiv W = c at hc1 hNc hparts' ⊢
  by_cases htW : t < W
  · have hp := hparts' t ht htW
    have e1 : (t + 1) * c ≤ W * c := mul_le_mul_of_nonneg_right (by omega) (by omega)
    have e2 : (t + 1) * c = c * t + c := by ring
    have e3 : t * c = c * t := by ring
    have e4 : min (c * t + c - 1) (N - 1) = c * t + c - 1 := by
      rw [min_eq_left]; omega
    rw [e4]
    by_cases hlast : t = W - 1
    · rw [if_pos hlast, e3] at hp
      have e5 : W * c = c * t + c := by rw [hlast]; ring
      have e6 : c * t + c - 1 = N - 1 := by omega
      rw [e6]; exact hp
    · rw [if_neg hlast, e2, e3] at hp
      exact hp
  · apply sortedSeg_empty
    have e1 : W * c ≤ t * c := mul_le_mul_of_nonneg_right (by omega) (by omega)
    have e3 : t * c = c * t := by ring
    have := min_le_right (c * t + c - 1) (N - 1)
    omega

/-- While `2 * N ≤ INT_MAX`: for a buffer `A` of length `N ≥ 1` and `1 ≤ W ≤ N` with `N`
divisible by `W`, sorting each of the `W` partitions with `mergeSort` and then running
`mergeSortedChunks(arr, W, N)` leaves the whole buffer non-decreasing and a permutation of
`A`; so does the run of `main`, whose `isSorted` check then returns true. -/
theorem even_split_sorted_bounded (A : List Int) (N W : Int) (hN : (A.length : Int) = N)
    (h1 : 1 ≤ W) (hW : W ≤ N) (hdiv : N % W = 0) (hb : 2 * N ≤ INT_MAX) :
    NonDecreasing (mergeSortedChunks (localSortPhase A N W) W N) 0 (N - 1) ∧
      List.Perm (mergeSortedChunks (localSortPhase A N W) W N) A ∧
      sortRun A N W = mergeSortedChunks (localSortPhase A N W) W N ∧
      isSorted (sortRun A N W) N = true := by
  obtain ⟨hl, hs⟩ := localSortPhase_sorted A N W hN h1 hW
  have hsorted := mergeSortedChunks_even (localSortPhase A N W) N W (by rw [hl]; exact hN)
    h1 hW hdiv hb hs
  have hnd := nonDecreasing_of_sortedSeg _ _ _ hsorted
  have hP := mergeStable_perm A A.length
  have hN' : W ≤ (A.length : Int) := by omega
  have hlk := localSortPhase_keeps A.length _ hP W h1 hN' A rfl (List.Perm.refl A)
  have hmk := mergeSortedChunks_keeps A.length _ hP W h1 hN' (by rw [hN]; exact hb) _
    hlk.1 hlk.2
  rw [hN] at hmk
  have hrun : sortRun A N W = mergeSortedChunks (localSortPhase A N W) W N := by
    have hc : clampWorkers N W = W := by unfold clampWorkers; rw [if_neg (by omega)]
    unfold sortRun
    simp only [hc]
    by_cases hgt : W > 1
    · rw [if_pos hgt]
    · rw [if_neg hgt]
      have hW1 : W = 1 := by omega
      subst hW1
      rfl
  refine ⟨hnd, hmk.2, hrun, ?_⟩
  rw [hrun]
  exact (isSortedLoop_spec _ N N.toNat 0 (by omega)).2 hnd

theorem even_split_sorted_bounded_witness :
    ((([5, 3, 8, 1, 9, 2] : List Int).length : Int) = 6) ∧ (1 : Int) ≤ 2 ∧ (2 : Int) ≤ 6 ∧
    (6 : Int) % 2 = 0 ∧ (2 : Int) * 6 ≤ INT_MAX ∧
    mergeSortedChunks (localSortPhase [5, 3, 8, 1, 9, 2] 6 2) 2 6 = [1, 2, 3, 5, 8, 9] ∧
    (NonDecreasing (mergeSortedChunks (localSortPhase [5, 3, 8, 1, 9, 2] 6 2) 2 6) 0 (6 - 1) ∧
      List.Perm (mergeSortedChunks (localSortPhase [5, 3, 8, 1, 9, 2] 6 2) 2 6)
        [5, 3, 8, 1, 9, 2] ∧
      sortRun [5, 3, 8, 1, 9, 2] 6 2
        = mergeSortedChunks (localSortPhase [5, 3, 8, 1, 9, 2] 6 2) 2 6 ∧
      isSorted (sortRun [5, 3, 8, 1, 9, 2] 6 2) 6 = true) :=
  ⟨by decide, by decide, by decide, by decide, by decide, by decide,
    even_split_sorted_bounded [5, 3, 8, 1, 9, 2] 6 2 (by decide) (by decide) (by decide)
      (by decide) (by decide)⟩


/-! ## The merge calls do not depend on what the buffer holds -/

theorem chunksInnerT_calls_indep (W N c step : Int) :
    ∀ (fuel : Nat) (a b : List Int) (i : Int),
      (chunksInnerT W N c step fuel a i).2 = (chunksInnerT W N c step fuel b i).2 := by
  intro fuel
  induction fuel with
  | zero => intro a b i; rfl
  | succ f ih =>
    intro a b i
    rw [chunksInnerT, chunksInnerT]
    by_cases h1 : i < W
    · rw [if_pos h1, if_pos h1]
      simp only
      by_cases h2 : min (intSub (intMul (intAdd i step) c) 1) (intSub N 1)
          < min (intSub (intMul (intAdd i (intMul 2 step)) c) 1) (intSub N 1)
      · rw [if_pos h2, if_pos h2]
        simp only [ih _ (merge b (intMul i c)
          (min (intSub (intMul (intAdd i step) c) 1) (intSub N 1))
          (min (intSub (intMul (intAdd i (intMul 2 step)) c) 1) (intSub N 1)))]
      · rw [if_neg h2, if_neg h2]
        exact ih _ _ _
    · rw [if_neg h1, if_neg h1]

theorem chunksOuterT_calls_indep (W N c : Int) :
    ∀ (fuel : Nat) (a b : List Int) (step : Int),
      (chunksOuterT W N c fuel a step).2 = (chunksOuterT W N c fuel b step).2 := by
  intro fuel
  induction fuel with
  | zero => intro a b step; rfl
  | succ f ih =>
    intro a b step
    rw [chunksOuterT, chunksOuterT]
    by_cases h1 : step < W
    · rw [if_pos h1, if_pos h1]
      simp only
      rw [chunksInnerT_calls_indep W N c step W.toNat a b 0,
        ih (chunksInnerT W N c step W.toNat a 0).1 (chunksInnerT W N c step W.toNat b 0).1]
    · rw [if_neg h1, if_neg h1]

theorem mergeSortedChunksT_calls_indep (a b : List Int) (W N : Int) :
    (mergeSortedChunksT a W N).2 = (mergeSortedChunksT b W N).2 :=
  chunksOuterT_calls_indep W N _ _ a b 1


/-! ## Sorted spans are left as they are -/

theorem eq_of_sorted_perm (S X : List Int) (hS : S.Pairwise (fun a b => a ≤ b))
    (hX : X.Pairwise (fun a b => a ≤ b)) (hp : S.Perm X) : S = X :=
  List.eq_of_perm_of_sorted hp hS hX

/-- An in-range `merge` inside a sorted span changes nothing. -/
theorem merge_id_of_sortedSeg (arr : List Int) (left mid right : Int) (h0 : 0 ≤ left)
    (hlm : left ≤ mid) (hmr : mid < right) (hr : right < arr.length)
    (hs : SortedSeg arr left right) : merge arr left mid right = arr := by
  obtain ⟨P, X1, X2, Q, harr, hP, hX1, hX2, _, _, hres⟩ :=
    merge_decomp arr left mid right h0 hlm hmr hr
  have hX : (X1 ++ X2).Pairwise (fun a b => a ≤ b) := by
    rw [harr, ← List.append_assoc X1 X2 Q] at hs
    exact (sortedSeg_app P (X1 ++ X2) Q left right (by omega)
      (by rw [List.length_append]; push_cast; omega)).1 hs
  have h12 := List.pairwise_append.1 hX
  have hm : List.merge X1 X2 leInt = X1 ++ X2 :=
    eq_of_sorted_perm _ _ (merge_pairwise X1 X2 h12.1 h12.2.1) hX (List.perm_merge leInt X1 X2)
  rw [hres, hm, List.append_assoc]
  exact harr.symm

/-- An in-range `mergeSort` of a sorted span changes nothing. -/
theorem mergeSort_id_of_sortedSeg (arr : List Int) (left right : Int) (h0 : 0 ≤ left)
    (hlr : left ≤ right) (hr : right < arr.length) (hs : SortedSeg arr left right) :
    mergeSort arr left right = arr := by
  obtain ⟨P, X, S, Q, harr, hP, hX, _, hres, hp, hq⟩ :=
    mergeSort_decomp arr left right h0 hlr hr
  have hXs : X.Pairwise (fun a b => a ≤ b) := by
    rw [harr] at hs
    exact (sortedSeg_app P X Q left right (by omega) (by omega)).1 hs
  rw [hres, eq_of_sorted_perm S X hp hXs hq]
  exact harr.symm

/-- The local phase leaves a buffer whose partitions are already sorted as it is. -/
theorem localSortPhase_id (arr : List Int) (N W : Int) (hlen : (arr.length : Int) = N)
    (h1 : 1 ≤ W) (hW : W ≤ N)
    (hparts : ∀ i : Int, 0 ≤ i → i < W → SortedSeg arr (partStart N W i) (partEnd N W i)) :
    localSortPhase arr N W = arr := by
  unfold localSortPhase
  have key : ∀ (is : List Nat), (∀ i ∈ is, (i : Int) < W) →
      is.foldl (fun (a : List Int) (i : Nat) =>
          mergeSort a (partStart N W (i : Int)) (partEnd N W (i : Int))) arr = arr := by
    intro is
    induction is with
    | nil => intro _; rfl
    | cons i is ih =>
      intro his
      rw [List.foldl_cons]
      have hi := his i (List.mem_cons_self _ _)
      have hb := partition_bounds N W i h1 hW (by omega) hi
      rw [mergeSort_id_of_sortedSeg arr _ _ hb.1 hb.2.1 (by omega) (hparts i (by omega) hi)]
      exact ih (fun j hj => his j (List.mem_cons_of_mem _ hj))
  exact key _ (fun i hi => by have := List.mem_range.1 hi; omega)

theorem rd_replicate (n : Nat) (v : Int) (k : Int) (h0 : 0 ≤ k) (hk : k < n) :
    rd (List.replicate n v) k = v := by
  obtain ⟨t, rfl⟩ := Int.eq_ofNat_of_zero_le h0
  rw [rd_getElem _ t (by rw [List.length_replicate]; omega)]
  exact List.getElem_replicate _ _

/-! ## The run at `size = 1342177285`, five workers -/

/-- At `size = 1342177285 = 5 * 268435457` with five workers the product `8 * chunk_size`
of the last two rounds leaves `int`, `right` becomes negative, and `mergeSortedChunks`
issues only the three merges below: the last partition is never merged with the rest. -/
theorem mergeSortedChunks_overflow_run (arr : List Int) :
    mergeSortedChunks arr 5 1342177285
      = merge (merge (merge arr 0 268435456 536870913) 536870914 805306370 1073741827)
          0 536870913 1073741827 := by
  have hc : (1342177285 : Int).tdiv 5 = 268435457 := by decide
  have hf : (5 : Int).toNat = 5 := rfl
  unfold mergeSortedChunks
  rw [hc, hf]
  simp [chunksOuter, chunksInner, intMul, intAdd, intSub, wrapInt]

/-- A buffer of `1342177285` cells whose first four partitions hold 1 and whose last
partition holds 0 comes out of the run as it went in. -/
theorem sortRun_overflow_id (A : List Int) (hlen : (A.length : Int) = 1342177285)
    (h1 : ∀ k : Int, 0 ≤ k → k < 1073741828 → rd A k = 1)
    (h0 : ∀ k : Int, 1073741828 ≤ k → k < 1342177285 → rd A k = 0) :
    sortRun A 1342177285 5 = A := by
  have hw : clampWorkers 1342177285 5 = 5 := by decide
  have hones : ∀ lo hi : Int, 0 ≤ lo → hi < 1073741828 → SortedSeg A lo hi := by
    intro lo hi hlo hhi p q hp hpq hq
    rw [h1 p (by omega) (by omega), h1 q (by omega) (by omega)]
  have hzeros : ∀ lo hi : Int, 1073741828 ≤ lo → hi < 1342177285 → SortedSeg A lo hi := by
    intro lo hi hlo hhi p q hp hpq hq
    rw [h0 p (by omega) (by omega), h0 q (by omega) (by omega)]
  have hc : (1342177285 : Int).tdiv 5 = 268435457 := by decide
  have hloc : localSortPhase A 1342177285 5 = A := by
    apply localSortPhase_id A 1342177285 5 hlen (by decide) (by decide)
    intro i hi0 hi
    unfold partStart partEnd chunkSize
    rw [hc]
    have : i = 0 ∨ i = 1 ∨ i = 2 ∨ i = 3 ∨ i = 4 := by omega
    rcases this with h | h | h | h | h <;> subst h
    · exact hones _ _ (by decide) (by decide)
    · exact hones _ _ (by decide) (by decide)
    · exact hones _ _ (by decide) (by decide)
    · exact hones _ _ (by decide) (by decide)
    · exact hzeros _ _ (by decide) (by decide)
  unfold sortRun
  simp only [hw]
  rw [if_pos (by decide), hloc, mergeSortedChunks_overflow_run]
  rw [merge_id_of_sortedSeg A 0 268435456 536870913 (by decide) (by decide) (by decide)
    (by omega) (hones _ _ (by decide) (by decide))]
  rw [merge_id_of_sortedSeg A 536870914 805306370 1073741827 (by decide) (by decide)
    (by decide) (by omega) (hones _ _ (by decide) (by decide))]
  rw [merge_id_of_sortedSeg A 0 536870913 1073741827 (by decide) (by decide) (by decide)
    (by omega) (hones _ _ (by decide) (by decide))]

/-! ## Runs in which the index products of `mergeSortedChunks` leave `int` -/

/-- C19, at `N = 2147483645`, `W = 5`: the merge calls of `mergeSortedChunks` are the four
listed, whatever the buffer holds. In the last one `(i + step) * chunk_size - 1` and
`(i + 2 * step) * chunk_size - 1` have left `int`: `mid` and `right` are negative and
`left > mid`, so the call violates `0 ≤ left ≤ mid < right ≤ N - 1`. -/
theorem merge_calls_overflow (arr : List Int) :
    (mergeSortedChunksT arr 5 2147483645).2.1
      = [(0, 429496728, 858993457), (858993458, 1288490186, 1717986915),
          (0, 858993457, 1717986915), (1717986916, -1717986923, -858993465)] ∧
    ∃ c ∈ (mergeSortedChunksT arr 5 2147483645).2.1,
      c.2.1 < 0 ∧ c.2.2 < 0 ∧ c.2.1 < c.1 ∧
        ¬ (0 ≤ c.1 ∧ c.1 ≤ c.2.1 ∧ c.2.1 < c.2.2 ∧ c.2.2 ≤ 2147483645 - 1) := by
  rw [mergeSortedChunksT_calls_indep arr [] 5 2147483645]
  refine ⟨by decide, (1717986916, -1717986923, -858993465), by decide, by decide⟩

/-- C18, at `N = 1342177285 = 5 * 268435457`, `W = 5` (so `N` is divisible by `W`), on
the buffer that holds 1 in the first four partitions and 0 in the last: the run returns
the buffer as it was, the cell `1073741827` holds 1 and the next cell holds 0, and
`isSorted` answers false. The products `8 * chunk_size` of the last two rounds leave `int`
and the last partition is never merged. -/
theorem even_split_overflow_unsorted :
    (1342177285 : Int) % 5 = 0 ∧
    ((onesThenZeros 1073741828 268435457).length : Int) = 1342177285 ∧
    sortRun (onesThenZeros 1073741828 268435457) 1342177285 5
      = onesThenZeros 1073741828 268435457 ∧
    rd (sortRun (onesThenZeros 1073741828 268435457) 1342177285 5) 1073741827 = 1 ∧
    rd (sortRun (onesThenZeros 1073741828 268435457) 1342177285 5) (1073741827 + 1) = 0 ∧
    isSorted (sortRun (onesThenZeros 1073741828 268435457) 1342177285 5) 1342177285
      = false := by
  have hlen : ((onesThenZeros 1073741828 268435457).length : Int) = 1342177285 := by
    unfold onesThenZeros
    rw [List.length_append, List.length_replicate, List.length_replicate]
    norm_num
  have h1 : ∀ k : Int, 0 ≤ k → k < 1073741828 →
      rd (onesThenZeros 1073741828 268435457) k = 1 := by
    intro k hk0 hk
    unfold onesThenZeros
    rw [rd_app_left _ _ k (by rw [List.length_replicate]; omega)]
    exact rd_replicate _ _ k hk0 (by omega)
  have h0 : ∀ k : Int, 1073741828 ≤ k → k < 1342177285 →
      rd (onesThenZeros 1073741828 268435457) k = 0 := by
    intro k hk0 hk
    unfold onesThenZeros
    rw [rd_app_right _ _ k (by rw [List.length_replicate]; omega), List.length_replicate]
    exact rd_replicate _ _ _ (by omega) (by omega)
  have hrun := sortRun_overflow_id (onesThenZeros 1073741828 268435457) hlen h1 h0
  have ha := h1 1073741827 (by decide) (by decide)
  have hb := h0 (1073741827 + 1) (by decide) (by decide)
  refine ⟨by decide, hlen, hrun, ?_, ?_, ?_⟩
  · rw [hrun]; exact ha
  · rw [hrun]; exact hb
  · rw [hrun]
    cases hs : isSorted (onesThenZeros 1073741828 268435457) 1342177285
    · rfl
    · exfalso
      unfold isSorted at hs
      have := (isSortedLoop_spec _ 1342177285 (1342177285 : Int).toNat 0 (by omega)).1 hs
        1073741827 (by decide) (by decide)
      rw [ha, hb] at this
      exact absurd this (by decide)

end MapReduce
